import Mathlib

/-!
# Binary search tree with parent pointers (`binsearchtree.c`)

A shallow embedding of the pointer program.  Nodes live in a heap that is a
list of slots; an address is an index into the list, `NULL` is `none`,
`malloc` appends a slot and `free` empties one.  Every loop and the recursive
walk take a `fuel` argument; a result of `none` means that the fuel ran out
or that the program dereferenced `NULL` or a freed address.  The record
`Tree` stands for the C `struct tree` together with the heap; the output of
`inorder` is the list of the values it prints, and `delete_node` returns a
flag that tells whether it printed its not-found message.

The file has two parts: the definitions (the program, then the abstract tree
shapes and the predicates used in the statements), and the theorems.
-/

namespace BinSearchTree

/-! ## The data model -/

/-- The C `struct treenode`: an `int` value and three pointers. -/
structure TreeNode where
  value : Int
  parent : Option Nat
  left : Option Nat
  right : Option Nat
deriving DecidableEq, Repr

/-- The heap: slot `a` holds the node stored at address `a`, or `none` when the
address is not allocated (never allocated, or freed). -/
abbrev Heap := List (Option TreeNode)

/-- The C `struct tree` together with the heap its nodes live in. -/
structure Tree where
  heap : Heap
  root : Option Nat
deriving DecidableEq, Repr

/-- Read the node at address `a` (`*a`); `none` when `a` is not allocated. -/
def load (h : Heap) (a : Nat) : Option TreeNode :=
  Option.join h[a]?

/-- The assignment `a->value = v`. -/
def set_value (h : Heap) (a : Nat) (v : Int) : Option Heap :=
  (load h a).map fun nd => h.set a (some { nd with value := v })

/-- The assignment `a->parent = p`. -/
def set_parent (h : Heap) (a : Nat) (p : Option Nat) : Option Heap :=
  (load h a).map fun nd => h.set a (some { nd with parent := p })

/-- The assignment `a->left = p`. -/
def set_left (h : Heap) (a : Nat) (p : Option Nat) : Option Heap :=
  (load h a).map fun nd => h.set a (some { nd with left := p })

/-- The assignment `a->right = p`. -/
def set_right (h : Heap) (a : Nat) (p : Option Nat) : Option Heap :=
  (load h a).map fun nd => h.set a (some { nd with right := p })

/-- The call `free(a)`: the slot becomes unallocated. -/
def free (h : Heap) (a : Nat) : Option Heap :=
  (load h a).map fun _ => h.set a none

/-! ## The operations -/

/-- `initialize_tree`: a tree with no root (and no node allocated). -/
def initialize_tree : Tree :=
  { heap := [], root := none }

/-- `initialize_node`: allocate a node with value `n` and the three pointers
`NULL`; returns the new heap and the address of the node. -/
def initialize_node (h : Heap) (n : Int) : Heap × Nat :=
  (h ++ [some { value := n, parent := none, left := none, right := none }], h.length)

/-- The `while(TRUE)` loop of `find_node`, started at pointer `tn`. -/
def find_loop : Nat → Heap → Option Nat → Int → Option (Option Nat)
  | 0, _, _, _ => none
  | _ + 1, _, none, _ => some none
  | fuel + 1, h, some a, n =>
    match load h a with
    | none => none
    | some nd =>
      if n < nd.value then find_loop fuel h nd.left n
      else if n > nd.value then find_loop fuel h nd.right n
      else some (some a)

/-- `find_node`: the address of the node holding `n`, or `NULL`. -/
def find_node (fuel : Nat) (t : Tree) (n : Int) : Option (Option Nat) :=
  find_loop fuel t.heap t.root n

/-- The `while (x != NULL)` loop of `insert_node`; `tn` is the new node. The
result is the final `y`. -/
def insert_loop : Nat → Heap → Nat → Option Nat → Option Nat → Option (Option Nat)
  | 0, _, _, _, _ => none
  | _ + 1, _, _, none, y => some y
  | fuel + 1, h, tn, some x, _ =>
    match load h tn, load h x with
    | some tnd, some xd =>
      if tnd.value < xd.value then insert_loop fuel h tn xd.left (some x)
      else insert_loop fuel h tn xd.right (some x)
    | _, _ => none

/-- `insert_node`. -/
def insert_node (fuel : Nat) (t : Tree) (n : Int) : Option Tree :=
  match find_node fuel t n with
  | none => none
  | some (some _) => some t
  | some none =>
    let (h0, tn) := initialize_node t.heap n
    match insert_loop fuel h0 tn t.root none with
    | none => none
    | some y =>
      match set_parent h0 tn y with
      | none => none
      | some h1 =>
        match y with
        | none => some { heap := h1, root := some tn }
        | some ya =>
          match load h1 tn, load h1 ya with
          | some tnd, some yd =>
            if tnd.value < yd.value then
              (set_left h1 ya (some tn)).map fun h2 => { heap := h2, root := t.root }
            else
              (set_right h1 ya (some tn)).map fun h2 => { heap := h2, root := t.root }
          | _, _ => none

/-- `tree_minimum`: follow `left` links from `tn` until there is none. -/
def tree_minimum : Nat → Heap → Nat → Option Nat
  | 0, _, _ => none
  | fuel + 1, h, tn =>
    match load h tn with
    | none => none
    | some nd =>
      match nd.left with
      | none => some tn
      | some l => tree_minimum fuel h l

/-- The upward `while` loop of `successor`. -/
def successor_loop : Nat → Heap → Nat → Option Nat → Option (Option Nat)
  | 0, _, _, _ => none
  | _ + 1, _, _, none => some none
  | fuel + 1, h, tn, some p =>
    match load h p with
    | none => none
    | some pd =>
      if pd.right = some tn then successor_loop fuel h p pd.parent
      else some (some p)

/-- `successor`. -/
def successor (fuel : Nat) (h : Heap) (tn : Nat) : Option (Option Nat) :=
  match load h tn with
  | none => none
  | some nd =>
    match nd.right with
    | some r => (tree_minimum fuel h r).map some
    | none => successor_loop fuel h tn nd.parent

/-- Case 1 of `delete_node`: `tn` has no children. -/
def delete_leaf (t : Tree) (tn : Nat) : Option Tree :=
  match load t.heap tn with
  | none => none
  | some nd =>
    match nd.parent with
    | none => (free t.heap tn).map fun h => { heap := h, root := none }
    | some p =>
      match load t.heap p with
      | none => none
      | some pd =>
        let h1 := if some tn = pd.right then set_right t.heap p none
                  else set_left t.heap p none
        (h1.bind fun h => free h tn).map fun h => { heap := h, root := t.root }

/-- Case 2 of `delete_node`, first half: `tn` has a right child only. -/
def delete_right_only (t : Tree) (tn : Nat) : Option Tree :=
  match load t.heap tn with
  | none => none
  | some nd =>
    match nd.parent with
    | none =>
      -- t->root = tn->right; (tn->right)->parent = NULL;
      match nd.right with
      | none => none
      | some r =>
        ((set_parent t.heap r none).bind fun h => free h tn).map
          fun h => { heap := h, root := nd.right }
    | some p =>
      match load t.heap p with
      | none => none
      | some pd =>
        let h1 := if some tn = pd.left then set_left t.heap p nd.right
                  else set_right t.heap p nd.right
        -- (tn->right)->parent = tn->parent;
        let h2 := h1.bind fun h =>
          match load h tn with
          | none => none
          | some nd1 =>
            match nd1.right with
            | none => none
            | some r => set_parent h r nd1.parent
        (h2.bind fun h => free h tn).map fun h => { heap := h, root := t.root }

/-- Case 2 of `delete_node`, second half: `tn` has a left child only. -/
def delete_left_only (t : Tree) (tn : Nat) : Option Tree :=
  match load t.heap tn with
  | none => none
  | some nd =>
    match nd.parent with
    | none =>
      -- t->root = tn->left; (tn->left)->parent = NULL;
      match nd.left with
      | none => none
      | some l =>
        ((set_parent t.heap l none).bind fun h => free h tn).map
          fun h => { heap := h, root := nd.left }
    | some p =>
      match load t.heap p with
      | none => none
      | some pd =>
        let h1 := if some tn = pd.right then set_right t.heap p nd.left
                  else set_left t.heap p nd.left
        -- (tn->left)->parent = tn->parent;
        let h2 := h1.bind fun h =>
          match load h tn with
          | none => none
          | some nd1 =>
            match nd1.left with
            | none => none
            | some l => set_parent h l nd1.parent
        (h2.bind fun h => free h tn).map fun h => { heap := h, root := t.root }

/-- The statements `tn->value = rep_tn->value; free(rep_tn);`. -/
def copy_and_free (h : Heap) (tn rep : Nat) : Option Heap :=
  match load h rep with
  | none => none
  | some rd => (set_value h tn rd.value).bind fun h1 => free h1 rep

/-- Case 3 of `delete_node`: `tn` has two children and `rep_tn` is the result
of `successor(tn)`. -/
def delete_two_children (t : Tree) (tn : Nat) (rep_tn : Option Nat) : Option Tree :=
  match rep_tn with
  | none => none
  | some rep =>
    match load t.heap rep with
    | none => none
    | some rd =>
      if rd.left = none ∧ rd.right = none then
        match rd.parent with
        | none => none
        | some rp =>
          match load t.heap rp with
          | none => none
          | some rpd =>
            if some rep = rpd.right then
              ((set_right t.heap rp none).bind fun h => copy_and_free h tn rep).map
                fun h => { heap := h, root := t.root }
            else if some rep = rpd.left then
              ((set_left t.heap rp none).bind fun h => copy_and_free h tn rep).map
                fun h => { heap := h, root := t.root }
            else some t
      else if rd.right ≠ none ∧ rd.left = none then
        match rd.parent with
        | none => none
        | some rp =>
          match load t.heap rp with
          | none => none
          | some rpd =>
            -- (rep_tn->right)->parent = rep_tn->parent;
            let relink := fun (h : Heap) =>
              match load h rep with
              | none => none
              | some rd1 =>
                match rd1.right with
                | none => none
                | some c => set_parent h c rd1.parent
            let h2 :=
              if rpd.left = some rep then (set_left t.heap rp rd.right).bind relink
              else if rpd.right = some rep then (set_right t.heap rp rd.right).bind relink
              else some t.heap
            (h2.bind fun h => copy_and_free h tn rep).map
              fun h => { heap := h, root := t.root }
      else some t

/-- `delete_node`.  The Boolean of the result is `true` when the message
`Integer Not in tree.  Try again.` was printed. -/
def delete_node (fuel : Nat) (t : Tree) (n : Int) : Option (Tree × Bool) :=
  match find_node fuel t n with
  | none => none
  | some none => some (t, true)
  | some (some tn) =>
    match load t.heap tn with
    | none => none
    | some nd =>
      if nd.left = none ∧ nd.right = none then
        (delete_leaf t tn).map fun t1 => (t1, false)
      else if nd.left = none ∧ nd.right ≠ none then
        (delete_right_only t tn).map fun t1 => (t1, false)
      else if nd.right = none ∧ nd.left ≠ none then
        (delete_left_only t tn).map fun t1 => (t1, false)
      else
        ((successor fuel t.heap tn).bind fun rep => delete_two_children t tn rep).map
          fun t1 => (t1, false)

/-- `inorder`: the sequence of values printed by the walk started at `tn`. -/
def inorder : Nat → Heap → Option Nat → Option (List Int)
  | 0, _, _ => none
  | _ + 1, _, none => some []
  | fuel + 1, h, some a =>
    match load h a with
    | none => none
    | some nd =>
      match inorder fuel h nd.left, inorder fuel h nd.right with
      | some ls, some rs => some (ls ++ nd.value :: rs)
      | _, _ => none

/-- Run a list of insertions, left to right. -/
def insert_all (fuel : Nat) : Tree → List Int → Option Tree
  | t, [] => some t
  | t, k :: ks => (insert_node fuel t k).bind fun t1 => insert_all fuel t1 ks

/-! ## Abstract shapes and the representation relation -/

/-- The shape of a tree in the heap: every node carries its address and value. -/
inductive Shape where
  | nil : Shape
  | node (l : Shape) (a : Nat) (v : Int) (r : Shape) : Shape
deriving DecidableEq, Repr

namespace Shape

/-- Pointer to the top node of a shape (`NULL` for the empty shape). -/
def root : Shape → Option Nat
  | nil => none
  | node _ a _ _ => some a

/-- Values in in-order. -/
def keys : Shape → List Int
  | nil => []
  | node l _ v r => l.keys ++ v :: r.keys

/-- Addresses in in-order. -/
def addrs : Shape → List Nat
  | nil => []
  | node l a _ r => l.addrs ++ a :: r.addrs

/-- Number of nodes on the longest downward path. -/
def height : Shape → Nat
  | nil => 0
  | node l _ _ r => max l.height r.height + 1

/-- BST ordering: at every node, the keys of the left subtree are smaller and
the keys of the right subtree are larger than the node's value. -/
def BST : Shape → Prop
  | nil => True
  | node l _ v r => l.BST ∧ r.BST ∧ (∀ k ∈ l.keys, k < v) ∧ (∀ k ∈ r.keys, v < k)

end Shape

/-- The heap `h` holds the shape `s` below a node whose address is `par`:
every node of `s` is allocated with the value, the child pointers and the
parent pointer that the shape dictates. -/
def Rep (h : Heap) : Option Nat → Shape → Prop
  | _, .nil => True
  | par, .node l a v r =>
    load h a = some { value := v, parent := par, left := l.root, right := r.root } ∧
    Rep h (some a) l ∧ Rep h (some a) r

/-- One step of a path from a node down to one of its subtrees: the node's
address and value, and the sibling subtree that is not entered. -/
inductive Frame where
  | left (a : Nat) (v : Int) (r : Shape) : Frame
  | right (l : Shape) (a : Nat) (v : Int) : Frame
deriving DecidableEq, Repr

namespace Frame

/-- Address of the node of a frame. -/
def addr : Frame → Nat
  | left a _ _ => a
  | right _ a _ => a

/-- Put the shape `s` into the hole of the frame. -/
def fill : Frame → Shape → Shape
  | left a v r, s => .node s a v r
  | right l a v, s => .node l a v s

/-- Child pointers of the frame's node when the hole holds pointer `hole`. -/
def leftPtr : Frame → Option Nat → Option Nat
  | left _ _ _, hole => hole
  | right l _ _, _ => l.root

/-- Right child pointer of the frame's node when the hole holds `hole`. -/
def rightPtr : Frame → Option Nat → Option Nat
  | left _ _ r, _ => r.root
  | right _ _ _, hole => hole

/-- Value of the node of a frame. -/
def val : Frame → Int
  | left _ v _ => v
  | right _ _ v => v

/-- The sibling subtree of a frame. -/
def sib : Frame → Shape
  | left _ _ r => r
  | right l _ _ => l

end Frame

/-- A context: the frames from a hole up to the root, innermost first. -/
abbrev Ctx := List Frame

/-- Fill the hole of a context. -/
def plug : Ctx → Shape → Shape
  | [], s => s
  | f :: fs, s => plug fs (f.fill s)

/-- Address of the node directly above the hole. -/
def ctxParent : Ctx → Option Nat
  | [] => none
  | f :: _ => some f.addr

/-- Addresses of a context: frame nodes and their sibling subtrees. -/
def ctxAddrs : Ctx → List Nat
  | [] => []
  | f :: fs => f.addr :: (f.sib.addrs ++ ctxAddrs fs)

/-- Keys of a context that precede the hole in in-order. -/
def ctxBefore : Ctx → List Int
  | [] => []
  | .left _ _ _ :: fs => ctxBefore fs
  | .right l _ v :: fs => ctxBefore fs ++ (l.keys ++ [v])

/-- Keys of a context that follow the hole in in-order. -/
def ctxAfter : Ctx → List Int
  | [] => []
  | .left _ v r :: fs => (v :: r.keys) ++ ctxAfter fs
  | .right _ _ _ :: fs => ctxAfter fs

/-- The heap holds the context `fs` around a hole whose pointer is `hole`. -/
def RepCtx (h : Heap) : Ctx → Option Nat → Prop
  | [], _ => True
  | f :: fs, hole =>
    load h f.addr = some { value := f.val, parent := ctxParent fs,
                           left := f.leftPtr hole, right := f.rightPtr hole } ∧
    Rep h (some f.addr) f.sib ∧ RepCtx h fs (some f.addr)

/-- The search path of key `n`: descend left when `n` is smaller, right when it
is larger, stop at an empty subtree or at a node holding `n`. -/
def zoom (n : Int) : Shape → Ctx → Ctx × Shape
  | .nil, fs => (fs, .nil)
  | .node l a v r, fs =>
    if n < v then zoom n l (.left a v r :: fs)
    else if n > v then zoom n r (.right l a v :: fs)
    else (fs, .node l a v r)

/-- The path to the leftmost node of a shape. -/
def zoomMin : Shape → Ctx → Ctx × Shape
  | .nil, fs => (fs, .nil)
  | .node .nil a v r, fs => (fs, .node .nil a v r)
  | .node (.node ll la lv lr) a v r, fs => zoomMin (.node ll la lv lr) (.left a v r :: fs)

/-- The tree `t` is the shape `s`: its root pointer is the top of `s`, the
heap holds `s` with consistent parent pointers, and no address occurs twice. -/
def Models (t : Tree) (s : Shape) : Prop :=
  t.root = s.root ∧ Rep t.heap none s ∧ s.addrs.Nodup

/-! ## Invariants of a search path -/

/-- The key `n` lies strictly between the keys before and after the hole. -/
def CtxBounds (n : Int) (fs : Ctx) : Prop :=
  (∀ x ∈ ctxBefore fs, x < n) ∧ (∀ x ∈ ctxAfter fs, n < x)

/-- Every frame of the context was entered on the side that the comparison of
`n` with the frame's value selects. -/
def OnPath (n : Int) : Ctx → Prop
  | [] => True
  | .left _ v _ :: fs => n < v ∧ OnPath n fs
  | .right _ _ v :: fs => v < n ∧ OnPath n fs

/-! ## The results of the operations, written out -/

/-- The heap after `insert_node` attached the new node (at the first unused
address) below the hole of the context `fs`. -/
def insertedHeap (h : Heap) (n : Int) : Ctx → Heap
  | [] => (h ++ [some (TreeNode.mk n none none none)]).set
      h.length (some (TreeNode.mk n none none none))
  | f :: fs =>
    ((h ++ [some (TreeNode.mk n none none none)]).set
      h.length (some (TreeNode.mk n (some f.addr) none none))).set
      f.addr (some (TreeNode.mk f.val (ctxParent fs) (f.leftPtr (some h.length))
        (f.rightPtr (some h.length))))

/-- The root pointer after `insert_node`. -/
def insertedRoot (t : Tree) : Ctx → Option Nat
  | [] => some t.heap.length
  | _ :: _ => t.root

/-- The heap after the assignment `c->parent = par` for the top node `c` of
the shape `cs` (no assignment when the shape is empty). -/
def reparent (h : Heap) (par : Option Nat) : Shape → Heap
  | .nil => h
  | .node cl ca cv cr => h.set ca (some (TreeNode.mk cv par cl.root cr.root))

/-- The heap after the subtree `cs` was linked into the hole of the context
`fs`: the parent of the hole points to `cs` and `cs` points back. -/
def spliceHeap (h : Heap) (cs : Shape) : Ctx → Heap
  | [] => reparent h none cs
  | f :: fs =>
    reparent (h.set f.addr (some (TreeNode.mk f.val (ctxParent fs) (f.leftPtr cs.root)
      (f.rightPtr cs.root)))) (some f.addr) cs

/-- The root pointer after the subtree `cs` was linked into the hole of `fs`. -/
def spliceRoot (t : Tree) (cs : Shape) : Ctx → Option Nat
  | [] => cs.root
  | _ :: _ => t.root

/-- The heap after the assignment `a->value = v`, left unchanged when `a` is
not allocated. -/
def setVal (h : Heap) (a : Nat) (v : Int) : Heap :=
  match load h a with
  | none => h
  | some nd => h.set a (some { nd with value := v })

/-- The tree after `delete_node` removed the top node of the subtree `sub`
that sits in the hole of the context `fs`. -/
def deletedTree (t : Tree) (fs : Ctx) : Shape → Tree
  | .nil => t
  | .node .nil tn _ r =>
    { heap := (spliceHeap t.heap r fs).set tn none, root := spliceRoot t r fs }
  | .node l tn _ .nil =>
    { heap := (spliceHeap t.heap l fs).set tn none, root := spliceRoot t l fs }
  | .node l tn v r =>
    match (zoomMin r []).2 with
    | .nil => t
    | .node _ rep mv mr =>
      { heap := (setVal (spliceHeap t.heap mr ((zoomMin r []).1 ++ .right l tn v :: fs))
                  tn mv).set rep none,
        root := t.root }

/-- The shape after `delete_node` removed the top node of the subtree `sub`
that sits in the hole of the context `fs`. -/
def deletedShape (fs : Ctx) : Shape → Shape
  | .nil => plug fs .nil
  | .node .nil _ _ r => plug fs r
  | .node l _ _ .nil => plug fs l
  | .node l tn _ r =>
    match (zoomMin r []).2 with
    | .nil => plug fs .nil
    | .node _ _ mv mr => plug ((zoomMin r []).1 ++ .right l tn mv :: fs) mr

/-! ## Nodes of a tree, at the level of the heap -/

/-- `Below h p y`: the node at address `y` belongs to the subtree whose top
pointer is `p`, that is, `y` is reached from `p` by following `left` and
`right` links through allocated nodes. -/
inductive Below (h : Heap) : Option Nat → Nat → Prop where
  | here {a : Nat} {nd : TreeNode} : load h a = some nd → Below h (some a) a
  | left {a y : Nat} {nd : TreeNode} : load h a = some nd → Below h nd.left y →
      Below h (some a) y
  | right {a y : Nat} {nd : TreeNode} : load h a = some nd → Below h nd.right y →
      Below h (some a) y

/-! ## Counting allocated nodes -/

/-- Number of allocated nodes of the heap. -/
def live (h : Heap) : Nat :=
  h.countP fun x => x.isSome

/-! ## Well-formed trees and runs of the mutating operations -/

/-- The tree is parent-consistent: the nodes reachable from its root form a
tree shape in the heap, with every parent pointer agreeing with the child
links and no node shared. -/
def WellFormed (t : Tree) : Prop :=
  ∃ s, Models t s

/-- The tree is parent-consistent and BST-ordered. -/
def Ordered (t : Tree) : Prop :=
  ∃ s, Models t s ∧ s.BST

/-- `Steps t0 t`: the tree `t` is obtained from `t0` by a finite sequence of
calls of `insert_node` and `delete_node` that return. -/
inductive Steps (t0 : Tree) : Tree → Prop where
  | refl : Steps t0 t0
  | insert (fuel : Nat) (k : Int) {t t2 : Tree} :
      Steps t0 t → insert_node fuel t k = some t2 → Steps t0 t2
  | delete (fuel : Nat) (k : Int) {t t2 : Tree} {b : Bool} :
      Steps t0 t → delete_node fuel t k = some (t2, b) → Steps t0 t2

/-! ## Invariants stated on the heap -/

/-- BST ordering of the nodes of the tree: for every node `x` of the tree,
every node in the left subtree of `x` holds a smaller value and every node in
the right subtree of `x` holds a larger value. -/
def HeapBST (t : Tree) : Prop :=
  ∀ x nx, Below t.heap t.root x → load t.heap x = some nx →
    (∀ y ny, Below t.heap nx.left y → load t.heap y = some ny → ny.value < nx.value) ∧
    (∀ y ny, Below t.heap nx.right y → load t.heap y = some ny → nx.value < ny.value)

/-- Parent consistency of the nodes of the tree: (i) a child link of a node
leads to a node whose parent pointer leads back, (ii) the parent pointer of a
node leads to a node of the tree that has it as left or right child, and (iii)
the parent pointer of the root is `NULL`. -/
def ParentConsistent (t : Tree) : Prop :=
  (∀ a na b, Below t.heap t.root a → load t.heap a = some na →
    (na.left = some b ∨ na.right = some b) →
    ∃ nb, load t.heap b = some nb ∧ nb.parent = some a) ∧
  (∀ b nb a, Below t.heap t.root b → load t.heap b = some nb → nb.parent = some a →
    ∃ na, Below t.heap t.root a ∧ load t.heap a = some na ∧
      (na.left = some b ∨ na.right = some b)) ∧
  (∀ r, t.root = some r → ∃ nr, load t.heap r = some nr ∧ nr.parent = none)

/-! ## Runs of calls and sample trees -/

/-- A call of one of the two mutating operations. -/
inductive Op where
  | ins (k : Int) : Op
  | del (k : Int) : Op
deriving DecidableEq, Repr

/-- Run a list of calls, left to right. -/
def run_ops (fuel : Nat) : Tree → List Op → Option Tree
  | t, [] => some t
  | t, .ins k :: ops => (insert_node fuel t k).bind fun t1 => run_ops fuel t1 ops
  | t, .del k :: ops => (delete_node fuel t k).bind fun r => run_ops fuel r.1 ops

/-- The tree built by inserting 5, 3, 8, 1 and then deleting 5 (the root). -/
def tree_after_root_delete : Tree :=
  { heap := [some { value := 8, parent := none, left := some 1, right := none },
             some { value := 3, parent := some 0, left := some 3, right := none },
             none,
             some { value := 1, parent := some 1, left := none, right := none }],
    root := some 0 }

/-- The tree built by the calls insert 5, insert 3, delete 5 (a root with one
child), insert 1, insert 6, insert 4, insert 5, delete 3 (a root with two
children whose successor 4 has the right child 5). -/
def tree_after_splices : Tree :=
  { heap := [none,
             some { value := 4, parent := none, left := some 2, right := some 3 },
             some { value := 1, parent := some 1, left := none, right := none },
             some { value := 6, parent := some 1, left := some 5, right := none },
             none,
             some { value := 5, parent := some 3, left := none, right := none }],
    root := some 1 }

/-- The tree built by inserting 5, 3, 8, 1, 4, 7, 9 in this order. -/
def tree_seven : Tree :=
  { heap := [some { value := 5, parent := none, left := some 1, right := some 2 },
             some { value := 3, parent := some 0, left := some 3, right := some 4 },
             some { value := 8, parent := some 0, left := some 5, right := some 6 },
             some { value := 1, parent := some 1, left := none, right := none },
             some { value := 4, parent := some 1, left := none, right := none },
             some { value := 7, parent := some 2, left := none, right := none },
             some { value := 9, parent := some 2, left := none, right := none }],
    root := some 0 }

/-- The tree after inserting 10 twice into the empty tree: one node. -/
def tree_ten : Tree :=
  { heap := [some { value := 10, parent := none, left := none, right := none }],
    root := some 0 }

/-! ## Trees whose parent pointers are not constrained

`find_node`, the descent of `insert_node`, `tree_minimum` and `inorder` read
only values and child links.  The relation `RepLinks` describes a tree shape
in the heap through these fields alone; every such heap agrees, up to parent
pointers, with a heap that holds the same shape with consistent parent
pointers. -/

/-- The heap holds the shape `s` as far as values and child links go. -/
def RepLinks (h : Heap) : Shape → Prop
  | .nil => True
  | .node l a v r =>
    (∃ nd, load h a = some nd ∧ nd.value = v ∧ nd.left = l.root ∧ nd.right = r.root) ∧
    RepLinks h l ∧ RepLinks h r

/-- The child links below the root of `t` form the shape `s`, no node shared. -/
def LinkTree (t : Tree) (s : Shape) : Prop :=
  t.root = s.root ∧ RepLinks t.heap s ∧ s.addrs.Nodup

/-- The tree is BST-ordered (nothing is asked of the parent pointers). -/
def BSTOrdered (t : Tree) : Prop :=
  ∃ s, LinkTree t s ∧ s.BST

/-- Two heaps that agree on which addresses are allocated and on the value
and the child links of every node. -/
def SameLinks (h h2 : Heap) : Prop :=
  h.length = h2.length ∧
  ∀ a, (load h a).map (fun nd => (nd.value, nd.left, nd.right))
     = (load h2 a).map (fun nd => (nd.value, nd.left, nd.right))

/-- `find_node` with the tree pointer `t` of the C function made explicit
(`none` is the `NULL` tree pointer): the first statement `tn = t->root`
dereferences `t`. -/
def find_node_ptr (fuel : Nat) (t : Option Tree) (n : Int) : Option (Option Nat) :=
  match t with
  | none => none
  | some tr => find_node fuel tr n

/-- `LeftChain h a m`: the node `m` is reached from the node `a` by following
`left` links through allocated nodes. -/
inductive LeftChain (h : Heap) : Nat → Nat → Prop where
  | stop {a : Nat} {nd : TreeNode} : load h a = some nd → LeftChain h a a
  | step {a l m : Nat} {nd : TreeNode} : load h a = some nd → nd.left = some l →
      LeftChain h l m → LeftChain h a m

/-- The tree built by inserting 5, 3, 8, 1 in this order. -/
def tree_four : Tree :=
  { heap := [some { value := 5, parent := none, left := some 1, right := some 2 },
             some { value := 3, parent := some 0, left := some 3, right := none },
             some { value := 8, parent := some 0, left := none, right := none },
             some { value := 1, parent := some 1, left := none, right := none }],
    root := some 0 }

/-- `UpRight h x c`: the node `c` is reached from `x` by the upward walk of
`successor`, which moves from a node to its parent as long as the node is the
right child of that parent. -/
inductive UpRight (h : Heap) : Nat → Nat → Prop where
  | stop {x : Nat} {xd : TreeNode} : load h x = some xd → UpRight h x x
  | step {x p c : Nat} {xd pd : TreeNode} : load h x = some xd → xd.parent = some p →
      load h p = some pd → pd.right = some x → UpRight h p c → UpRight h x c

/-- A tree that is not BST-ordered: the root holds 5 and its left child 9. -/
def tree_unordered : Tree :=
  { heap := [some { value := 5, parent := none, left := some 1, right := none },
             some { value := 9, parent := some 0, left := none, right := none }],
    root := some 0 }

/-! ## Heap lemmas -/

theorem load_lt {h : Heap} {a : Nat} {nd : TreeNode} (e : load h a = some nd) :
    a < h.length := by
  by_contra hc
  have : h[a]? = none := List.getElem?_eq_none (Nat.le_of_not_lt hc)
  simp [load, this] at e

theorem load_set {h : Heap} {a : Nat} (x : Option TreeNode) (b : Nat) (ha : a < h.length) :
    load (h.set a x) b = if b = a then x else load h b := by
  unfold load
  rw [List.getElem?_set]
  by_cases hb : a = b
  · subst hb; simp [ha]
  · have : ¬ b = a := fun e => hb e.symm
    simp [hb, this]

theorem load_set_of_load {h : Heap} {a : Nat} {nd : TreeNode} (e : load h a = some nd)
    (x : Option TreeNode) (b : Nat) :
    load (h.set a x) b = if b = a then x else load h b :=
  load_set x b (load_lt e)

theorem load_append_of_load {h : Heap} {a : Nat} {nd : TreeNode} (e : load h a = some nd)
    (x : Option TreeNode) : load (h ++ [x]) a = some nd := by
  have := load_lt e
  unfold load at *
  rw [List.getElem?_append_left this]; exact e

theorem load_append_length (h : Heap) (x : Option TreeNode) :
    load (h ++ [x]) h.length = x := by
  simp [load]

theorem load_length (h : Heap) : load h h.length = none := by
  simp [load]

/-! ## Frame rule for the representation relation -/

theorem rep_frame {h h2 : Heap} : ∀ {s : Shape} {par : Option Nat},
    (∀ a ∈ s.addrs, load h2 a = load h a) → Rep h par s → Rep h2 par s
  | .nil, _, _, _ => trivial
  | .node l a v r, par, hf, ⟨h1, hl, hr⟩ => by
    refine ⟨?_, rep_frame (fun b hb => hf b ?_) hl, rep_frame (fun b hb => hf b ?_) hr⟩
    · rw [hf a (by simp [Shape.addrs])]; exact h1
    · simp [Shape.addrs, hb]
    · simp [Shape.addrs, hb]

theorem repCtx_frame {h h2 : Heap} : ∀ {fs : Ctx} {hole : Option Nat},
    (∀ a ∈ ctxAddrs fs, load h2 a = load h a) → RepCtx h fs hole → RepCtx h2 fs hole
  | [], _, _, _ => trivial
  | f :: fs, hole, hf, ⟨h1, hs, hr⟩ => by
    refine ⟨?_, rep_frame (fun b hb => hf b ?_) hs, repCtx_frame (fun b hb => hf b ?_) hr⟩
    · rw [hf f.addr (by simp [ctxAddrs])]; exact h1
    · simp [ctxAddrs, hb]
    · simp [ctxAddrs, hb]

theorem rep_addr_lt {h : Heap} : ∀ {s : Shape} {par : Option Nat},
    Rep h par s → ∀ a ∈ s.addrs, a < h.length
  | .nil, _, _, a, ha => by simp [Shape.addrs] at ha
  | .node l b v r, par, ⟨h1, hl, hr⟩, a, ha => by
    simp only [Shape.addrs, List.mem_append, List.mem_cons] at ha
    rcases ha with ha | rfl | ha
    · exact rep_addr_lt hl a ha
    · exact load_lt h1
    · exact rep_addr_lt hr a ha

theorem rep_plug {h : Heap} : ∀ {fs : Ctx} {s : Shape},
    Rep h none (plug fs s) ↔ RepCtx h fs s.root ∧ Rep h (ctxParent fs) s
  | [], s => by simp [plug, RepCtx, ctxParent]
  | .left a v r :: fs, s => by
    rw [plug, rep_plug]
    simp only [Frame.fill, Shape.root, Rep, RepCtx, ctxParent, Frame.addr, Frame.val,
      Frame.leftPtr, Frame.rightPtr, Frame.sib]
    tauto
  | .right l a v :: fs, s => by
    rw [plug, rep_plug]
    simp only [Frame.fill, Shape.root, Rep, RepCtx, ctxParent, Frame.addr, Frame.val,
      Frame.leftPtr, Frame.rightPtr, Frame.sib]
    tauto

theorem keys_plug : ∀ (fs : Ctx) (s : Shape),
    (plug fs s).keys = ctxBefore fs ++ s.keys ++ ctxAfter fs
  | [], s => by simp [plug, ctxBefore, ctxAfter]
  | .left a v r :: fs, s => by
    rw [plug, keys_plug]; simp [Frame.fill, Shape.keys, ctxBefore, ctxAfter]
  | .right l a v :: fs, s => by
    rw [plug, keys_plug]; simp [Frame.fill, Shape.keys, ctxBefore, ctxAfter]

theorem addrs_plug_perm : ∀ (fs : Ctx) (s : Shape),
    List.Perm (plug fs s).addrs (s.addrs ++ ctxAddrs fs)
  | [], s => by simp [plug, ctxAddrs]
  | .left a v r :: fs, s => by
    rw [plug]
    refine (addrs_plug_perm fs _).trans ?_
    simp only [Frame.fill, Shape.addrs, ctxAddrs, Frame.addr, Frame.sib, List.append_assoc,
      List.cons_append]
    exact List.Perm.refl _
  | .right l a v :: fs, s => by
    rw [plug]
    refine (addrs_plug_perm fs _).trans ?_
    simp only [Frame.fill, Shape.addrs, ctxAddrs, Frame.addr, Frame.sib, List.append_assoc,
      List.cons_append]
    exact (List.perm_middle.trans
      (List.Perm.cons _ (List.perm_append_comm_assoc _ _ _))).trans List.perm_middle.symm

theorem zoom_plug (n : Int) : ∀ (s : Shape) (fs : Ctx),
    plug (zoom n s fs).1 (zoom n s fs).2 = plug fs s
  | .nil, fs => rfl
  | .node l a v r, fs => by
    unfold zoom
    split
    · rw [zoom_plug]; rfl
    · split
      · rw [zoom_plug]; rfl
      · rfl

theorem zoom_stop (n : Int) : ∀ (s : Shape) (fs : Ctx),
    (zoom n s fs).2 = .nil ∨ ∃ l a r, (zoom n s fs).2 = .node l a n r
  | .nil, fs => Or.inl rfl
  | .node l a v r, fs => by
    unfold zoom
    split
    · exact zoom_stop n l _
    · split
      · exact zoom_stop n r _
      · right
        have : v = n := by omega
        exact ⟨l, a, r, by rw [this]⟩

/-! ## Ordering facts -/

theorem bst_iff_sorted : ∀ (s : Shape), s.BST ↔ s.keys.Pairwise (· < ·)
  | .nil => by simp [Shape.BST, Shape.keys]
  | .node l a v r => by
    simp only [Shape.BST, Shape.keys, List.pairwise_append, List.pairwise_cons,
      bst_iff_sorted l, bst_iff_sorted r, List.mem_cons]
    constructor
    · rintro ⟨hl, hr, hlv, hrv⟩
      refine ⟨hl, ⟨hrv, hr⟩, ?_⟩
      rintro x hx y (rfl | hy)
      · exact hlv x hx
      · exact lt_trans (hlv x hx) (hrv y hy)
    · rintro ⟨hl, ⟨hrv, hr⟩, hlr⟩
      exact ⟨hl, hr, fun k hk => hlr k hk v (Or.inl rfl), hrv⟩

theorem ctxBounds_nil (n : Int) : CtxBounds n [] := by
  simp [CtxBounds, ctxBefore, ctxAfter]

theorem zoom_bounds (n : Int) : ∀ (s : Shape) (fs : Ctx),
    s.BST → CtxBounds n fs → CtxBounds n (zoom n s fs).1
  | .nil, fs, _, hb => hb
  | .node l a v r, fs, ⟨hl, hr, hlv, hrv⟩, ⟨hb1, hb2⟩ => by
    unfold zoom
    split
    · rename_i hlt
      refine zoom_bounds n l _ hl ⟨by simpa [ctxBefore] using hb1, ?_⟩
      intro x hx
      simp only [ctxAfter, List.cons_append, List.mem_cons, List.mem_append] at hx
      rcases hx with rfl | hx | hx
      · exact hlt
      · exact lt_trans hlt (hrv x hx)
      · exact hb2 x hx
    · split
      · rename_i hnl hgt
        refine zoom_bounds n r _ hr ⟨?_, by simpa [ctxAfter] using hb2⟩
        intro x hx
        simp only [ctxBefore, List.mem_append, List.mem_cons, List.mem_singleton,
          List.not_mem_nil, or_false] at hx
        rcases hx with hx | hx | rfl
        · exact hb1 x hx
        · exact lt_trans (hlv x hx) hgt
        · exact hgt
      · exact ⟨hb1, hb2⟩

theorem zoom_keys (n : Int) (s : Shape) :
    s.keys = ctxBefore (zoom n s []).1 ++ (zoom n s []).2.keys ++ ctxAfter (zoom n s []).1 := by
  rw [← keys_plug, zoom_plug]; rfl

theorem zoom_mem_iff (n : Int) (s : Shape) (hb : s.BST) :
    n ∈ s.keys ↔ (zoom n s []).2 ≠ .nil := by
  have hk := zoom_keys n s
  obtain ⟨h1, h2⟩ := zoom_bounds n s [] hb (ctxBounds_nil n)
  rw [hk]
  rcases zoom_stop n s [] with e | ⟨l, a, r, e⟩
  · rw [e]
    simp only [Shape.keys, List.append_nil, List.mem_append, ne_eq, not_true_eq_false,
      iff_false, not_or]
    exact ⟨fun hm => lt_irrefl _ (h1 n hm), fun hm => lt_irrefl _ (h2 n hm)⟩
  · rw [e]; simp [Shape.keys]

/-! ## Height and fuel -/

theorem height_le_length : ∀ (s : Shape), s.height ≤ s.addrs.length
  | .nil => by simp [Shape.height]
  | .node l a v r => by
    have := height_le_length l
    have := height_le_length r
    simp only [Shape.height, Shape.addrs, List.length_append, List.length_cons]
    omega

theorem nodup_length_le {l : List Nat} {n : Nat} (hn : l.Nodup) (hl : ∀ a ∈ l, a < n) :
    l.length ≤ n := by
  have h1 : l.toFinset ⊆ Finset.range n := by
    intro a ha
    simp only [List.mem_toFinset] at ha
    simpa using hl a ha
  have h2 := Finset.card_le_card h1
  rwa [List.toFinset_card_of_nodup hn, Finset.card_range] at h2

theorem models_height_lt {t : Tree} {s : Shape} (hm : Models t s) {fuel : Nat}
    (hf : t.heap.length < fuel) : s.height < fuel :=
  lt_of_le_of_lt ((height_le_length s).trans
    (nodup_length_le hm.2.2 (rep_addr_lt hm.2.1))) hf

/-! ## `find_node` follows the search path -/

theorem find_loop_zoom {h : Heap} (n : Int) : ∀ (s : Shape) (par : Option Nat) (fs : Ctx)
    (fuel : Nat), Rep h par s → s.height < fuel →
    find_loop fuel h s.root n = some (zoom n s fs).2.root
  | .nil, _, _, fuel + 1, _, _ => by simp [find_loop, Shape.root, zoom]
  | .node l a v r, par, fs, fuel + 1, ⟨h1, hl, hr⟩, hf => by
    simp only [Shape.height] at hf
    simp only [Shape.root, find_loop, h1]
    unfold zoom
    split
    · exact find_loop_zoom n l (some a) _ fuel hl (by omega)
    · split
      · exact find_loop_zoom n r (some a) _ fuel hr (by omega)
      · rfl

theorem find_node_zoom {t : Tree} {s : Shape} (hm : Models t s) (n : Int) {fuel : Nat}
    (hf : s.height < fuel) : find_node fuel t n = some (zoom n s []).2.root := by
  unfold find_node
  rw [hm.1]
  exact find_loop_zoom n s none [] fuel hm.2.1 hf

theorem zoom_lt {n v : Int} (hlt : n < v) (l : Shape) (a : Nat) (r : Shape) (fs : Ctx) :
    zoom n (.node l a v r) fs = zoom n l (.left a v r :: fs) := by
  rw [zoom, if_pos hlt]

theorem zoom_gt {n v : Int} (hgt : v < n) (l : Shape) (a : Nat) (r : Shape) (fs : Ctx) :
    zoom n (.node l a v r) fs = zoom n r (.right l a v :: fs) := by
  rw [zoom, if_neg (not_lt.2 (le_of_lt hgt)), if_pos hgt]

theorem zoom_eq (n : Int) (l : Shape) (a : Nat) (r : Shape) (fs : Ctx) :
    zoom n (.node l a n r) fs = (fs, .node l a n r) := by
  rw [zoom, if_neg (lt_irrefl n), if_neg (lt_irrefl n)]

/-! ## Insertion -/

theorem zoom_onPath (n : Int) : ∀ (s : Shape) (fs : Ctx),
    OnPath n fs → OnPath n (zoom n s fs).1
  | .nil, fs, hp => hp
  | .node l a v r, fs, hp => by
    unfold zoom
    split
    · rename_i hlt
      exact zoom_onPath n l _ ⟨hlt, hp⟩
    · split
      · rename_i hgt
        exact zoom_onPath n r _ ⟨hgt, hp⟩
      · exact hp

theorem insert_loop_zoom {h0 : Heap} {tn : Nat} {tnd : TreeNode} (n : Int)
    (htn : load h0 tn = some tnd) (hv : tnd.value = n) :
    ∀ (s : Shape) (par : Option Nat) (fs : Ctx) (fuel : Nat), Rep h0 par s → s.height < fuel →
      (zoom n s fs).2 = .nil →
      insert_loop fuel h0 tn s.root (ctxParent fs) = some (ctxParent (zoom n s fs).1)
  | .nil, _, _, fuel + 1, _, _, _ => by simp [insert_loop, Shape.root, zoom]
  | .node l a v r, par, fs, fuel + 1, ⟨h1, hl, hr⟩, hf, hz => by
    simp only [Shape.height] at hf
    simp only [Shape.root, insert_loop, htn, h1, hv]
    rcases lt_trichotomy n v with hlt | rfl | hgt
    · rw [zoom_lt hlt] at hz ⊢
      rw [if_pos hlt]
      exact insert_loop_zoom n htn hv l (some a) (.left a v r :: fs) fuel hl (by omega) hz
    · rw [zoom_eq] at hz
      cases hz
    · rw [zoom_gt hgt] at hz ⊢
      rw [if_neg (not_lt.2 (le_of_lt hgt))]
      exact insert_loop_zoom n htn hv r (some a) (.right l a v :: fs) fuel hr (by omega) hz

/-- Replacing the pointer stored in the hole's parent re-establishes the
context around the new hole pointer. -/
theorem repCtx_set_hole {h : Heap} {f : Frame} {fs : Ctx} {hole : Option Nat}
    (hole2 : Option Nat) (hc : RepCtx h (f :: fs) hole)
    (hn : f.addr ∉ f.sib.addrs ++ ctxAddrs fs) :
    RepCtx (h.set f.addr (some (TreeNode.mk f.val (ctxParent fs) (f.leftPtr hole2)
      (f.rightPtr hole2)))) (f :: fs) hole2 := by
  obtain ⟨h1, hs, hr⟩ := hc
  have hne : ∀ b, b ∈ f.sib.addrs ++ ctxAddrs fs → b ≠ f.addr := by
    rintro b hb rfl; exact hn hb
  refine ⟨?_, rep_frame (fun b hb => ?_) hs, repCtx_frame (fun b hb => ?_) hr⟩
  · rw [load_set_of_load h1]; simp
  · rw [load_set_of_load h1, if_neg (hne b (List.mem_append_left _ hb))]
  · rw [load_set_of_load h1, if_neg (hne b (List.mem_append_right _ hb))]

theorem root_plug_cons (f : Frame) : ∀ (fs : Ctx) (x y : Shape),
    (plug (f :: fs) x).root = (plug (f :: fs) y).root
  | [], x, y => by cases f <;> rfl
  | g :: fs, x, y => by
    have := root_plug_cons g fs (f.fill x) (f.fill y)
    simpa [plug] using this

theorem insert_node_eq {t : Tree} {s : Shape} (hm : Models t s) (n : Int) {fuel : Nat}
    (hf : s.height < fuel) (hz : (zoom n s []).2 = .nil) :
    insert_node fuel t n =
      some { heap := insertedHeap t.heap n (zoom n s []).1,
             root := insertedRoot t (zoom n s []).1 } := by
  obtain ⟨hroot, hrep, hnd⟩ := hm
  have hfind := find_node_zoom ⟨hroot, hrep, hnd⟩ n hf
  rw [hz] at hfind
  have hrep0 : Rep (t.heap ++ [some (TreeNode.mk n none none none)]) none s :=
    rep_frame (fun a ha => by
      have hlt := rep_addr_lt hrep a ha
      simp only [load]
      rw [List.getElem?_append_left hlt]) hrep
  have htn : load (t.heap ++ [some (TreeNode.mk n none none none)]) t.heap.length
      = some (TreeNode.mk n none none none) := load_append_length _ _
  have hloop := insert_loop_zoom n htn rfl s none [] fuel hrep0 hf hz
  have hplug : plug (zoom n s []).1 .nil = s := by
    have := zoom_plug n s []
    rw [hz] at this; exact this
  have hpath := zoom_onPath n s [] trivial
  unfold insert_node
  simp only [hfind, Shape.root, initialize_node]
  rw [← hroot] at hloop
  simp only [ctxParent] at hloop
  rw [hloop]
  generalize (zoom n s []).1 = fs at hplug hpath hloop ⊢
  cases fs with
  | nil =>
    simp only [ctxParent, set_parent, htn, Option.map_some', insertedHeap, insertedRoot]
  | cons f fs =>
    rw [← hplug] at hrep0
    obtain ⟨⟨hc1, -, -⟩, -⟩ := rep_plug.1 hrep0
    have hfa : f.addr < t.heap.length := by
      apply rep_addr_lt hrep
      rw [← hplug]
      exact (addrs_plug_perm _ _).symm.subset (by simp [ctxAddrs])
    have hne : f.addr ≠ t.heap.length := Nat.ne_of_lt hfa
    simp only [ctxParent, set_parent, htn, Option.map_some', insertedHeap, insertedRoot]
    rw [load_set_of_load htn, if_pos rfl, load_set_of_load htn, if_neg hne, hc1]
    simp only [set_left, set_right]
    rw [load_set_of_load htn, if_neg hne, hc1]
    cases f with
    | left a v r =>
      simp only [OnPath] at hpath
      simp [hpath.1, Frame.val, Frame.leftPtr, Frame.rightPtr, Frame.addr, Shape.root]
      rfl
    | right l a v =>
      simp only [OnPath] at hpath
      have : ¬ n < v := not_lt.2 (le_of_lt hpath.1)
      simp [this, Frame.val, Frame.leftPtr, Frame.rightPtr, Frame.addr, Shape.root]
      rfl

theorem load_insertedHeap_nil (h : Heap) (n : Int) (a : Nat) :
    load (insertedHeap h n []) a =
      if a = h.length then some (TreeNode.mk n none none none) else load h a := by
  have htn : load (h ++ [some (TreeNode.mk n none none none)]) h.length
      = some (TreeNode.mk n none none none) := load_append_length _ _
  simp only [insertedHeap]
  rw [load_set_of_load htn]
  split
  · rfl
  · rename_i hne
    simp only [load]
    rcases Nat.lt_or_ge a h.length with hlt | hge
    · rw [List.getElem?_append_left hlt]
    · have hgt : h.length < a := lt_of_le_of_ne hge (fun e => hne e.symm)
      rw [List.getElem?_eq_none (by simp; omega), List.getElem?_eq_none (by omega)]

theorem load_insertedHeap_cons (h : Heap) (n : Int) (f : Frame) (fs : Ctx) (a : Nat)
    (hf : f.addr < h.length) :
    load (insertedHeap h n (f :: fs)) a =
      if a = f.addr then
        some (TreeNode.mk f.val (ctxParent fs) (f.leftPtr (some h.length))
          (f.rightPtr (some h.length)))
      else if a = h.length then some (TreeNode.mk n (some f.addr) none none)
      else load h a := by
  have htn : load (h ++ [some (TreeNode.mk n none none none)]) h.length
      = some (TreeNode.mk n none none none) := load_append_length _ _
  simp only [insertedHeap]
  rw [load_set _ _ (by simp; omega), load_set_of_load htn]
  split
  · rfl
  · split
    · rfl
    · rename_i hne
      simp only [load]
      rcases Nat.lt_or_ge a h.length with hlt | hge
      · rw [List.getElem?_append_left hlt]
      · have hgt : h.length < a := lt_of_le_of_ne hge (fun e => hne e.symm)
        rw [List.getElem?_eq_none (by simp; omega), List.getElem?_eq_none (by omega)]

theorem models_ctx_nodup {t : Tree} {fs : Ctx} {x : Shape} (hm : Models t (plug fs x)) :
    (x.addrs ++ ctxAddrs fs).Nodup :=
  (addrs_plug_perm fs x).nodup_iff.1 hm.2.2

theorem models_ctx_lt {t : Tree} {fs : Ctx} {x : Shape} (hm : Models t (plug fs x)) :
    ∀ a ∈ x.addrs ++ ctxAddrs fs, a < t.heap.length :=
  fun a ha => rep_addr_lt hm.2.1 a ((addrs_plug_perm fs x).symm.subset ha)

theorem insert_models {t : Tree} {fs : Ctx} (n : Int) (hm : Models t (plug fs .nil)) :
    Models { heap := insertedHeap t.heap n fs, root := insertedRoot t fs }
      (plug fs (.node .nil t.heap.length n .nil)) := by
  have hnd := (models_ctx_nodup hm)
  have hlt := (models_ctx_lt hm)
  simp only [Shape.addrs, List.nil_append] at hnd hlt
  obtain ⟨hroot, hrep, -⟩ := hm
  obtain ⟨hctx, -⟩ := rep_plug.1 hrep
  refine ⟨?_, ?_, ?_⟩
  · cases fs with
    | nil => rfl
    | cons f fs =>
      simp only [insertedRoot]
      rw [hroot]; exact root_plug_cons f fs _ _
  · rw [rep_plug]
    cases fs with
    | nil =>
      refine ⟨trivial, ?_, trivial, trivial⟩
      rw [load_insertedHeap_nil, if_pos rfl]; rfl
    | cons f fs =>
      have hfa : f.addr < t.heap.length := hlt _ (by simp [ctxAddrs])
      have hfn : f.addr ∉ f.sib.addrs ++ ctxAddrs fs := by
        simp only [ctxAddrs, List.nodup_cons] at hnd
        exact hnd.1
      have hc : RepCtx (insertedHeap t.heap n (f :: fs)) (f :: fs) (some t.heap.length) := by
        have := repCtx_set_hole (some t.heap.length) hctx hfn
        refine ⟨?_, rep_frame (fun b hb => ?_) this.2.1, repCtx_frame (fun b hb => ?_) this.2.2⟩
        · rw [load_insertedHeap_cons _ _ _ _ _ hfa, if_pos rfl]
        · have hb1 : b ≠ f.addr := by
            rintro rfl; exact hfn (List.mem_append_left _ hb)
          have hb2 : b ≠ t.heap.length :=
            Nat.ne_of_lt (hlt b (by simp [ctxAddrs, hb]))
          rw [load_insertedHeap_cons _ _ _ _ _ hfa, if_neg hb1, if_neg hb2,
            load_set_of_load hctx.1, if_neg hb1]
        · have hb1 : b ≠ f.addr := by
            rintro rfl; exact hfn (List.mem_append_right _ hb)
          have hb2 : b ≠ t.heap.length :=
            Nat.ne_of_lt (hlt b (by simp [ctxAddrs, hb]))
          rw [load_insertedHeap_cons _ _ _ _ _ hfa, if_neg hb1, if_neg hb2,
            load_set_of_load hctx.1, if_neg hb1]
      refine ⟨hc, ?_, trivial, trivial⟩
      rw [load_insertedHeap_cons _ _ _ _ _ hfa, if_neg (Nat.ne_of_gt hfa), if_pos rfl]
      rfl
  · refine (addrs_plug_perm fs _).nodup_iff.2 ?_
    simp only [Shape.addrs, List.nil_append, List.cons_append, List.nodup_cons]
    exact ⟨fun hmem => lt_irrefl _ (hlt _ hmem), hnd⟩

/-! ## The in-order walk -/

theorem inorder_keys {h : Heap} : ∀ (s : Shape) (par : Option Nat) (fuel : Nat),
    Rep h par s → s.height < fuel → inorder fuel h s.root = some s.keys
  | .nil, _, fuel + 1, _, _ => by simp [inorder, Shape.root, Shape.keys]
  | .node l a v r, par, fuel + 1, ⟨h1, hl, hr⟩, hf => by
    simp only [Shape.height] at hf
    have e1 := inorder_keys l (some a) fuel hl (by omega)
    have e2 := inorder_keys r (some a) fuel hr (by omega)
    show inorder (fuel + 1) h (some a) = some (l.keys ++ v :: r.keys)
    rw [inorder]
    simp only [h1, e1, e2]

theorem models_inorder {t : Tree} {s : Shape} (hm : Models t s) {fuel : Nat}
    (hf : s.height < fuel) : inorder fuel t.heap t.root = some s.keys := by
  rw [hm.1]; exact inorder_keys s none fuel hm.2.1 hf

/-! ## Splicing a subtree into the place of its parent -/

theorem root_mem {s : Shape} {x : Nat} (e : s.root = some x) : x ∈ s.addrs := by
  cases s with
  | nil => cases e
  | node l a v r =>
    simp only [Shape.root, Option.some.injEq] at e
    simp [Shape.addrs, e]

theorem load_reparent {h : Heap} {par0 : Option Nat} (par : Option Nat) {cs : Shape}
    (hr : Rep h par0 cs) (b : Nat) (hb : cs.root ≠ some b) :
    load (reparent h par cs) b = load h b := by
  cases cs with
  | nil => rfl
  | node cl ca cv cr =>
    have : b ≠ ca := by rintro rfl; exact hb rfl
    simp only [reparent]
    rw [load_set_of_load hr.1, if_neg this]

theorem rep_reparent {h : Heap} {par0 : Option Nat} (par : Option Nat) {cs : Shape}
    (hr : Rep h par0 cs) (hn : cs.addrs.Nodup) : Rep (reparent h par cs) par cs := by
  cases cs with
  | nil => trivial
  | node cl ca cv cr =>
    obtain ⟨h1, hl, hrr⟩ := hr
    simp only [Shape.addrs] at hn
    have hn2 := List.nodup_middle.1 hn
    simp only [List.nodup_cons, List.mem_append, not_or] at hn2
    simp only [BinSearchTree.reparent]
    refine ⟨?_, rep_frame (fun b hb => ?_) hl, rep_frame (fun b hb => ?_) hrr⟩
    · rw [load_set_of_load h1, if_pos rfl]
    · have : b ≠ ca := by rintro rfl; exact hn2.1.1 hb
      rw [load_set_of_load h1, if_neg this]
    · have : b ≠ ca := by rintro rfl; exact hn2.1.2 hb
      rw [load_set_of_load h1, if_neg this]

theorem splice_rep {h : Heap} {fs : Ctx} {cs : Shape} {hole par0 : Option Nat}
    (hc : RepCtx h fs hole) (hr : Rep h par0 cs) (hn : (cs.addrs ++ ctxAddrs fs).Nodup) :
    RepCtx (spliceHeap h cs fs) fs cs.root ∧ Rep (spliceHeap h cs fs) (ctxParent fs) cs := by
  have hn1 := (List.nodup_append.1 hn).1
  have hdis := (List.nodup_append.1 hn).2.2
  cases fs with
  | nil => exact ⟨trivial, rep_reparent none hr hn1⟩
  | cons f fs =>
    have hn2 := (List.nodup_append.1 hn).2.1
    simp only [ctxAddrs, List.nodup_cons] at hn2
    have hfc : f.addr ∉ cs.addrs := fun hm => hdis hm (by simp [ctxAddrs])
    have hc1 := repCtx_set_hole cs.root hc hn2.1
    have hr1 : Rep (h.set f.addr (some (TreeNode.mk f.val (ctxParent fs) (f.leftPtr cs.root)
        (f.rightPtr cs.root)))) par0 cs :=
      rep_frame (fun b hb => by
        have : b ≠ f.addr := by rintro rfl; exact hfc hb
        rw [load_set_of_load hc.1, if_neg this]) hr
    refine ⟨repCtx_frame (fun b hb => ?_) hc1, rep_reparent (some f.addr) hr1 hn1⟩
    simp only [spliceHeap]
    refine load_reparent _ hr1 b (fun e => ?_)
    exact hdis (root_mem e) hb

theorem load_spliceHeap {h : Heap} {fs : Ctx} {cs : Shape} {hole par0 : Option Nat}
    (hc : RepCtx h fs hole) (hr : Rep h par0 cs) (b : Nat) (hb1 : ctxParent fs ≠ some b)
    (hb2 : cs.root ≠ some b) : load (spliceHeap h cs fs) b = load h b := by
  cases fs with
  | nil => exact load_reparent none hr b hb2
  | cons f fs =>
    have hbf : b ≠ f.addr := by rintro rfl; exact hb1 rfl
    have hfc : cs.root ≠ some f.addr ∨ cs.root = some f.addr := by tauto
    simp only [spliceHeap]
    cases cs with
    | nil => simp only [reparent]; rw [load_set_of_load hc.1, if_neg hbf]
    | node cl ca cv cr =>
      have hbc : b ≠ ca := by rintro rfl; exact hb2 rfl
      simp only [reparent]
      by_cases hca : ca = f.addr
      · rw [load_set _ _ (by rw [List.length_set]; exact hca ▸ load_lt hc.1), if_neg hbc,
          load_set_of_load hc.1, if_neg hbf]
      · have : load (h.set f.addr (some (TreeNode.mk f.val (ctxParent fs)
            (f.leftPtr (Shape.node cl ca cv cr).root)
            (f.rightPtr (Shape.node cl ca cv cr).root)))) ca = load h ca := by
          rw [load_set_of_load hc.1, if_neg hca]
        rw [load_set _ _ (by rw [List.length_set]; exact load_lt hr.1), if_neg hbc,
          load_set_of_load hc.1, if_neg hbf]

/-! ## The one-node cases of `delete_node` -/

theorem set_link_right_first {h : Heap} {f : Frame} {par : Option Nat} {x : Nat}
    (c : Option Nat)
    (hl : load h f.addr = some (TreeNode.mk f.val par (f.leftPtr (some x)) (f.rightPtr (some x))))
    (hx : x ∉ f.sib.addrs) :
    (if some x = f.rightPtr (some x) then set_right h f.addr c else set_left h f.addr c)
      = some (h.set f.addr (some (TreeNode.mk f.val par (f.leftPtr c) (f.rightPtr c)))) := by
  cases f with
  | left a v r =>
    have : ¬ some x = r.root := fun e => hx (root_mem e.symm)
    simp only [Frame.rightPtr, Frame.leftPtr, if_neg this, set_left, hl, Option.map_some']
  | right l a v =>
    simp only [Frame.rightPtr, Frame.leftPtr, if_pos, set_right, hl, Option.map_some']

theorem set_link_left_first {h : Heap} {f : Frame} {par : Option Nat} {x : Nat}
    (c : Option Nat)
    (hl : load h f.addr = some (TreeNode.mk f.val par (f.leftPtr (some x)) (f.rightPtr (some x))))
    (hx : x ∉ f.sib.addrs) :
    (if some x = f.leftPtr (some x) then set_left h f.addr c else set_right h f.addr c)
      = some (h.set f.addr (some (TreeNode.mk f.val par (f.leftPtr c) (f.rightPtr c)))) := by
  cases f with
  | left a v r =>
    simp only [Frame.rightPtr, Frame.leftPtr, if_pos, set_left, hl, Option.map_some']
  | right l a v =>
    have : ¬ some x = l.root := fun e => hx (root_mem e.symm)
    simp only [Frame.rightPtr, Frame.leftPtr, if_neg this, set_right, hl, Option.map_some']

theorem delete_leaf_eq {t : Tree} {fs : Ctx} {tn : Nat} {v : Int}
    (hc : RepCtx t.heap fs (some tn))
    (hl : load t.heap tn = some (TreeNode.mk v (ctxParent fs) none none))
    (hn : (tn :: ctxAddrs fs).Nodup) :
    delete_leaf t tn =
      some { heap := (spliceHeap t.heap .nil fs).set tn none, root := spliceRoot t .nil fs } := by
  unfold delete_leaf
  rw [hl]
  cases fs with
  | nil => simp [ctxParent, free, hl, spliceHeap, reparent, spliceRoot, Shape.root]
  | cons f fs =>
    simp only [ctxAddrs, List.nodup_cons, List.mem_cons, List.mem_append, not_or] at hn
    simp only [ctxParent, hc.1]
    rw [set_link_right_first none hc.1 hn.1.2.1]
    simp only [Option.some_bind, free]
    rw [load_set_of_load hc.1, if_neg hn.1.1, hl]
    simp [spliceHeap, reparent, spliceRoot, Shape.root]

theorem delete_right_only_eq {t : Tree} {fs : Ctx} {tn : Nat} {v : Int}
    {rl rr : Shape} {rc : Nat} {rv : Int}
    (hc : RepCtx t.heap fs (some tn))
    (hl : load t.heap tn = some (TreeNode.mk v (ctxParent fs) none (some rc)))
    (hr : Rep t.heap (some tn) (.node rl rc rv rr))
    (hn : (tn :: ((Shape.node rl rc rv rr).addrs ++ ctxAddrs fs)).Nodup) :
    delete_right_only t tn =
      some { heap := (spliceHeap t.heap (.node rl rc rv rr) fs).set tn none,
             root := spliceRoot t (.node rl rc rv rr) fs } := by
  have hrc : tn ≠ rc := by
    rintro rfl
    simp [Shape.addrs] at hn
  unfold delete_right_only
  rw [hl]
  cases fs with
  | nil =>
    simp only [ctxParent, set_parent, hr.1, Option.map_some', Option.some_bind, free]
    rw [load_set_of_load hr.1, if_neg hrc, hl]
    simp [spliceHeap, reparent, spliceRoot, Shape.root]
  | cons f fs =>
    simp only [ctxAddrs, List.nodup_cons, List.mem_cons, List.mem_append, not_or,
      Shape.addrs] at hn
    have hpc : rc ≠ f.addr := by
      rintro rfl
      have := hn.2
      simp [List.nodup_append, Shape.addrs] at this
    simp only [ctxParent, hc.1]
    rw [set_link_left_first (some rc) hc.1 hn.1.2.2.1]
    simp only [Option.some_bind]
    rw [load_set_of_load hc.1, if_neg hn.1.2.1, hl]
    simp only [set_parent]
    rw [load_set_of_load hc.1, if_neg hpc, hr.1]
    simp only [Option.map_some', Option.some_bind, free]
    rw [load_set _ _ (by rw [List.length_set]; exact load_lt hr.1), if_neg hrc,
      load_set_of_load hc.1, if_neg hn.1.2.1, hl]
    simp [spliceHeap, reparent, spliceRoot, Shape.root]
    rfl

theorem delete_left_only_eq {t : Tree} {fs : Ctx} {tn : Nat} {v : Int}
    {ll lr : Shape} {lc : Nat} {lv : Int}
    (hc : RepCtx t.heap fs (some tn))
    (hl : load t.heap tn = some (TreeNode.mk v (ctxParent fs) (some lc) none))
    (hr : Rep t.heap (some tn) (.node ll lc lv lr))
    (hn : (tn :: ((Shape.node ll lc lv lr).addrs ++ ctxAddrs fs)).Nodup) :
    delete_left_only t tn =
      some { heap := (spliceHeap t.heap (.node ll lc lv lr) fs).set tn none,
             root := spliceRoot t (.node ll lc lv lr) fs } := by
  have hrc : tn ≠ lc := by
    rintro rfl
    simp [Shape.addrs] at hn
  unfold delete_left_only
  rw [hl]
  cases fs with
  | nil =>
    simp only [ctxParent, set_parent, hr.1, Option.map_some', Option.some_bind, free]
    rw [load_set_of_load hr.1, if_neg hrc, hl]
    simp [spliceHeap, reparent, spliceRoot, Shape.root]
  | cons f fs =>
    simp only [ctxAddrs, List.nodup_cons, List.mem_cons, List.mem_append, not_or,
      Shape.addrs] at hn
    have hpc : lc ≠ f.addr := by
      rintro rfl
      have := hn.2
      simp [List.nodup_append, Shape.addrs] at this
    simp only [ctxParent, hc.1]
    rw [set_link_right_first (some lc) hc.1 hn.1.2.2.1]
    simp only [Option.some_bind]
    rw [load_set_of_load hc.1, if_neg hn.1.2.1, hl]
    simp only [set_parent]
    rw [load_set_of_load hc.1, if_neg hpc, hr.1]
    simp only [Option.map_some', Option.some_bind, free]
    rw [load_set _ _ (by rw [List.length_set]; exact load_lt hr.1), if_neg hrc,
      load_set_of_load hc.1, if_neg hn.1.2.1, hl]
    simp [spliceHeap, reparent, spliceRoot, Shape.root]
    rfl

/-! ## The path to the minimum -/

theorem zoomMin_plug : ∀ (s : Shape) (fs : Ctx),
    plug (zoomMin s fs).1 (zoomMin s fs).2 = plug fs s
  | .nil, fs => rfl
  | .node .nil a v r, fs => rfl
  | .node (.node ll la lv lr) a v r, fs => by
    rw [zoomMin, zoomMin_plug]; rfl

theorem zoomMin_stop : ∀ (l : Shape) (a : Nat) (v : Int) (r : Shape) (fs : Ctx),
    ∃ ma mv mr, (zoomMin (.node l a v r) fs).2 = .node .nil ma mv mr
  | .nil, a, v, r, fs => ⟨a, v, r, rfl⟩
  | .node ll la lv lr, a, v, r, fs => by
    rw [zoomMin]; exact zoomMin_stop ll la lv lr _

theorem zoomMin_append : ∀ (s : Shape) (fs : Ctx),
    zoomMin s fs = ((zoomMin s []).1 ++ fs, (zoomMin s []).2)
  | .nil, fs => rfl
  | .node .nil a v r, fs => rfl
  | .node (.node ll la lv lr) a v r, fs => by
    rw [zoomMin, zoomMin_append, zoomMin]
    conv_rhs => rw [zoomMin_append]
    simp

theorem zoomMin_before : ∀ (s : Shape) (fs : Ctx),
    ctxBefore (zoomMin s fs).1 = ctxBefore fs
  | .nil, fs => rfl
  | .node .nil a v r, fs => rfl
  | .node (.node ll la lv lr) a v r, fs => by
    rw [zoomMin, zoomMin_before]; rfl

theorem tree_minimum_zoom {h : Heap} : ∀ (l : Shape) (a : Nat) (v : Int) (r : Shape)
    (par : Option Nat) (fs : Ctx) (fuel : Nat),
    Rep h par (.node l a v r) → (Shape.node l a v r).height ≤ fuel →
    (tree_minimum fuel h a).map some = some (zoomMin (.node l a v r) fs).2.root
  | .nil, a, v, r, par, fs, fuel + 1, ⟨h1, _, _⟩, _ => by
    simp [tree_minimum, h1, Shape.root, zoomMin]
  | .node ll la lv lr, a, v, r, par, fs, fuel + 1, ⟨h1, hl, _⟩, hf => by
    simp only [Shape.height] at hf
    rw [zoomMin]
    simp only [tree_minimum, h1, Shape.root]
    exact tree_minimum_zoom ll la lv lr (some a) _ fuel hl (by simp only [Shape.height]; omega)

/-! ## Contexts built by appending -/

theorem plug_append : ∀ (lf fs : Ctx) (x : Shape), plug (lf ++ fs) x = plug fs (plug lf x)
  | [], _, _ => rfl
  | f :: lf, fs, x => by simp only [List.cons_append, plug]; exact plug_append lf fs _

theorem ctxBefore_append : ∀ (lf fs : Ctx), ctxBefore (lf ++ fs) = ctxBefore fs ++ ctxBefore lf
  | [], fs => by simp [ctxBefore]
  | .left a v r :: lf, fs => by simp [ctxBefore, ctxBefore_append lf fs]
  | .right l a v :: lf, fs => by simp [ctxBefore, ctxBefore_append lf fs]

theorem ctxAfter_append : ∀ (lf fs : Ctx), ctxAfter (lf ++ fs) = ctxAfter lf ++ ctxAfter fs
  | [], fs => by simp [ctxAfter]
  | .left a v r :: lf, fs => by simp [ctxAfter, ctxAfter_append lf fs]
  | .right l a v :: lf, fs => by simp [ctxAfter, ctxAfter_append lf fs]

theorem ctxAddrs_append : ∀ (lf fs : Ctx), ctxAddrs (lf ++ fs) = ctxAddrs lf ++ ctxAddrs fs
  | [], fs => by simp [ctxAddrs]
  | f :: lf, fs => by simp [ctxAddrs, ctxAddrs_append lf fs]

theorem ctxParent_append_right (lf : Ctx) (l : Shape) (a : Nat) (v v2 : Int) (fs : Ctx) :
    ctxParent (lf ++ .right l a v :: fs) = ctxParent (lf ++ .right l a v2 :: fs) := by
  cases lf <;> rfl

theorem ctxAddrs_append_right (lf : Ctx) (l : Shape) (a : Nat) (v v2 : Int) (fs : Ctx) :
    ctxAddrs (lf ++ .right l a v :: fs) = ctxAddrs (lf ++ .right l a v2 :: fs) := by
  simp [ctxAddrs_append, ctxAddrs, Frame.addr, Frame.sib]

/-- Overwriting the value of a node on the path re-establishes the context
with the new value in that node's frame. -/
theorem repCtx_set_value_mid {h : Heap} {l : Shape} {a : Nat} {v : Int} {fs : Ctx}
    (v2 : Int) {nd : TreeNode} (ha : load h a = some nd) :
    ∀ (lf : Ctx) (hole : Option Nat), RepCtx h (lf ++ .right l a v :: fs) hole →
      (ctxAddrs (lf ++ .right l a v :: fs)).Nodup →
      RepCtx (h.set a (some { nd with value := v2 })) (lf ++ .right l a v2 :: fs) hole
  | [], hole, ⟨h1, hs, hr⟩, hn => by
    simp only [List.nil_append, ctxAddrs, Frame.addr, Frame.sib, List.nodup_cons,
      List.mem_append, not_or] at hn
    simp only [Frame.addr] at h1
    rw [ha] at h1
    cases h1
    refine ⟨?_, rep_frame (fun b hb => ?_) hs, repCtx_frame (fun b hb => ?_) hr⟩
    · simp only [Frame.addr]; rw [load_set_of_load ha, if_pos rfl]; rfl
    · have : b ≠ a := by rintro rfl; exact hn.1.1 hb
      rw [load_set_of_load ha, if_neg this]
    · have : b ≠ a := by rintro rfl; exact hn.1.2 hb
      rw [load_set_of_load ha, if_neg this]
  | g :: lf, hole, ⟨h1, hs, hr⟩, hn => by
    simp only [List.cons_append, ctxAddrs, List.nodup_cons, List.mem_append, not_or] at hn
    have hmem : a ∈ ctxAddrs (lf ++ .right l a v :: fs) := by
      simp [ctxAddrs_append, ctxAddrs, Frame.addr]
    have hga : g.addr ≠ a := by rintro rfl; exact hn.1.2 hmem
    have hn2 := (List.nodup_append.1 hn.2).2.2
    refine ⟨?_, rep_frame (fun b hb => ?_) hs,
      repCtx_set_value_mid v2 ha lf _ hr (List.nodup_append.1 hn.2).2.1⟩
    · rw [load_set_of_load ha, if_neg hga, h1]
      have e := ctxParent_append_right lf l a v v2 fs
      exact congrArg (fun p => some (TreeNode.mk g.val p (g.leftPtr hole) (g.rightPtr hole))) e
    · have : b ≠ a := by rintro rfl; exact hn2 hb hmem
      rw [load_set_of_load ha, if_neg this]

/-! ## The two-children case of `delete_node` -/

theorem copy_and_free_eq {h : Heap} {tn rep : Nat} {rd nd2 : TreeNode}
    (hrep : load h rep = some rd) (htn : load h tn = some nd2) (hne : rep ≠ tn) :
    copy_and_free h tn rep =
      some ((h.set tn (some { nd2 with value := rd.value })).set rep none) := by
  unfold copy_and_free
  rw [hrep]
  simp only [set_value, htn, Option.map_some', Option.some_bind, free]
  rw [load_set_of_load htn, if_neg hne, hrep]
  rfl

theorem delete_two_children_eq {t : Tree} {g : Frame} {fs : Ctx} {tn rep : Nat} {mv : Int}
    {mr : Shape} {nd2 : TreeNode}
    (hc : RepCtx t.heap (g :: fs) (some rep))
    (hl : load t.heap rep = some (TreeNode.mk mv (some g.addr) none mr.root))
    (hr : Rep t.heap (some rep) mr)
    (hn : (rep :: (mr.addrs ++ ctxAddrs (g :: fs))).Nodup)
    (htn : load (spliceHeap t.heap mr (g :: fs)) tn = some nd2) (hne : rep ≠ tn) :
    delete_two_children t tn (some rep) =
      some { heap := ((spliceHeap t.heap mr (g :: fs)).set tn
               (some { nd2 with value := mv })).set rep none,
             root := t.root } := by
  simp only [ctxAddrs, List.nodup_cons, List.mem_cons, List.mem_append, not_or] at hn
  obtain ⟨⟨hrm, hrg, hrs, hrf⟩, hn2⟩ := hn
  have hrep2 : load (spliceHeap t.heap mr (g :: fs)) rep
      = some (TreeNode.mk mv (some g.addr) none mr.root) := by
    rw [load_spliceHeap hc hr rep (by simpa [ctxParent] using fun e => hrg e.symm)
      (fun e => hrm (root_mem e)), hl]
  have hcf := copy_and_free_eq hrep2 htn hne
  unfold delete_two_children
  simp only [hl]
  cases mr with
  | nil =>
    simp only [Shape.root, and_self, if_true, hc.1]
    cases g with
    | left a v r =>
      have h1 : ¬ some rep = r.root := fun e => hrs (root_mem e.symm)
      simp only [Frame.rightPtr, Frame.leftPtr, if_neg h1, if_true, set_left, hc.1,
        Option.map_some', Option.some_bind]
      show Option.map _ (copy_and_free (spliceHeap t.heap .nil (.left a v r :: fs)) tn rep) = _
      rw [hcf]; rfl
    | right l a v =>
      simp only [Frame.rightPtr, Frame.leftPtr, if_true, set_right, hc.1,
        Option.map_some', Option.some_bind]
      show Option.map _ (copy_and_free (spliceHeap t.heap .nil (.right l a v :: fs)) tn rep) = _
      rw [hcf]; rfl
  | node ml mc mcv mrr =>
    have hmc : mc ≠ g.addr := by
      rintro rfl
      simp [List.nodup_append, Shape.addrs] at hn2
    have hrmc : rep ≠ mc := by
      rintro rfl
      simp [Shape.addrs] at hrm
    simp only [Shape.root]
    cases g with
    | left a v r =>
      have hc1 : load t.heap a = some (TreeNode.mk v (ctxParent fs) (some rep) r.root) := hc.1
      have hmc2 : mc ≠ a := hmc
      have hrg2 : rep ≠ a := hrg
      simp only [Frame.rightPtr, Frame.leftPtr, set_left, hc1, Frame.addr, Option.map_some',
        Option.some_bind, reduceCtorEq, and_false, false_and, if_false, if_true, ne_eq,
        not_false_eq_true, and_self, and_true, true_and]
      rw [load_set_of_load hc1, if_neg hrg2, hl]
      simp only [set_parent, Shape.root]
      rw [load_set_of_load hc1, if_neg hmc2, hr.1]
      simp only [Option.map_some', Option.some_bind]
      show Option.map _ (copy_and_free
        (spliceHeap t.heap (.node ml mc mcv mrr) (.left a v r :: fs)) tn rep) = _
      rw [hcf]; rfl
    | right l a v =>
      have hc1 : load t.heap a = some (TreeNode.mk v (ctxParent fs) l.root (some rep)) := hc.1
      have hmc2 : mc ≠ a := hmc
      have hrg2 : rep ≠ a := hrg
      have h1 : ¬ l.root = some rep := fun e => hrs (root_mem e)
      simp only [Frame.rightPtr, Frame.leftPtr, set_right, hc1, Frame.addr, Option.map_some',
        Option.some_bind, reduceCtorEq, and_false, false_and, if_false, if_true, ne_eq,
        not_false_eq_true, and_self, and_true, true_and, if_neg h1]
      rw [load_set_of_load hc1, if_neg hrg2, hl]
      simp only [set_parent, Shape.root]
      rw [load_set_of_load hc1, if_neg hmc2, hr.1]
      simp only [Option.map_some', Option.some_bind]
      show Option.map _ (copy_and_free
        (spliceHeap t.heap (.node ml mc mcv mrr) (.right l a v :: fs)) tn rep) = _
      rw [hcf]; rfl

/-! ## The tree after a deletion -/

theorem nodup_pick_left {l r C : List Nat} {x : Nat} (h : ((l ++ x :: r) ++ C).Nodup) :
    (x :: (l ++ C)).Nodup := by
  simp only [List.nodup_append, List.nodup_cons, List.mem_append, List.mem_cons,
    List.disjoint_left, not_or] at h ⊢
  obtain ⟨⟨hl, ⟨hxr, hr⟩, hlr⟩, hC, hd⟩ := h
  refine ⟨⟨fun hx => (hlr hx).1 rfl, fun hx => hd (Or.inr (Or.inl rfl)) hx⟩, hl, hC,
    fun a ha => hd (Or.inl ha)⟩

theorem nodup_pick_right {l r C : List Nat} {x : Nat} (h : ((l ++ x :: r) ++ C).Nodup) :
    (x :: (r ++ C)).Nodup := by
  simp only [List.nodup_append, List.nodup_cons, List.mem_append, List.mem_cons,
    List.disjoint_left, not_or] at h ⊢
  obtain ⟨⟨hl, ⟨hxr, hr⟩, hlr⟩, hC, hd⟩ := h
  refine ⟨⟨hxr, fun hx => hd (Or.inr (Or.inl rfl)) hx⟩, hr, hC,
    fun a ha => hd (Or.inr (Or.inr ha))⟩

theorem rep_free {h : Heap} {par : Option Nat} {s : Shape} {x : Nat} (hr : Rep h par s)
    (hx : x ∉ s.addrs) : Rep (h.set x none) par s :=
  rep_frame (fun b hb => by
    have hbx : b ≠ x := by rintro rfl; exact hx hb
    unfold load
    rw [List.getElem?_set_ne (fun e => hbx e.symm)]) hr

theorem repCtx_free {h : Heap} {fs : Ctx} {hole : Option Nat} {x : Nat}
    (hr : RepCtx h fs hole) (hx : x ∉ ctxAddrs fs) : RepCtx (h.set x none) fs hole :=
  repCtx_frame (fun b hb => by
    have hbx : b ≠ x := by rintro rfl; exact hx hb
    unfold load
    rw [List.getElem?_set_ne (fun e => hbx e.symm)]) hr

theorem spliceRoot_eq {t : Tree} {fs : Ctx} {sub : Shape} (cs : Shape)
    (hroot : t.root = (plug fs sub).root) : spliceRoot t cs fs = (plug fs cs).root := by
  cases fs with
  | nil => rfl
  | cons f fs => simp only [spliceRoot]; rw [hroot]; exact root_plug_cons f fs _ _

theorem splice_models {t : Tree} {fs : Ctx} {l r cs : Shape} {x : Nat} {v : Int}
    (hm : Models t (plug fs (.node l x v r))) (hcs : cs = l ∨ cs = r) :
    Models { heap := (spliceHeap t.heap cs fs).set x none, root := spliceRoot t cs fs }
      (plug fs cs) := by
  have hnd := (models_ctx_nodup hm)
  obtain ⟨hroot, hrep, -⟩ := hm
  obtain ⟨hctx, hx, hl, hr⟩ := rep_plug.1 hrep
  have hcr : Rep t.heap (some x) cs := by rcases hcs with rfl | rfl <;> assumption
  have hnd2 : (x :: (cs.addrs ++ ctxAddrs fs)).Nodup := by
    rcases hcs with rfl | rfl
    · exact nodup_pick_left hnd
    · exact nodup_pick_right hnd
  obtain ⟨hxn, hnd3⟩ := List.nodup_cons.1 hnd2
  obtain ⟨hc2, hr2⟩ := splice_rep hctx hcr hnd3
  refine ⟨spliceRoot_eq cs hroot, rep_plug.2 ⟨?_, ?_⟩, (addrs_plug_perm fs cs).nodup_iff.2 hnd3⟩
  · exact repCtx_free hc2 (fun hm => hxn (List.mem_append_right _ hm))
  · exact rep_free hr2 (fun hm => hxn (List.mem_append_left _ hm))

theorem repCtx_load_mid {h : Heap} {f : Frame} {fs : Ctx} : ∀ (lf : Ctx) (hole : Option Nat),
    RepCtx h (lf ++ f :: fs) hole → ∃ nd, load h f.addr = some nd
  | [], _, hc => ⟨_, hc.1⟩
  | _ :: lf, _, hc => repCtx_load_mid lf _ hc.2.2

theorem root_plug_node (l : Shape) (a : Nat) (v v2 : Int) (x y : Shape) (fs : Ctx) :
    (plug fs (.node l a v x)).root = (plug fs (.node l a v2 y)).root := by
  cases fs with
  | nil => rfl
  | cons f fs => exact root_plug_cons f fs _ _

theorem two_children_models {t : Tree} {fs lf : Ctx} {l r ml mr : Shape} {tn rep : Nat}
    {v mv : Int} (hm : Models t (plug fs (.node l tn v r)))
    (hz : zoomMin r [] = (lf, .node ml rep mv mr)) :
    delete_two_children t tn (some rep) =
      some { heap := (setVal (spliceHeap t.heap mr (lf ++ .right l tn v :: fs)) tn mv).set
                rep none, root := t.root } ∧
    Models { heap := (setVal (spliceHeap t.heap mr (lf ++ .right l tn v :: fs)) tn mv).set
                rep none, root := t.root }
      (plug (lf ++ .right l tn mv :: fs) mr) := by
  have hml : ml = .nil := by
    cases r with
    | nil => simp [zoomMin] at hz
    | node rl ra rv rr =>
      obtain ⟨ma, mv2, mr2, e⟩ := zoomMin_stop rl ra rv rr []
      rw [hz] at e
      simp only [Shape.node.injEq] at e
      exact e.1
  subst hml
  have hplug : plug (lf ++ .right l tn v :: fs) (.node .nil rep mv mr)
      = plug fs (.node l tn v r) := by
    have := zoomMin_plug r []
    rw [hz] at this
    simp only [plug] at this
    rw [plug_append, this]; rfl
  rw [← hplug] at hm
  have hnd := (models_ctx_nodup hm)
  obtain ⟨hroot, hrep, -⟩ := hm
  obtain ⟨hctx, hx, -, hr⟩ := rep_plug.1 hrep
  have hnd2 : (rep :: (mr.addrs ++ ctxAddrs (lf ++ .right l tn v :: fs))).Nodup :=
    nodup_pick_right hnd
  obtain ⟨hxn, hnd3⟩ := List.nodup_cons.1 hnd2
  obtain ⟨hc2, hr2⟩ := splice_rep hctx hr hnd3
  obtain ⟨nd2, hnd2l⟩ := repCtx_load_mid lf _ hc2
  simp only [Frame.addr] at hnd2l
  have htnmem : tn ∈ ctxAddrs (lf ++ .right l tn v :: fs) := by
    simp [ctxAddrs_append, ctxAddrs, Frame.addr]
  have hne : rep ≠ tn := by
    rintro rfl; exact hxn (List.mem_append_right _ htnmem)
  have hsv : setVal (spliceHeap t.heap mr (lf ++ .right l tn v :: fs)) tn mv
      = (spliceHeap t.heap mr (lf ++ .right l tn v :: fs)).set tn
          (some { nd2 with value := mv }) := by
    simp only [setVal, hnd2l]
  constructor
  · rw [hsv]
    generalize hC : lf ++ Frame.right l tn v :: fs = C at *
    cases C with
    | nil => simp at hC
    | cons g C2 => exact delete_two_children_eq hctx hx hr hnd2 hnd2l hne
  · have hc3 := repCtx_set_value_mid mv hnd2l lf _ hc2 (List.nodup_append.1 hnd3).2.1
    rw [← hsv] at hc3
    have hr3 : Rep (setVal (spliceHeap t.heap mr (lf ++ .right l tn v :: fs)) tn mv)
        (ctxParent (lf ++ .right l tn mv :: fs)) mr := by
      rw [← ctxParent_append_right lf l tn v mv fs, hsv]
      refine rep_frame (fun b hb => ?_) hr2
      have : b ≠ tn := by
        rintro rfl; exact (List.nodup_append.1 hnd3).2.2 hb htnmem
      rw [load_set_of_load hnd2l, if_neg this]
    have hadd := ctxAddrs_append_right lf l tn v mv fs
    refine ⟨?_, rep_plug.2 ⟨repCtx_free hc3 ?_, rep_free hr3 ?_⟩, ?_⟩
    · show t.root = _
      rw [hroot, plug_append, plug_append]
      exact root_plug_node l tn v mv _ _ fs
    · rw [← hadd]; exact fun hm => hxn (List.mem_append_right _ hm)
    · exact fun hm => hxn (List.mem_append_left _ hm)
    · refine (addrs_plug_perm _ mr).nodup_iff.2 ?_
      rw [← hadd]; exact hnd3

theorem height_fill_le (f : Frame) (x : Shape) : x.height ≤ (f.fill x).height := by
  cases f <;> simp only [Frame.fill, Shape.height] <;> omega

theorem height_plug_le : ∀ (fs : Ctx) (x : Shape), x.height ≤ (plug fs x).height
  | [], _ => le_refl _
  | f :: fs, x => (height_fill_le f x).trans (height_plug_le fs _)

theorem successor_zoom {h : Heap} {tn : Nat} {nd : TreeNode} {rl rr : Shape} {ra : Nat}
    {rv : Int} {par : Option Nat} {fuel : Nat} (hl : load h tn = some nd)
    (hr : nd.right = some ra) (hrep : Rep h par (.node rl ra rv rr))
    (hf : (Shape.node rl ra rv rr).height ≤ fuel) :
    successor fuel h tn = some (zoomMin (.node rl ra rv rr) []).2.root := by
  unfold successor
  rw [hl]
  simp only [hr]
  exact tree_minimum_zoom rl ra rv rr par [] fuel hrep hf

theorem deletedShape_keys (fs : Ctx) (l : Shape) (tn : Nat) (v : Int) (r : Shape) :
    (deletedShape fs (.node l tn v r)).keys
      = ctxBefore fs ++ (l.keys ++ r.keys) ++ ctxAfter fs := by
  cases l with
  | nil => simp [deletedShape, keys_plug, Shape.keys]
  | node ll la lv lr =>
    cases r with
    | nil => simp [deletedShape, keys_plug, Shape.keys]
    | node rl ra rv rr =>
      obtain ⟨ma, mv, mr, e⟩ := zoomMin_stop rl ra rv rr []
      have hk : (Shape.node rl ra rv rr).keys
          = ctxBefore (zoomMin (.node rl ra rv rr) []).1 ++ (Shape.node .nil ma mv mr).keys
            ++ ctxAfter (zoomMin (.node rl ra rv rr) []).1 := by
        rw [← e, ← keys_plug, zoomMin_plug]; rfl
      rw [zoomMin_before] at hk
      simp only [deletedShape, e, keys_plug, ctxBefore_append, ctxAfter_append,
        zoomMin_before, ctxBefore, ctxAfter]
      rw [hk]
      simp [Shape.keys, ctxBefore]

theorem delete_node_eq {t : Tree} {s : Shape} (hm : Models t s) (n : Int) {fuel : Nat}
    (hf : s.height < fuel) {l r : Shape} {tn : Nat}
    (hz : (zoom n s []).2 = .node l tn n r) :
    delete_node fuel t n = some (deletedTree t (zoom n s []).1 (.node l tn n r), false) ∧
    Models (deletedTree t (zoom n s []).1 (.node l tn n r))
      (deletedShape (zoom n s []).1 (.node l tn n r)) := by
  have hfind := find_node_zoom hm n hf
  have hplug := zoom_plug n s []
  rw [hz] at hfind hplug
  generalize (zoom n s []).1 = fs at hplug ⊢
  subst hplug
  have hnd := (models_ctx_nodup hm)
  have hm2 := hm
  obtain ⟨hroot, hrep, -⟩ := hm
  obtain ⟨hctx, hx, hl, hr⟩ := rep_plug.1 hrep
  have hsub : (Shape.node l tn n r).height < fuel :=
    lt_of_le_of_lt (height_plug_le fs _) hf
  unfold delete_node
  simp only [hfind, Shape.root, hx]
  cases l with
  | nil =>
    cases r with
    | nil =>
      simp only [Shape.root, and_self, if_true]
      have hn2 : (tn :: ctxAddrs fs).Nodup := by simpa [Shape.addrs] using hnd
      rw [delete_leaf_eq hctx hx hn2]
      exact ⟨rfl, splice_models hm2 (Or.inl rfl)⟩
    | node rl ra rv rr =>
      simp only [Shape.root, reduceCtorEq, and_false, if_false, ne_eq, not_false_eq_true,
        and_self, if_true]
      have hn2 := nodup_pick_right hnd
      rw [delete_right_only_eq hctx hx hr hn2]
      exact ⟨rfl, splice_models hm2 (Or.inr rfl)⟩
  | node ll la lv lr =>
    cases r with
    | nil =>
      simp only [Shape.root, reduceCtorEq, and_false, false_and, if_false, ne_eq,
        not_false_eq_true, and_self, if_true]
      have hn2 := nodup_pick_left hnd
      rw [delete_left_only_eq hctx hx hl hn2]
      exact ⟨rfl, splice_models hm2 (Or.inl rfl)⟩
    | node rl ra rv rr =>
      simp only [Shape.root, reduceCtorEq, and_false, false_and, if_false, ne_eq,
        not_false_eq_true, and_self, if_true, not_true_eq_false]
      obtain ⟨ma, mv, mr, e⟩ := zoomMin_stop rl ra rv rr []
      have hle : (Shape.node rl ra rv rr).height ≤ fuel := by
        simp only [Shape.height] at hsub ⊢; omega
      have hsucc := successor_zoom hx rfl hr hle
      rw [e] at hsucc
      simp only [Shape.root] at hsucc
      rw [hsucc]
      have hz2 : zoomMin (.node rl ra rv rr) []
          = ((zoomMin (.node rl ra rv rr) []).1, .node .nil ma mv mr) := by
        rw [← e]
      obtain ⟨h1, h2⟩ := two_children_models hm2 hz2
      simp only [Option.some_bind, h1, Option.map_some', deletedTree, deletedShape, e]
      exact ⟨trivial, h2⟩

/-! ## Fuel monotonicity -/

theorem find_loop_mono {h : Heap} {n : Int} : ∀ {fuel fuel2 : Nat} {p : Option Nat}
    {x : Option Nat}, find_loop fuel h p n = some x → fuel ≤ fuel2 →
    find_loop fuel2 h p n = some x
  | 0, _, _, _, e, _ => by simp [find_loop] at e
  | fuel + 1, fuel2 + 1, none, x, e, _ => by simpa [find_loop] using e
  | fuel + 1, fuel2 + 1, some a, x, e, hle => by
    simp only [find_loop] at e ⊢
    cases hl : load h a with
    | none => simp [hl] at e
    | some nd =>
      simp only [hl] at e ⊢
      split
      · rename_i hlt
        rw [if_pos hlt] at e
        exact find_loop_mono e (by omega)
      · rename_i hnl
        rw [if_neg hnl] at e
        split
        · rename_i hgt
          rw [if_pos hgt] at e
          exact find_loop_mono e (by omega)
        · rename_i hng
          rw [if_neg hng] at e
          exact e

theorem insert_loop_mono {h : Heap} {tn : Nat} : ∀ {fuel fuel2 : Nat} {x y : Option Nat}
    {z : Option Nat}, insert_loop fuel h tn x y = some z → fuel ≤ fuel2 →
    insert_loop fuel2 h tn x y = some z
  | 0, _, _, _, _, e, _ => by simp [insert_loop] at e
  | fuel + 1, fuel2 + 1, none, y, z, e, _ => by simpa [insert_loop] using e
  | fuel + 1, fuel2 + 1, some a, y, z, e, hle => by
    simp only [insert_loop] at e ⊢
    cases hl : load h tn with
    | none => simp [hl] at e
    | some tnd =>
      cases hl2 : load h a with
      | none => simp [hl, hl2] at e
      | some xd =>
        simp only [hl, hl2] at e ⊢
        split
        · rename_i hlt
          rw [if_pos hlt] at e
          exact insert_loop_mono e (by omega)
        · rename_i hnl
          rw [if_neg hnl] at e
          exact insert_loop_mono e (by omega)

theorem tree_minimum_mono {h : Heap} : ∀ {fuel fuel2 : Nat} {tn : Nat} {x : Nat},
    tree_minimum fuel h tn = some x → fuel ≤ fuel2 → tree_minimum fuel2 h tn = some x
  | 0, _, _, _, e, _ => by simp [tree_minimum] at e
  | fuel + 1, fuel2 + 1, tn, x, e, hle => by
    simp only [tree_minimum] at e ⊢
    cases hl : load h tn with
    | none => simp [hl] at e
    | some nd =>
      simp only [hl] at e ⊢
      cases hleft : nd.left with
      | none => simpa [hleft] using e
      | some l =>
        simp only [hleft] at e ⊢
        exact tree_minimum_mono e (by omega)

theorem successor_loop_mono {h : Heap} : ∀ {fuel fuel2 : Nat} {tn : Nat} {p : Option Nat}
    {x : Option Nat}, successor_loop fuel h tn p = some x → fuel ≤ fuel2 →
    successor_loop fuel2 h tn p = some x
  | 0, _, _, _, _, e, _ => by simp [successor_loop] at e
  | fuel + 1, fuel2 + 1, tn, none, x, e, _ => by simpa [successor_loop] using e
  | fuel + 1, fuel2 + 1, tn, some p, x, e, hle => by
    simp only [successor_loop] at e ⊢
    cases hl : load h p with
    | none => simp [hl] at e
    | some pd =>
      simp only [hl] at e ⊢
      split
      · rename_i hr
        rw [if_pos hr] at e
        exact successor_loop_mono e (by omega)
      · rename_i hr
        rw [if_neg hr] at e
        exact e

theorem successor_mono {h : Heap} {fuel fuel2 : Nat} {tn : Nat} {x : Option Nat}
    (e : successor fuel h tn = some x) (hle : fuel ≤ fuel2) :
    successor fuel2 h tn = some x := by
  unfold successor at e ⊢
  cases hl : load h tn with
  | none => simp [hl] at e
  | some nd =>
    simp only [hl] at e ⊢
    cases hr : nd.right with
    | none =>
      simp only [hr] at e ⊢
      exact successor_loop_mono e hle
    | some r =>
      simp only [hr] at e ⊢
      cases hm : tree_minimum fuel h r with
      | none => simp [hm] at e
      | some m =>
        rw [hm] at e
        rw [tree_minimum_mono hm hle]; exact e

theorem insert_node_mono {fuel fuel2 : Nat} {t t2 : Tree} {n : Int}
    (e : insert_node fuel t n = some t2) (hle : fuel ≤ fuel2) :
    insert_node fuel2 t n = some t2 := by
  unfold insert_node at e ⊢
  cases hf : find_node fuel t n with
  | none => simp [hf] at e
  | some r =>
    have hf2 : find_node fuel2 t n = some r := find_loop_mono hf hle
    rw [hf] at e
    rw [hf2]
    cases r with
    | some a => exact e
    | none =>
      simp only at e ⊢
      cases hi : insert_loop fuel (initialize_node t.heap n).1 (initialize_node t.heap n).2
          t.root none with
      | none => simp [hi] at e
      | some y =>
        rw [hi] at e
        rw [insert_loop_mono hi hle]; exact e

theorem delete_node_mono {fuel fuel2 : Nat} {t : Tree} {r : Tree × Bool} {n : Int}
    (e : delete_node fuel t n = some r) (hle : fuel ≤ fuel2) :
    delete_node fuel2 t n = some r := by
  unfold delete_node at e ⊢
  cases hf : find_node fuel t n with
  | none => simp [hf] at e
  | some x =>
    have hf2 : find_node fuel2 t n = some x := find_loop_mono hf hle
    rw [hf] at e
    rw [hf2]
    cases x with
    | none => exact e
    | some tn =>
      simp only at e ⊢
      cases hl : load t.heap tn with
      | none => simp [hl] at e
      | some nd =>
        simp only [hl] at e ⊢
        cases hs : successor fuel t.heap tn with
        | none =>
          rw [hs] at e
          split
          · rename_i h1; rw [if_pos h1] at e; exact e
          · rename_i h1
            rw [if_neg h1] at e
            split
            · rename_i h2; rw [if_pos h2] at e; exact e
            · rename_i h2
              rw [if_neg h2] at e
              split
              · rename_i h3; rw [if_pos h3] at e; exact e
              · rename_i h3
                rw [if_neg h3] at e
                simp at e
        | some y =>
          rw [hs] at e
          rw [successor_mono hs hle]; exact e

/-! ## Nodes of a tree, at the level of the heap -/

theorem below_of_mem {h : Heap} : ∀ {s : Shape} {par : Option Nat} {y : Nat},
    Rep h par s → y ∈ s.addrs → Below h s.root y
  | .nil, _, _, _, hy => by simp [Shape.addrs] at hy
  | .node l a v r, par, y, ⟨h1, hl, hr⟩, hy => by
    simp only [Shape.addrs, List.mem_append, List.mem_cons] at hy
    rcases hy with hy | rfl | hy
    · exact Below.left h1 (below_of_mem hl hy)
    · exact Below.here h1
    · exact Below.right h1 (below_of_mem hr hy)

theorem mem_of_below {h : Heap} {p : Option Nat} {y : Nat} (hb : Below h p y) :
    ∀ {s : Shape} {par : Option Nat}, Rep h par s → p = s.root → y ∈ s.addrs := by
  induction hb with
  | here hl =>
    intro s par hr hp
    exact root_mem hp.symm
  | left hl _ ih =>
    intro s par hr hp
    cases s with
    | nil => cases hp
    | node l a v r =>
      simp only [Shape.root, Option.some.injEq] at hp
      subst hp
      rw [hr.1] at hl
      cases hl
      have := ih hr.2.1 rfl
      simp [Shape.addrs, this]
  | right hl _ ih =>
    intro s par hr hp
    cases s with
    | nil => cases hp
    | node l a v r =>
      simp only [Shape.root, Option.some.injEq] at hp
      subst hp
      rw [hr.1] at hl
      cases hl
      have := ih hr.2.2 rfl
      simp [Shape.addrs, this]

theorem models_below_iff {t : Tree} {s : Shape} (hm : Models t s) (y : Nat) :
    Below t.heap t.root y ↔ y ∈ s.addrs :=
  ⟨fun hb => mem_of_below hb hm.2.1 hm.1, fun hy => hm.1 ▸ below_of_mem hm.2.1 hy⟩

/-- The subtree of `s` whose top node has address `x`, with the pointer to the
parent of `x`. -/
theorem subtree_at {h : Heap} : ∀ {s : Shape} {par : Option Nat} {x : Nat},
    Rep h par s → x ∈ s.addrs →
    ∃ (l : Shape) (v : Int) (r : Shape) (q : Option Nat), Rep h q (.node l x v r) ∧
      (s.BST → (Shape.node l x v r).BST) ∧ (∀ k ∈ (Shape.node l x v r).keys, k ∈ s.keys) ∧
      (∀ a ∈ (Shape.node l x v r).addrs, a ∈ s.addrs) ∧
      (q = par ∧ s.root = some x ∨
        ∃ pa pd, q = some pa ∧ pa ∈ s.addrs ∧ load h pa = some pd ∧
          (pd.left = some x ∨ pd.right = some x))
  | .nil, _, _, _, hx => by simp [Shape.addrs] at hx
  | .node l a v r, par, x, ⟨h1, hl, hr⟩, hx => by
    simp only [Shape.addrs, List.mem_append, List.mem_cons] at hx
    rcases hx with hx | rfl | hx
    · obtain ⟨l2, v2, r2, q, hrep, hbst, hk, ha, hq⟩ := subtree_at hl hx
      refine ⟨l2, v2, r2, q, hrep, fun hb => hbst hb.1, fun k hk2 => ?_, fun b hb => ?_, ?_⟩
      · simp [Shape.keys, hk k hk2]
      · simp [Shape.addrs, ha b hb]
      · right
        rcases hq with ⟨rfl, hroot⟩ | ⟨pa, pd, rfl, hpa, hpd, hlink⟩
        · exact ⟨a, _, rfl, by simp [Shape.addrs], h1, Or.inl hroot⟩
        · exact ⟨pa, pd, rfl, by simp [Shape.addrs, hpa], hpd, hlink⟩
    · exact ⟨l, v, r, par, ⟨h1, hl, hr⟩, id, fun _ hk => hk, fun _ hb => hb, Or.inl ⟨rfl, rfl⟩⟩
    · obtain ⟨l2, v2, r2, q, hrep, hbst, hk, ha, hq⟩ := subtree_at hr hx
      refine ⟨l2, v2, r2, q, hrep, fun hb => hbst hb.2.1, fun k hk2 => ?_, fun b hb => ?_, ?_⟩
      · simp [Shape.keys, hk k hk2]
      · simp [Shape.addrs, ha b hb]
      · right
        rcases hq with ⟨rfl, hroot⟩ | ⟨pa, pd, rfl, hpa, hpd, hlink⟩
        · exact ⟨a, _, rfl, by simp [Shape.addrs], h1, Or.inr hroot⟩
        · exact ⟨pa, pd, rfl, by simp [Shape.addrs, hpa], hpd, hlink⟩

theorem key_of_addr {h : Heap} {s : Shape} {par : Option Nat} {x : Nat}
    (hr : Rep h par s) (hx : x ∈ s.addrs) :
    ∃ nd, load h x = some nd ∧ nd.value ∈ s.keys := by
  obtain ⟨l, v, r, q, hrep, -, hk, -, -⟩ := subtree_at hr hx
  exact ⟨_, hrep.1, hk v (by simp [Shape.keys])⟩

theorem addr_of_key {h : Heap} : ∀ {s : Shape} {par : Option Nat} {k : Int},
    Rep h par s → k ∈ s.keys → ∃ x nd, x ∈ s.addrs ∧ load h x = some nd ∧ nd.value = k
  | .nil, _, _, _, hk => by simp [Shape.keys] at hk
  | .node l a v r, par, k, ⟨h1, hl, hr⟩, hk => by
    simp only [Shape.keys, List.mem_append, List.mem_cons] at hk
    rcases hk with hk | rfl | hk
    · obtain ⟨x, nd, hx, hld, hv⟩ := addr_of_key hl hk
      exact ⟨x, nd, by simp [Shape.addrs, hx], hld, hv⟩
    · exact ⟨a, _, by simp [Shape.addrs], h1, rfl⟩
    · obtain ⟨x, nd, hx, hld, hv⟩ := addr_of_key hr hk
      exact ⟨x, nd, by simp [Shape.addrs, hx], hld, hv⟩

/-- In a BST-ordered shape two nodes with the same value are the same node. -/
theorem addr_unique {h : Heap} : ∀ {s : Shape} {par : Option Nat} {x y : Nat}
    {nx ny : TreeNode}, Rep h par s → s.BST → x ∈ s.addrs → y ∈ s.addrs →
    load h x = some nx → load h y = some ny → nx.value = ny.value → x = y
  | .nil, _, _, _, _, _, _, _, hx, _, _, _, _ => by simp [Shape.addrs] at hx
  | .node l a v r, par, x, y, nx, ny, ⟨h1, hl, hr⟩, ⟨bl, br, blv, brv⟩, hx, hy, ex, ey, e => by
    have key : ∀ {s2 : Shape} {z : Nat} {nz : TreeNode}, Rep h (some a) s2 → z ∈ s2.addrs →
        load h z = some nz → nz.value ∈ s2.keys := by
      intro s2 z nz hr2 hz ez
      obtain ⟨nd, e1, e2⟩ := key_of_addr hr2 hz
      rw [ez] at e1; cases e1; exact e2
    simp only [Shape.addrs, List.mem_append, List.mem_cons] at hx hy
    rcases hx with hx | rfl | hx <;> rcases hy with hy | rfl | hy
    · exact addr_unique hl bl hx hy ex ey e
    · rw [h1] at ey; cases ey
      exact absurd (blv _ (key hl hx ex)) (by simp [e])
    · have h3 := blv _ (key hl hx ex)
      have h4 := brv _ (key hr hy ey)
      omega
    · rw [h1] at ex; cases ex
      exact absurd (blv _ (key hl hy ey)) (by simp [← e])
    · rfl
    · rw [h1] at ex; cases ex
      exact absurd (brv _ (key hr hy ey)) (by simp [← e])
    · have h3 := blv _ (key hl hy ey)
      have h4 := brv _ (key hr hx ex)
      omega
    · rw [h1] at ey; cases ey
      exact absurd (brv _ (key hr hx ex)) (by simp [e])
    · exact addr_unique hr br hx hy ex ey e

/-- A tree has at most one shape. -/
theorem rep_unique {h : Heap} : ∀ {s s2 : Shape} {par par2 : Option Nat},
    Rep h par s → Rep h par2 s2 → s.root = s2.root → s = s2
  | .nil, .nil, _, _, _, _, _ => rfl
  | .nil, .node _ _ _ _, _, _, _, _, e => by cases e
  | .node _ _ _ _, .nil, _, _, _, _, e => by cases e
  | .node l a v r, .node l2 a2 v2 r2, _, _, ⟨h1, hl, hr⟩, ⟨h2, hl2, hr2⟩, e => by
    simp only [Shape.root, Option.some.injEq] at e
    subst e
    rw [h1] at h2
    simp only [Option.some.injEq, TreeNode.mk.injEq] at h2
    obtain ⟨rfl, -, el, er⟩ := h2
    rw [rep_unique hl hl2 el, rep_unique hr hr2 er]

theorem models_unique {t : Tree} {s s2 : Shape} (hm : Models t s) (hm2 : Models t s2) :
    s = s2 :=
  rep_unique hm.2.1 hm2.2.1 (hm.1.symm.trans hm2.1)

/-! ## Counting allocated nodes -/

theorem load_getElem {h : Heap} {a : Nat} {nd : TreeNode} (e : load h a = some nd) :
    ∃ hlt : a < h.length, h[a] = some nd := by
  have hlt := load_lt e
  refine ⟨hlt, ?_⟩
  unfold load at e
  rw [List.getElem?_eq_getElem hlt] at e
  simpa using e

theorem live_set_some {h : Heap} {a : Nat} {nd : TreeNode} (e : load h a = some nd)
    (x : TreeNode) : live (h.set a (some x)) = live h := by
  obtain ⟨hlt, hg⟩ := load_getElem e
  unfold live
  rw [List.countP_set _ _ _ _ hlt]
  have := List.boole_getElem_le_countP (fun x : Option TreeNode => x.isSome) h a hlt
  simp only [hg, Option.isSome_some, if_true] at this ⊢
  omega

theorem live_set_none {h : Heap} {a : Nat} {nd : TreeNode} (e : load h a = some nd) :
    live (h.set a none) + 1 = live h := by
  obtain ⟨hlt, hg⟩ := load_getElem e
  unfold live
  rw [List.countP_set _ _ _ _ hlt]
  have := List.boole_getElem_le_countP (fun x : Option TreeNode => x.isSome) h a hlt
  simp only [hg, Option.isSome_some, if_true, Option.isSome_none] at this ⊢
  simp only [Bool.false_eq_true, if_false]
  omega

theorem live_reparent {h : Heap} {par0 : Option Nat} (par : Option Nat) {cs : Shape}
    (hr : Rep h par0 cs) : live (reparent h par cs) = live h := by
  cases cs with
  | nil => rfl
  | node cl ca cv cr => exact live_set_some hr.1 _

theorem live_spliceHeap {h : Heap} {fs : Ctx} {cs : Shape} {hole par0 : Option Nat}
    (hc : RepCtx h fs hole) (hr : Rep h par0 cs) (hn : ∀ a ∈ cs.addrs, ctxParent fs ≠ some a) :
    live (spliceHeap h cs fs) = live h := by
  cases fs with
  | nil => exact live_reparent none hr
  | cons f fs =>
    simp only [spliceHeap]
    have hr1 : Rep (h.set f.addr (some (TreeNode.mk f.val (ctxParent fs) (f.leftPtr cs.root)
        (f.rightPtr cs.root)))) par0 cs :=
      rep_frame (fun b hb => by
        have : b ≠ f.addr := by rintro rfl; exact hn _ hb rfl
        rw [load_set_of_load hc.1, if_neg this]) hr
    rw [live_reparent _ hr1, live_set_some hc.1]

theorem live_setVal (h : Heap) (a : Nat) (v : Int) : live (setVal h a v) = live h := by
  unfold setVal
  cases e : load h a with
  | none => rfl
  | some nd => exact live_set_some e _

theorem live_insertedHeap (h : Heap) (n : Int) (fs : Ctx) (hf : ∀ f ∈ fs.head?, ∃ nd,
    load h f.addr = some nd) : live (insertedHeap h n fs) = live h + 1 := by
  have h0 : live (h ++ [some (TreeNode.mk n none none none)]) = live h + 1 := by
    simp [live, List.countP_append]
  have htn : load (h ++ [some (TreeNode.mk n none none none)]) h.length
      = some (TreeNode.mk n none none none) := load_append_length _ _
  cases fs with
  | nil => simp only [insertedHeap]; rw [live_set_some htn, h0]
  | cons f fs =>
    obtain ⟨nd, hnd⟩ := hf f (by simp)
    have hne : f.addr ≠ h.length := Nat.ne_of_lt (load_lt hnd)
    simp only [insertedHeap]
    have h1 : load ((h ++ [some (TreeNode.mk n none none none)]).set h.length
        (some (TreeNode.mk n (some f.addr) none none))) f.addr = some nd := by
      rw [load_set_of_load htn, if_neg hne]; exact load_append_of_load hnd _
    rw [live_set_some h1, live_set_some htn, h0]

/-! ## Well-formed trees and runs of the mutating operations -/

theorem models_initialize_tree : Models initialize_tree .nil :=
  ⟨rfl, trivial, List.nodup_nil⟩

theorem ordered_initialize_tree : Ordered initialize_tree :=
  ⟨.nil, models_initialize_tree, trivial⟩

theorem ordered_wellFormed {t : Tree} (h : Ordered t) : WellFormed t :=
  let ⟨s, hm, _⟩ := h
  ⟨s, hm⟩

theorem insert_node_found {t : Tree} {s : Shape} (hm : Models t s) (n : Int) {fuel : Nat}
    (hf : s.height < fuel) {l r : Shape} {a : Nat} (hz : (zoom n s []).2 = .node l a n r) :
    insert_node fuel t n = some t := by
  have hfind := find_node_zoom hm n hf
  rw [hz] at hfind
  unfold insert_node
  rw [hfind]; rfl

theorem sorted_insert_mid {L R : List Int} {n : Int} (h : (L ++ R).Pairwise (· < ·))
    (hL : ∀ x ∈ L, x < n) (hR : ∀ x ∈ R, n < x) : (L ++ n :: R).Pairwise (· < ·) := by
  rw [List.pairwise_append] at h ⊢
  obtain ⟨h1, h2, h3⟩ := h
  refine ⟨h1, List.pairwise_cons.2 ⟨hR, h2⟩, ?_⟩
  intro a ha b hb
  rcases List.mem_cons.1 hb with rfl | hb
  · exact hL a ha
  · exact h3 a ha b hb

theorem inserted_bst {s : Shape} (hb : s.BST) (n : Int) (a : Nat)
    (hz : (zoom n s []).2 = .nil) : (plug (zoom n s []).1 (.node .nil a n .nil)).BST := by
  have hk := zoom_keys n s
  have hbd := zoom_bounds n s [] hb (ctxBounds_nil n)
  rw [hz] at hk
  rw [bst_iff_sorted] at hb ⊢
  rw [hk] at hb
  rw [keys_plug]
  simp only [Shape.keys, List.append_nil, List.nil_append, List.append_assoc,
    List.singleton_append] at hb ⊢
  exact sorted_insert_mid hb hbd.1 hbd.2

theorem models_zoom {t : Tree} {s : Shape} (hm : Models t s) (n : Int) :
    Models t (plug (zoom n s []).1 (zoom n s []).2) := by
  rw [zoom_plug]; exact hm

/-- One call of `insert_node` on a well-formed tree returns when the fuel
exceeds the height, and yields a well-formed tree. -/
theorem insert_node_total {t : Tree} {s : Shape} (hm : Models t s) (n : Int) {fuel : Nat}
    (hf : s.height < fuel) :
    ∃ t2 s2, insert_node fuel t n = some t2 ∧ Models t2 s2 ∧ (s.BST → s2.BST) := by
  rcases zoom_stop n s [] with hz | ⟨l, a, r, hz⟩
  · have := models_zoom hm n
    rw [hz] at this
    exact ⟨_, _, insert_node_eq hm n hf hz, insert_models n this,
      fun hb => inserted_bst hb n _ hz⟩
  · exact ⟨t, s, insert_node_found hm n hf hz, hm, id⟩

theorem insert_node_step {t t2 : Tree} {s : Shape} (hm : Models t s) {n : Int} {fuel : Nat}
    (e : insert_node fuel t n = some t2) : ∃ s2, Models t2 s2 ∧ (s.BST → s2.BST) := by
  obtain ⟨t3, s3, e3, hm3, hb3⟩ :=
    insert_node_total hm n (Nat.lt_succ_of_le (le_max_right fuel s.height))
  have e2 := insert_node_mono e (Nat.le_succ_of_le (le_max_left fuel s.height))
  rw [e2] at e3
  cases e3
  exact ⟨s3, hm3, hb3⟩

theorem deleted_keys_sublist (fs : Ctx) (l : Shape) (tn : Nat) (v : Int) (r : Shape) :
    List.Sublist (deletedShape fs (.node l tn v r)).keys (plug fs (.node l tn v r)).keys := by
  rw [deletedShape_keys, keys_plug]
  simp only [Shape.keys]
  refine List.Sublist.append (List.Sublist.append (List.Sublist.refl _) ?_) (List.Sublist.refl _)
  exact List.Sublist.append (List.Sublist.refl _) (List.sublist_cons_self _ _)

theorem delete_node_total {t : Tree} {s : Shape} (hm : Models t s) (n : Int) {fuel : Nat}
    (hf : s.height < fuel) :
    ∃ t2 s2 b, delete_node fuel t n = some (t2, b) ∧ Models t2 s2 ∧
      List.Sublist s2.keys s.keys := by
  rcases zoom_stop n s [] with hz | ⟨l, a, r, hz⟩
  · have hfind := find_node_zoom hm n hf
    rw [hz] at hfind
    refine ⟨t, s, true, ?_, hm, List.Sublist.refl _⟩
    unfold delete_node
    rw [hfind]; rfl
  · obtain ⟨h1, h2⟩ := delete_node_eq hm n hf hz
    refine ⟨_, _, false, h1, h2, ?_⟩
    have := deleted_keys_sublist (zoom n s []).1 l a n r
    rw [← hz, zoom_plug] at this
    rw [hz] at this
    exact this

theorem delete_node_step {t t2 : Tree} {b : Bool} {s : Shape} (hm : Models t s) {n : Int}
    {fuel : Nat} (e : delete_node fuel t n = some (t2, b)) :
    ∃ s2, Models t2 s2 ∧ (s.BST → s2.BST) := by
  obtain ⟨t3, s3, b3, e3, hm3, hsub⟩ :=
    delete_node_total hm n (Nat.lt_succ_of_le (le_max_right fuel s.height))
  have e2 := delete_node_mono e (Nat.le_succ_of_le (le_max_left fuel s.height))
  rw [e2] at e3
  cases e3
  refine ⟨s3, hm3, fun hb => ?_⟩
  rw [bst_iff_sorted] at hb ⊢
  exact hb.sublist hsub

theorem steps_wellFormed {t0 t : Tree} (hs : Steps t0 t) (h0 : WellFormed t0) :
    WellFormed t := by
  induction hs with
  | refl => exact h0
  | insert fuel k _ e ih =>
    obtain ⟨s, hm⟩ := ih
    obtain ⟨s2, hm2, -⟩ := insert_node_step hm e
    exact ⟨s2, hm2⟩
  | delete fuel k _ e ih =>
    obtain ⟨s, hm⟩ := ih
    obtain ⟨s2, hm2, -⟩ := delete_node_step hm e
    exact ⟨s2, hm2⟩

theorem steps_ordered {t0 t : Tree} (hs : Steps t0 t) (h0 : Ordered t0) : Ordered t := by
  induction hs with
  | refl => exact h0
  | insert fuel k _ e ih =>
    obtain ⟨s, hm, hb⟩ := ih
    obtain ⟨s2, hm2, hb2⟩ := insert_node_step hm e
    exact ⟨s2, hm2, hb2 hb⟩
  | delete fuel k _ e ih =>
    obtain ⟨s, hm, hb⟩ := ih
    obtain ⟨s2, hm2, hb2⟩ := delete_node_step hm e
    exact ⟨s2, hm2, hb2 hb⟩

/-! ## Invariants stated on the heap -/

theorem rep_root_load {h : Heap} {s : Shape} {par : Option Nat} {b : Nat} (hr : Rep h par s)
    (e : s.root = some b) : ∃ nb, load h b = some nb ∧ nb.parent = par := by
  cases s with
  | nil => cases e
  | node l a v r =>
    simp only [Shape.root, Option.some.injEq] at e
    subst e
    exact ⟨_, hr.1, rfl⟩

theorem models_heapBST {t : Tree} {s : Shape} (hm : Models t s) (hb : s.BST) : HeapBST t := by
  intro x nx hx hlx
  obtain ⟨l, v, r, q, hrep, hbst, -, -, -⟩ := subtree_at hm.2.1 ((models_below_iff hm x).1 hx)
  obtain ⟨-, -, hlv, hrv⟩ := hbst hb
  rw [hrep.1] at hlx
  cases hlx
  constructor
  · intro y ny hy hly
    obtain ⟨nd, e1, e2⟩ := key_of_addr hrep.2.1 (mem_of_below hy hrep.2.1 rfl)
    rw [hly] at e1; cases e1
    exact hlv _ e2
  · intro y ny hy hly
    obtain ⟨nd, e1, e2⟩ := key_of_addr hrep.2.2 (mem_of_below hy hrep.2.2 rfl)
    rw [hly] at e1; cases e1
    exact hrv _ e2

theorem models_parentConsistent {t : Tree} {s : Shape} (hm : Models t s) :
    ParentConsistent t := by
  refine ⟨?_, ?_, ?_⟩
  · intro a na b ha hla hlink
    obtain ⟨l, v, r, q, hrep, -, -, -, -⟩ := subtree_at hm.2.1 ((models_below_iff hm a).1 ha)
    rw [hrep.1] at hla
    cases hla
    rcases hlink with e | e
    · exact rep_root_load hrep.2.1 e
    · exact rep_root_load hrep.2.2 e
  · intro b nb a hb hlb hpar
    obtain ⟨l, v, r, q, hrep, -, -, -, hq⟩ := subtree_at hm.2.1 ((models_below_iff hm b).1 hb)
    rw [hrep.1] at hlb
    cases hlb
    rcases hq with ⟨rfl, -⟩ | ⟨pa, pd, rfl, hpa, hpd, hlink⟩
    · cases hpar
    · simp only [Option.some.injEq] at hpar
      subst hpar
      exact ⟨pd, (models_below_iff hm _).2 hpa, hpd, hlink⟩
  · intro r hr
    exact rep_root_load hm.2.1 (hm.1 ▸ hr)

/-- C1. BST ordering is an invariant of the mutating operations: a tree
obtained from the empty tree (or from any BST-ordered, parent-consistent
tree) by any finite sequence of `insert_node` and `delete_node` calls is
BST-ordered, both as a shape and node by node on the heap; and from such a
tree every further call of `insert_node` and of `delete_node`, for every key,
returns (given fuel beyond the heap size) a BST-ordered tree. -/
theorem bst_ordering_invariant (t0 t : Tree) (h0 : t0 = initialize_tree ∨ Ordered t0)
    (hs : Steps t0 t) :
    Ordered t ∧ HeapBST t ∧
    ∀ (fuel : Nat) (k : Int), t.heap.length < fuel →
      (∃ t1, insert_node fuel t k = some t1 ∧ Ordered t1 ∧ HeapBST t1) ∧
      (∃ t2 b, delete_node fuel t k = some (t2, b) ∧ Ordered t2 ∧ HeapBST t2) := by
  have h1 : Ordered t0 := by
    rcases h0 with rfl | h0
    · exact ordered_initialize_tree
    · exact h0
  obtain ⟨s, hm, hb⟩ := steps_ordered hs h1
  refine ⟨⟨s, hm, hb⟩, models_heapBST hm hb, fun fuel k hf => ⟨?_, ?_⟩⟩
  · obtain ⟨t1, s1, e, hm1, hb1⟩ := insert_node_total hm k (models_height_lt hm hf)
    exact ⟨t1, e, ⟨s1, hm1, hb1 hb⟩, models_heapBST hm1 (hb1 hb)⟩
  · obtain ⟨t2, s2, b, e, hm2, hsub⟩ := delete_node_total hm k (models_height_lt hm hf)
    have hb2 : s2.BST := by
      rw [bst_iff_sorted] at hb ⊢
      exact hb.sublist hsub
    exact ⟨t2, b, e, ⟨s2, hm2, hb2⟩, models_heapBST hm2 hb2⟩

theorem steps_trans {t0 t1 t2 : Tree} (h1 : Steps t0 t1) (h2 : Steps t1 t2) : Steps t0 t2 := by
  induction h2 with
  | refl => exact h1
  | insert fuel k _ e ih => exact Steps.insert fuel k ih e
  | delete fuel k _ e ih => exact Steps.delete fuel k ih e

theorem steps_run_ops (fuel : Nat) : ∀ (ops : List Op) (t t2 : Tree),
    run_ops fuel t ops = some t2 → Steps t t2
  | [], t, t2, e => by
    simp only [run_ops, Option.some.injEq] at e
    subst e; exact Steps.refl
  | .ins k :: ops, t, t2, e => by
    simp only [run_ops] at e
    cases h : insert_node fuel t k with
    | none => simp [h] at e
    | some t1 =>
      rw [h] at e
      exact steps_trans (Steps.insert fuel k Steps.refl h) (steps_run_ops fuel ops t1 t2 e)
  | .del k :: ops, t, t2, e => by
    simp only [run_ops] at e
    cases h : delete_node fuel t k with
    | none => simp [h] at e
    | some r =>
      rw [h] at e
      exact steps_trans
        (Steps.delete fuel k Steps.refl (show delete_node fuel t k = some (r.1, r.2) from h))
        (steps_run_ops fuel ops r.1 t2 e)

theorem bst_ordering_invariant_witness :
    (initialize_tree = initialize_tree ∨ Ordered initialize_tree) ∧
    Steps initialize_tree tree_after_root_delete ∧
    (Ordered tree_after_root_delete ∧ HeapBST tree_after_root_delete ∧
      ∀ (fuel : Nat) (k : Int), tree_after_root_delete.heap.length < fuel →
        (∃ t1, insert_node fuel tree_after_root_delete k = some t1 ∧ Ordered t1 ∧ HeapBST t1) ∧
        (∃ t2 b, delete_node fuel tree_after_root_delete k = some (t2, b) ∧ Ordered t2 ∧
          HeapBST t2)) :=
  ⟨Or.inl rfl,
    steps_run_ops 5 [.ins 5, .ins 3, .ins 8, .ins 1, .del 5] _ _ (by decide),
    bst_ordering_invariant _ _ (Or.inl rfl)
      (steps_run_ops 5 [.ins 5, .ins 3, .ins 8, .ins 1, .del 5] _ _ (by decide))⟩

/-- C2. Parent consistency is an invariant of the mutating operations: in a
tree obtained from the empty tree (or from any parent-consistent tree) by
any finite sequence of `insert_node` and `delete_node` calls, (i) the child
links of every node lead to nodes whose parent pointer leads back, (ii) the
parent pointer of every node leads to a node that has it as left or right
child, and (iii) the parent pointer of the root is `NULL`; and every further
call of `insert_node` and of `delete_node` returns such a tree again. -/
theorem parent_consistency_invariant (t0 t : Tree)
    (h0 : t0 = initialize_tree ∨ WellFormed t0) (hs : Steps t0 t) :
    WellFormed t ∧ ParentConsistent t ∧
    ∀ (fuel : Nat) (k : Int), t.heap.length < fuel →
      (∃ t1, insert_node fuel t k = some t1 ∧ WellFormed t1 ∧ ParentConsistent t1) ∧
      (∃ t2 b, delete_node fuel t k = some (t2, b) ∧ WellFormed t2 ∧ ParentConsistent t2) := by
  have h1 : WellFormed t0 := by
    rcases h0 with rfl | h0
    · exact ⟨.nil, models_initialize_tree⟩
    · exact h0
  obtain ⟨s, hm⟩ := steps_wellFormed hs h1
  refine ⟨⟨s, hm⟩, models_parentConsistent hm, fun fuel k hf => ⟨?_, ?_⟩⟩
  · obtain ⟨t1, s1, e, hm1, -⟩ := insert_node_total hm k (models_height_lt hm hf)
    exact ⟨t1, e, ⟨s1, hm1⟩, models_parentConsistent hm1⟩
  · obtain ⟨t2, s2, b, e, hm2, -⟩ := delete_node_total hm k (models_height_lt hm hf)
    exact ⟨t2, b, e, ⟨s2, hm2⟩, models_parentConsistent hm2⟩

theorem parent_consistency_invariant_witness :
    (initialize_tree = initialize_tree ∨ WellFormed initialize_tree) ∧
    Steps initialize_tree tree_after_splices ∧
    (WellFormed tree_after_splices ∧ ParentConsistent tree_after_splices ∧
      ∀ (fuel : Nat) (k : Int), tree_after_splices.heap.length < fuel →
        (∃ t1, insert_node fuel tree_after_splices k = some t1 ∧ WellFormed t1 ∧
          ParentConsistent t1) ∧
        (∃ t2 b, delete_node fuel tree_after_splices k = some (t2, b) ∧ WellFormed t2 ∧
          ParentConsistent t2)) :=
  ⟨Or.inl rfl,
    steps_run_ops 7 [.ins 5, .ins 3, .del 5, .ins 1, .ins 6, .ins 4, .ins 5, .del 3] _ _
      (by decide),
    parent_consistency_invariant _ _ (Or.inl rfl)
      (steps_run_ops 7 [.ins 5, .ins 3, .del 5, .ins 1, .ins 6, .ins 4, .ins 5, .del 3] _ _
        (by decide))⟩

/-! ## Specification of `find_node` and of a successful deletion -/

theorem keys_length_addrs : ∀ (s : Shape), s.keys.length = s.addrs.length
  | .nil => rfl
  | .node l a v r => by
    simp [Shape.keys, Shape.addrs, keys_length_addrs l, keys_length_addrs r]

theorem models_keys_lt {t : Tree} {s : Shape} (hm : Models t s) {fuel : Nat}
    (hf : t.heap.length < fuel) : s.keys.length < fuel := by
  rw [keys_length_addrs]
  exact lt_of_le_of_lt (nodup_length_le hm.2.2 (rep_addr_lt hm.2.1)) hf

theorem height_le_keys (s : Shape) : s.height ≤ s.keys.length := by
  rw [keys_length_addrs]; exact height_le_length s

theorem find_node_spec {t : Tree} {s : Shape} (hm : Models t s) (hb : s.BST) (n : Int)
    {fuel : Nat} (hf : s.height < fuel) :
    (n ∈ s.keys → ∃ a nd, find_node fuel t n = some (some a) ∧ a ∈ s.addrs ∧
      load t.heap a = some nd ∧ nd.value = n) ∧
    (n ∉ s.keys → find_node fuel t n = some none) := by
  have hfind := find_node_zoom hm n hf
  have hmem := zoom_mem_iff n s hb
  rcases zoom_stop n s [] with hz | ⟨l, a, r, hz⟩
  · rw [hz] at hfind hmem
    exact ⟨fun h => absurd rfl (hmem.1 h), fun _ => hfind⟩
  · rw [hz] at hfind hmem
    have hmz := models_zoom hm n
    rw [hz] at hmz
    obtain ⟨-, hx, -, -⟩ := rep_plug.1 hmz.2.1
    have ha : a ∈ s.addrs := by
      have := (addrs_plug_perm (zoom n s []).1 (.node l a n r)).symm.subset
        (show a ∈ (Shape.node l a n r).addrs ++ ctxAddrs (zoom n s []).1 by simp [Shape.addrs])
      rw [← hz, zoom_plug] at this
      exact this
    refine ⟨fun _ => ⟨a, _, hfind, ha, hx, rfl⟩, fun h => absurd (hmem.2 (by simp)) h⟩

theorem erase_mid {X Y : List Int} {k : Int} (h : (X ++ k :: Y).Nodup) :
    (X ++ k :: Y).erase k = X ++ Y := by
  have hk : k ∉ X := by
    intro hx
    have := (List.nodup_append.1 h).2.2 hx (List.mem_cons_self k Y)
    exact this
  rw [List.erase_append_right _ hk, List.erase_cons_head]

theorem sorted_nodup {l : List Int} (h : l.Pairwise (· < ·)) : l.Nodup :=
  h.imp (fun hab => ne_of_lt hab)

theorem load_setVal_ne {h : Heap} {a b : Nat} (v : Int) (hne : b ≠ a) :
    load (setVal h a v) b = load h b := by
  unfold setVal
  cases e : load h a with
  | none => rfl
  | some nd => simp only []; rw [load_set_of_load e, if_neg hne]

theorem splice_load_live {t : Tree} {fs : Ctx} {l r cs : Shape} {x : Nat} {v : Int}
    (hm : Models t (plug fs (.node l x v r))) (hcs : cs = l ∨ cs = r) :
    load (spliceHeap t.heap cs fs) x = load t.heap x ∧
    live (spliceHeap t.heap cs fs) = live t.heap := by
  have hnd := models_ctx_nodup hm
  obtain ⟨-, hrep, -⟩ := hm
  obtain ⟨hctx, hx, hl, hr⟩ := rep_plug.1 hrep
  have hcr : Rep t.heap (some x) cs := by rcases hcs with rfl | rfl <;> assumption
  have hnd2 : (x :: (cs.addrs ++ ctxAddrs fs)).Nodup := by
    rcases hcs with rfl | rfl
    · exact nodup_pick_left hnd
    · exact nodup_pick_right hnd
  obtain ⟨hxn, hnd3⟩ := List.nodup_cons.1 hnd2
  have hpar : ∀ a, a ∈ x :: cs.addrs → ctxParent fs ≠ some a := by
    intro a ha e
    cases fs with
    | nil => cases e
    | cons f fs3 =>
      simp only [ctxParent, Option.some.injEq] at e
      subst e
      rcases List.mem_cons.1 ha with ha | ha
      · subst ha
        exact hxn (by simp [ctxAddrs])
      · exact (List.nodup_append.1 hnd3).2.2 ha (by simp [ctxAddrs])
  exact ⟨load_spliceHeap hctx hcr x (hpar x (List.mem_cons_self _ _))
      (fun e => hxn (List.mem_append_left _ (root_mem e))),
    live_spliceHeap hctx hcr (fun a ha => hpar a (List.mem_cons_of_mem _ ha))⟩

theorem live_deletedTree {t : Tree} {fs : Ctx} {l r : Shape} {tn : Nat} {v : Int}
    (hm : Models t (plug fs (.node l tn v r))) :
    live (deletedTree t fs (.node l tn v r)).heap + 1 = live t.heap := by
  have hx : ∃ nd, load t.heap tn = some nd := ⟨_, (rep_plug.1 hm.2.1).2.1⟩
  obtain ⟨nd, hx⟩ := hx
  cases l with
  | nil =>
    obtain ⟨h1, h2⟩ := splice_load_live hm (Or.inr (rfl : r = r))
    simp only [deletedTree]
    rw [live_set_none (h1.trans hx), h2]
  | node ll la lv lr =>
    cases r with
    | nil =>
      obtain ⟨h1, h2⟩ := splice_load_live hm (Or.inl (rfl : Shape.node ll la lv lr = _))
      simp only [deletedTree]
      rw [live_set_none (h1.trans hx), h2]
    | node rl ra rv rr =>
      obtain ⟨ma, mv, mr, e⟩ := zoomMin_stop rl ra rv rr []
      have hplug : plug ((zoomMin (.node rl ra rv rr) []).1 ++ .right (.node ll la lv lr) tn v
          :: fs) (.node .nil ma mv mr)
          = plug fs (.node (.node ll la lv lr) tn v (.node rl ra rv rr)) := by
        have := zoomMin_plug (.node rl ra rv rr) []
        rw [e] at this
        simp only [plug] at this
        rw [plug_append, this]; rfl
      rw [← hplug] at hm
      have hnd := models_ctx_nodup hm
      obtain ⟨h1, h2⟩ := splice_load_live hm (Or.inr (rfl : mr = mr))
      have hne : ma ≠ tn := by
        rintro rfl
        have := (List.nodup_append.1 hnd).2.2
          (show ma ∈ (Shape.node .nil ma mv mr).addrs by simp [Shape.addrs])
          (show ma ∈ ctxAddrs _ by simp [ctxAddrs_append, ctxAddrs, Frame.addr])
        exact this
      simp only [deletedTree, e]
      have hlm : ∃ nd2, load t.heap ma = some nd2 := ⟨_, (rep_plug.1 hm.2.1).2.1⟩
      obtain ⟨nd2, hlm⟩ := hlm
      rw [live_set_none ((load_setVal_ne mv hne).trans (h1.trans hlm)), live_setVal, h2]

theorem delete_found_spec {t : Tree} {s : Shape} (hm : Models t s) (hb : s.BST) (k : Int)
    {fuel : Nat} (hf : s.height < fuel) (hk : k ∈ s.keys) :
    ∃ t2 s2, delete_node fuel t k = some (t2, false) ∧ Models t2 s2 ∧ s2.BST ∧
      s2.keys = s.keys.erase k ∧ live t2.heap + 1 = live t.heap := by
  have hne := (zoom_mem_iff k s hb).1 hk
  rcases zoom_stop k s [] with hz | ⟨l, a, r, hz⟩
  · exact absurd hz hne
  · obtain ⟨h1, h2⟩ := delete_node_eq hm k hf hz
    have hmz := models_zoom hm k
    rw [hz] at hmz
    have hkeys := zoom_keys k s
    rw [hz] at hkeys
    have hsorted := (bst_iff_sorted s).1 hb
    have hk2 : (deletedShape (zoom k s []).1 (.node l a k r)).keys = s.keys.erase k := by
      rw [deletedShape_keys, hkeys]
      simp only [Shape.keys]
      have e1 : ctxBefore (zoom k s []).1 ++ (l.keys ++ k :: r.keys) ++ ctxAfter (zoom k s []).1
          = (ctxBefore (zoom k s []).1 ++ l.keys) ++ k :: (r.keys ++ ctxAfter (zoom k s []).1) := by
        simp
      rw [e1, erase_mid]
      · simp
      · rw [← e1]
        have := sorted_nodup hsorted
        rw [hkeys] at this
        exact this
    refine ⟨_, _, h1, h2, ?_, hk2, live_deletedTree hmz⟩
    rw [bst_iff_sorted, hk2]
    exact hsorted.sublist (List.erase_sublist k s.keys)

theorem inorder_mono_spec {t : Tree} {s : Shape} (hm : Models t s) {fuel : Nat}
    (hf : s.keys.length < fuel) : inorder fuel t.heap t.root = some s.keys :=
  models_inorder hm (lt_of_le_of_lt (height_le_keys s) hf)

/-- C3. `delete_node` removes exactly the requested key: on a BST-ordered,
parent-consistent tree in which `find_node` finds `k`, the call returns
without the not-found message, the in-order key sequence afterwards is the
one before with `k` erased (all other keys kept, in the same order, one key
fewer), exactly one node was freed, and the tree is still BST-ordered. -/
theorem delete_node_removes_key (t : Tree) (fuel : Nat) (k : Int) (tn : Nat)
    (ho : Ordered t) (hf : t.heap.length < fuel)
    (hk : find_node fuel t k = some (some tn)) :
    ∃ t2 ks, delete_node fuel t k = some (t2, false) ∧
      inorder fuel t.heap t.root = some ks ∧
      inorder fuel t2.heap t2.root = some (ks.erase k) ∧
      k ∈ ks ∧ k ∉ ks.erase k ∧
      ks.erase k = ks.filter (fun x => x != k) ∧
      (ks.erase k).length + 1 = ks.length ∧
      live t2.heap + 1 = live t.heap ∧ Ordered t2 := by
  obtain ⟨s, hm, hb⟩ := ho
  have hh := models_height_lt hm hf
  have hkl := models_keys_lt hm hf
  have hmem : k ∈ s.keys := by
    by_contra hc
    have := (find_node_spec hm hb k hh).2 hc
    rw [this] at hk
    cases hk
  obtain ⟨t2, s2, e, hm2, hb2, hkeys, hlive⟩ := delete_found_spec hm hb k hh hmem
  have hnd := sorted_nodup ((bst_iff_sorted s).1 hb)
  have hlen : (s.keys.erase k).length + 1 = s.keys.length := by
    rw [List.length_erase_of_mem hmem]
    have : 0 < s.keys.length := List.length_pos_of_mem hmem
    omega
  refine ⟨t2, s.keys, e, inorder_mono_spec hm hkl, ?_, hmem, ?_, ?_, hlen, hlive, ⟨s2, hm2, hb2⟩⟩
  · rw [← hkeys]
    exact inorder_mono_spec hm2 (by rw [hkeys]; omega)
  · exact fun h => (List.Nodup.mem_erase_iff hnd).1 h |>.1 rfl
  · exact hnd.erase_eq_filter k

theorem tree_seven_built : insert_all 8 initialize_tree [5, 3, 8, 1, 4, 7, 9] = some tree_seven := by
  decide

theorem steps_insert_all (fuel : Nat) : ∀ (ks : List Int) (t t2 : Tree),
    insert_all fuel t ks = some t2 → Steps t t2
  | [], t, t2, e => by
    simp only [insert_all, Option.some.injEq] at e
    subst e; exact Steps.refl
  | k :: ks, t, t2, e => by
    simp only [insert_all] at e
    cases h : insert_node fuel t k with
    | none => simp [h] at e
    | some t1 =>
      rw [h] at e
      exact steps_trans (Steps.insert fuel k Steps.refl h) (steps_insert_all fuel ks t1 t2 e)

theorem ordered_tree_seven : Ordered tree_seven :=
  steps_ordered (steps_insert_all 8 _ _ _ tree_seven_built) ordered_initialize_tree

theorem delete_node_removes_key_witness :
    Ordered tree_seven ∧ tree_seven.heap.length < 8 ∧
    find_node 8 tree_seven 5 = some (some 0) ∧
    (∃ t2 ks, delete_node 8 tree_seven 5 = some (t2, false) ∧
      inorder 8 tree_seven.heap tree_seven.root = some ks ∧
      inorder 8 t2.heap t2.root = some (ks.erase 5) ∧
      (5 : Int) ∈ ks ∧ (5 : Int) ∉ ks.erase 5 ∧
      ks.erase 5 = ks.filter (fun x => x != 5) ∧
      (ks.erase 5).length + 1 = ks.length ∧
      live t2.heap + 1 = live tree_seven.heap ∧ Ordered t2) ∧
    ((delete_node 8 tree_seven 5).bind fun r => inorder 8 r.1.heap r.1.root)
      = some [1, 3, 4, 7, 8, 9] ∧
    ((run_ops 4 initialize_tree [.ins 5, .ins 3, .ins 8, .del 3]).bind
      fun r => inorder 4 r.heap r.root) = some [5, 8] :=
  ⟨ordered_tree_seven, by decide, by decide,
    delete_node_removes_key tree_seven 8 5 0 ordered_tree_seven (by decide) (by decide),
    by decide, by decide⟩

/-- C4. Delete-then-find: on a BST-ordered, parent-consistent tree that
holds `k`, after `delete_node` the key `k` is no longer found, and every other
key that was found before is still found, at a node holding that key. -/
theorem delete_then_find (t : Tree) (fuel : Nat) (k : Int) (tn : Nat)
    (ho : Ordered t) (hf : t.heap.length < fuel)
    (hk : find_node fuel t k = some (some tn)) :
    ∃ t2, delete_node fuel t k = some (t2, false) ∧
      find_node fuel t2 k = some none ∧
      ∀ (j : Int) (a : Nat), j ≠ k → find_node fuel t j = some (some a) →
        ∃ a2 nd, find_node fuel t2 j = some (some a2) ∧
          load t2.heap a2 = some nd ∧ nd.value = j := by
  obtain ⟨s, hm, hb⟩ := ho
  have hh := models_height_lt hm hf
  have hkl := models_keys_lt hm hf
  have mem_of_find : ∀ (j : Int) (a : Nat), find_node fuel t j = some (some a) → j ∈ s.keys := by
    intro j a hj
    by_contra hc
    have := (find_node_spec hm hb j hh).2 hc
    rw [this] at hj
    cases hj
  have hmem := mem_of_find k tn hk
  obtain ⟨t2, s2, e, hm2, hb2, hkeys, -⟩ := delete_found_spec hm hb k hh hmem
  have hnd := sorted_nodup ((bst_iff_sorted s).1 hb)
  have hh2 : s2.height < fuel := by
    refine lt_of_le_of_lt (height_le_keys s2) ?_
    rw [hkeys]
    exact lt_of_le_of_lt (List.erase_sublist k s.keys).length_le hkl
  refine ⟨t2, e, ?_, fun j a hjk hj => ?_⟩
  · apply (find_node_spec hm2 hb2 k hh2).2
    rw [hkeys]
    exact fun h => ((List.Nodup.mem_erase_iff hnd).1 h).1 rfl
  · have hj2 : j ∈ s2.keys := by
      rw [hkeys]
      exact (List.mem_erase_of_ne hjk).2 (mem_of_find j a hj)
    obtain ⟨a2, nd, h1, -, h2, h3⟩ := (find_node_spec hm2 hb2 j hh2).1 hj2
    exact ⟨a2, nd, h1, h2, h3⟩

theorem delete_then_find_witness :
    Ordered tree_seven ∧ tree_seven.heap.length < 8 ∧
    find_node 8 tree_seven 5 = some (some 0) ∧
    ∃ t2, delete_node 8 tree_seven 5 = some (t2, false) ∧
      find_node 8 t2 5 = some none ∧
      ∀ (j : Int) (a : Nat), j ≠ 5 → find_node 8 tree_seven j = some (some a) →
        ∃ a2 nd, find_node 8 t2 j = some (some a2) ∧
          load t2.heap a2 = some nd ∧ nd.value = j :=
  ⟨ordered_tree_seven, by decide, by decide,
    delete_then_find tree_seven 8 5 0 ordered_tree_seven (by decide) (by decide)⟩

/-! ## Tree sort -/

theorem inserted_keys (fs : Ctx) (a : Nat) (n : Int) :
    (plug fs (.node .nil a n .nil)).keys = ctxBefore fs ++ n :: ctxAfter fs := by
  rw [keys_plug]; simp [Shape.keys]

theorem insert_all_spec (fuel : Nat) : ∀ (ks : List Int) (t : Tree) (s : Shape),
    Models t s → s.BST → ks.Nodup → (∀ k ∈ ks, k ∉ s.keys) →
    s.keys.length + ks.length ≤ fuel →
    ∃ t2 s2, insert_all fuel t ks = some t2 ∧ Models t2 s2 ∧ s2.BST ∧
      List.Perm s2.keys (ks ++ s.keys)
  | [], t, s, hm, hb, _, _, _ => ⟨t, s, rfl, hm, hb, List.Perm.refl _⟩
  | k :: ks, t, s, hm, hb, hnd, hnot, hlen => by
    have hz : (zoom k s []).2 = .nil := by
      by_contra hc
      exact hnot k (List.mem_cons_self _ _) ((zoom_mem_iff k s hb).2 hc)
    have hh : s.height < fuel := by
      have := height_le_keys s
      simp only [List.length_cons] at hlen
      omega
    have hmz := models_zoom hm k
    rw [hz] at hmz
    have hm1 := insert_models k hmz
    have hb1 := inserted_bst hb k t.heap.length hz
    have hk1 := inserted_keys (zoom k s []).1 t.heap.length k
    have hk0 := zoom_keys k s
    rw [hz] at hk0
    simp only [Shape.keys, List.append_nil] at hk0
    have hperm : List.Perm (plug (zoom k s []).1 (.node .nil t.heap.length k .nil)).keys
        (k :: s.keys) := by
      rw [hk1, hk0]; exact List.perm_middle
    obtain ⟨hkn, hnd2⟩ := List.nodup_cons.1 hnd
    obtain ⟨t2, s2, e2, hm2, hb2, hp2⟩ := insert_all_spec fuel ks _ _ hm1 hb1 hnd2
      (fun j hj hmem => by
        rcases List.mem_cons.1 (hperm.subset hmem) with rfl | h
        · exact hkn hj
        · exact hnot j (List.mem_cons_of_mem _ hj) h)
      (by rw [hperm.length_eq]; simp only [List.length_cons] at hlen ⊢; omega)
    refine ⟨t2, s2, ?_, hm2, hb2, ?_⟩
    · simp only [insert_all, insert_node_eq hm k hh hz, Option.some_bind]
      exact e2
    · refine hp2.trans ?_
      refine (List.Perm.append_left ks hperm).trans ?_
      simp only [List.cons_append]
      exact List.perm_middle

/-- C5. Insert / in-order round trip (tree sort): inserting pairwise distinct
keys in any order into the empty tree and walking the result in in-order
prints exactly the ascending sort of the keys. -/
theorem insert_inorder_sorts (ks : List Int) (fuel : Nat) (hnd : ks.Nodup)
    (hf : ks.length < fuel) :
    ∃ t out, insert_all fuel initialize_tree ks = some t ∧
      inorder fuel t.heap t.root = some out ∧
      out.Pairwise (· < ·) ∧ List.Perm out ks ∧
      out = ks.insertionSort (· ≤ ·) := by
  obtain ⟨t, s, e, hm, hb, hp⟩ := insert_all_spec fuel ks initialize_tree .nil
    models_initialize_tree trivial hnd (fun _ _ h => by simp [Shape.keys] at h)
    (by simp only [Shape.keys, List.length_nil]; omega)
  simp only [Shape.keys, List.append_nil] at hp
  have hsorted := (bst_iff_sorted s).1 hb
  refine ⟨t, s.keys, e, inorder_mono_spec hm (by rw [hp.length_eq]; exact hf), hsorted, hp, ?_⟩
  refine List.eq_of_perm_of_sorted (hp.trans (List.perm_insertionSort _ ks).symm)
    (hsorted.imp (fun h => le_of_lt h)) (List.sorted_insertionSort _ ks)

theorem insert_inorder_sorts_witness :
    ([5, 3, 8, 1, 4, 7, 9] : List Int).Nodup ∧ ([5, 3, 8, 1, 4, 7, 9] : List Int).length < 8 ∧
    (∃ t out, insert_all 8 initialize_tree [5, 3, 8, 1, 4, 7, 9] = some t ∧
      inorder 8 t.heap t.root = some out ∧
      out.Pairwise (· < ·) ∧ List.Perm out [5, 3, 8, 1, 4, 7, 9] ∧
      out = ([5, 3, 8, 1, 4, 7, 9] : List Int).insertionSort (· ≤ ·)) ∧
    ((insert_all 8 initialize_tree [5, 3, 8, 1, 4, 7, 9]).bind
      fun t => inorder 8 t.heap t.root) = some [1, 3, 4, 5, 7, 8, 9] :=
  ⟨by decide, by decide, insert_inorder_sorts _ 8 (by decide) (by decide), by decide⟩

/-! ## Trees whose parent pointers are not constrained

`find_node`, the descent of `insert_node`, `tree_minimum` and `inorder` read
only values and child links.  The relation `RepLinks` describes a tree shape
in the heap through these fields alone; every such heap agrees, up to parent
pointers, with a heap that holds the same shape with consistent parent
pointers. -/

theorem sameLinks_refl (h : Heap) : SameLinks h h := ⟨rfl, fun _ => rfl⟩

theorem sameLinks_symm {h h2 : Heap} (e : SameLinks h h2) : SameLinks h2 h :=
  ⟨e.1.symm, fun a => (e.2 a).symm⟩

theorem sameLinks_trans {h h2 h3 : Heap} (e : SameLinks h h2) (e2 : SameLinks h2 h3) :
    SameLinks h h3 :=
  ⟨e.1.trans e2.1, fun a => (e.2 a).trans (e2.2 a)⟩

theorem sameLinks_some {h h2 : Heap} (e : SameLinks h h2) {a : Nat} {nd : TreeNode}
    (hl : load h a = some nd) :
    ∃ nd2, load h2 a = some nd2 ∧ nd2.value = nd.value ∧ nd2.left = nd.left ∧
      nd2.right = nd.right := by
  have := e.2 a
  rw [hl] at this
  cases h2l : load h2 a with
  | none => simp [h2l] at this
  | some nd2 =>
    simp only [h2l, Option.map_some', Option.some.injEq, Prod.mk.injEq] at this
    exact ⟨nd2, rfl, this.1.symm, this.2.1.symm, this.2.2.symm⟩

theorem sameLinks_none {h h2 : Heap} (e : SameLinks h h2) {a : Nat}
    (hl : load h a = none) : load h2 a = none := by
  have := e.2 a
  rw [hl] at this
  cases h2l : load h2 a with
  | none => rfl
  | some nd2 => simp [h2l] at this

theorem sameLinks_set {h h2 : Heap} (e : SameLinks h h2) (a : Nat) (x x2 : Option TreeNode)
    (hx : x.map (fun nd => (nd.value, nd.left, nd.right))
        = x2.map (fun nd => (nd.value, nd.left, nd.right))) :
    SameLinks (h.set a x) (h2.set a x2) := by
  refine ⟨by simp [e.1], fun b => ?_⟩
  rcases Nat.lt_or_ge a h.length with hlt | hge
  · rw [load_set x b hlt, load_set x2 b (e.1 ▸ hlt)]
    split
    · exact hx
    · exact e.2 b
  · rw [List.set_eq_of_length_le hge, List.set_eq_of_length_le (e.1 ▸ hge)]
    exact e.2 b

theorem sameLinks_set_self {h : Heap} {a : Nat} {nd : TreeNode} (x : TreeNode)
    (hl : load h a = some nd) (hv : x.value = nd.value) (hlf : x.left = nd.left)
    (hrt : x.right = nd.right) : SameLinks h (h.set a (some x)) := by
  refine ⟨by simp, fun b => ?_⟩
  rw [load_set_of_load hl]
  split
  · rename_i hb
    subst hb
    rw [hl]
    simp [hv, hlf, hrt]
  · rfl

theorem rep_repLinks {h : Heap} : ∀ {s : Shape} {par : Option Nat}, Rep h par s → RepLinks h s
  | .nil, _, _ => trivial
  | .node _ _ _ _, _, ⟨h1, hl, hr⟩ => ⟨⟨_, h1, rfl, rfl, rfl⟩, rep_repLinks hl, rep_repLinks hr⟩

theorem repLinks_frame {h h2 : Heap} : ∀ {s : Shape},
    (∀ a ∈ s.addrs, load h2 a = load h a) → RepLinks h s → RepLinks h2 s
  | .nil, _, _ => trivial
  | .node l a v r, hf, ⟨h1, hl, hr⟩ => by
    refine ⟨?_, repLinks_frame (fun b hb => hf b ?_) hl, repLinks_frame (fun b hb => hf b ?_) hr⟩
    · rw [hf a (by simp [Shape.addrs])]; exact h1
    · simp [Shape.addrs, hb]
    · simp [Shape.addrs, hb]

/-- Every link tree agrees, up to parent pointers, with a heap that holds
the same shape with consistent parent pointers. -/
theorem exists_consistent {h : Heap} : ∀ (s : Shape) (par : Option Nat),
    RepLinks h s → s.addrs.Nodup →
    ∃ h2, Rep h2 par s ∧ SameLinks h h2 ∧ ∀ b, b ∉ s.addrs → load h2 b = load h b
  | .nil, _, _, _ => ⟨h, trivial, sameLinks_refl h, fun _ _ => rfl⟩
  | .node l a v r, par, ⟨⟨nd, h1, hv, hl1, hr1⟩, hl, hr⟩, hn => by
    simp only [Shape.addrs] at hn
    have hn2 := List.nodup_middle.1 hn
    simp only [List.nodup_cons, List.mem_append, not_or] at hn2
    obtain ⟨⟨hal, har⟩, hlr⟩ := hn2
    obtain ⟨hnl, hnr, hdis⟩ := List.nodup_append.1 hlr
    obtain ⟨ha, hra, hsa, hfa⟩ := exists_consistent l (some a) hl hnl
    have hr2 : RepLinks ha r :=
      repLinks_frame (fun b hb => hfa b (fun hbl => hdis hbl hb)) hr
    obtain ⟨hb, hrb, hsb, hfb⟩ := exists_consistent r (some a) hr2 hnr
    have hab : SameLinks h hb := sameLinks_trans hsa hsb
    obtain ⟨nd2, h2, -, -, -⟩ := sameLinks_some hab h1
    refine ⟨hb.set a (some (TreeNode.mk v par l.root r.root)), ⟨?_, ?_, ?_⟩, ?_, ?_⟩
    · rw [load_set_of_load h2, if_pos rfl]
    · refine rep_frame (fun b hbl => ?_) hra
      have hba : b ≠ a := by rintro rfl; exact hal hbl
      rw [load_set_of_load h2, if_neg hba]
      exact hfb b (fun hbr => hdis hbl hbr)
    · refine rep_frame (fun b hbr => ?_) hrb
      have hba : b ≠ a := by rintro rfl; exact har hbr
      rw [load_set_of_load h2, if_neg hba]
    · obtain ⟨nd3, e3, e4, e5, e6⟩ := sameLinks_some hab h1
      exact sameLinks_trans hab (sameLinks_set_self _ e3 (by rw [e4, hv]) (by rw [e5, hl1])
        (by rw [e6, hr1]))
    · intro b hb2
      simp only [Shape.addrs, List.mem_append, List.mem_cons, not_or] at hb2
      rw [load_set_of_load h2, if_neg hb2.2.1, hfb b hb2.2.2, hfa b hb2.1]

theorem find_loop_sim {h h2 : Heap} (e : SameLinks h h2) (n : Int) :
    ∀ (fuel : Nat) (p : Option Nat), find_loop fuel h p n = find_loop fuel h2 p n
  | 0, _ => rfl
  | _ + 1, none => rfl
  | fuel + 1, some a => by
    simp only [find_loop]
    cases hl : load h a with
    | none => rw [sameLinks_none e hl]
    | some nd =>
      obtain ⟨nd2, hl2, ev, el, er⟩ := sameLinks_some e hl
      simp only [hl2, ev, el, er, find_loop_sim e n fuel]

theorem insert_loop_sim {h h2 : Heap} (e : SameLinks h h2) (tn : Nat) :
    ∀ (fuel : Nat) (x y : Option Nat),
      insert_loop fuel h tn x y = insert_loop fuel h2 tn x y
  | 0, _, _ => rfl
  | _ + 1, none, _ => rfl
  | fuel + 1, some a, y => by
    simp only [insert_loop]
    cases hl : load h tn with
    | none => rw [sameLinks_none e hl]
    | some tnd =>
      obtain ⟨tnd2, hl2, ev, -, -⟩ := sameLinks_some e hl
      cases hx : load h a with
      | none => rw [sameLinks_none e hx, hl2]
      | some xd =>
        obtain ⟨xd2, hx2, exv, exl, exr⟩ := sameLinks_some e hx
        simp only [hl2, hx2, ev, exv, exl, exr, insert_loop_sim e tn fuel]

theorem inorder_sim {h h2 : Heap} (e : SameLinks h h2) :
    ∀ (fuel : Nat) (p : Option Nat), inorder fuel h p = inorder fuel h2 p
  | 0, _ => rfl
  | _ + 1, none => rfl
  | fuel + 1, some a => by
    simp only [inorder]
    cases hl : load h a with
    | none => rw [sameLinks_none e hl]
    | some nd =>
      obtain ⟨nd2, hl2, ev, el, er⟩ := sameLinks_some e hl
      simp only [hl2, ev, el, er, inorder_sim e fuel]

theorem tree_minimum_sim {h h2 : Heap} (e : SameLinks h h2) :
    ∀ (fuel : Nat) (tn : Nat), tree_minimum fuel h tn = tree_minimum fuel h2 tn
  | 0, _ => rfl
  | fuel + 1, tn => by
    simp only [tree_minimum]
    cases hl : load h tn with
    | none => rw [sameLinks_none e hl]
    | some nd =>
      obtain ⟨nd2, hl2, -, el, -⟩ := sameLinks_some e hl
      simp only [hl2, el, tree_minimum_sim e fuel]

theorem below_sim {h h2 : Heap} (e : SameLinks h h2) {p : Option Nat} {y : Nat}
    (hb : Below h p y) : Below h2 p y := by
  induction hb with
  | here hl =>
    obtain ⟨nd2, hl2, -⟩ := sameLinks_some e hl
    exact Below.here hl2
  | left hl _ ih =>
    obtain ⟨nd2, hl2, -, el, -⟩ := sameLinks_some e hl
    exact Below.left hl2 (el ▸ ih)
  | right hl _ ih =>
    obtain ⟨nd2, hl2, -, -, er⟩ := sameLinks_some e hl
    exact Below.right hl2 (er ▸ ih)

theorem sameLinks_append {h h2 : Heap} (e : SameLinks h h2) (x : Option TreeNode) :
    SameLinks (h ++ [x]) (h2 ++ [x]) := by
  refine ⟨by simp [e.1], fun a => ?_⟩
  rcases lt_trichotomy a h.length with hlt | heq | hgt
  · have h1 : load (h ++ [x]) a = load h a := by
      simp only [load]; rw [List.getElem?_append_left hlt]
    have h2l : load (h2 ++ [x]) a = load h2 a := by
      simp only [load]; rw [List.getElem?_append_left (e.1 ▸ hlt)]
    rw [h1, h2l]; exact e.2 a
  · subst heq
    rw [load_append_length]
    rw [e.1, load_append_length]
  · have h1 : load (h ++ [x]) a = none := by
      simp only [load]; rw [List.getElem?_eq_none (by simp; omega)]; rfl
    have h2l : load (h2 ++ [x]) a = none := by
      have := e.1
      simp only [load]; rw [List.getElem?_eq_none (by simp; omega)]; rfl
    rw [h1, h2l]

theorem set_parent_sim {h h2 : Heap} (e : SameLinks h h2) (a : Nat) (p q : Option Nat)
    {g2 : Heap} (hs : set_parent h2 a q = some g2) :
    ∃ g, set_parent h a p = some g ∧ SameLinks g g2 := by
  unfold set_parent at hs ⊢
  cases hl2 : load h2 a with
  | none => simp [hl2] at hs
  | some nd2 =>
    obtain ⟨nd, hl, ev, el, er⟩ := sameLinks_some (sameLinks_symm e) hl2
    simp only [hl2, Option.map_some', Option.some.injEq] at hs
    subst hs
    exact ⟨h.set a (some { nd with parent := p }), by simp [hl],
      sameLinks_set e a (some { nd with parent := p }) (some { nd2 with parent := q })
        (by simp [ev, el, er])⟩

theorem set_left_sim {h h2 : Heap} (e : SameLinks h h2) (a : Nat) (p : Option Nat)
    {g2 : Heap} (hs : set_left h2 a p = some g2) :
    ∃ g, set_left h a p = some g ∧ SameLinks g g2 := by
  unfold set_left at hs ⊢
  cases hl2 : load h2 a with
  | none => simp [hl2] at hs
  | some nd2 =>
    obtain ⟨nd, hl, ev, el, er⟩ := sameLinks_some (sameLinks_symm e) hl2
    simp only [hl2, Option.map_some', Option.some.injEq] at hs
    subst hs
    exact ⟨h.set a (some { nd with left := p }), by simp [hl],
      sameLinks_set e a (some { nd with left := p }) (some { nd2 with left := p })
        (by simp [ev, el, er])⟩

theorem set_right_sim {h h2 : Heap} (e : SameLinks h h2) (a : Nat) (p : Option Nat)
    {g2 : Heap} (hs : set_right h2 a p = some g2) :
    ∃ g, set_right h a p = some g ∧ SameLinks g g2 := by
  unfold set_right at hs ⊢
  cases hl2 : load h2 a with
  | none => simp [hl2] at hs
  | some nd2 =>
    obtain ⟨nd, hl, ev, el, er⟩ := sameLinks_some (sameLinks_symm e) hl2
    simp only [hl2, Option.map_some', Option.some.injEq] at hs
    subst hs
    exact ⟨h.set a (some { nd with right := p }), by simp [hl],
      sameLinks_set e a (some { nd with right := p }) (some { nd2 with right := p })
        (by simp [ev, el, er])⟩

/-- `insert_node` does not read parent pointers: on two trees that agree up to
parent pointers it returns trees that agree up to parent pointers. -/
theorem insert_node_sim {t u u2 : Tree} (e : SameLinks t.heap u.heap) (er : t.root = u.root)
    (fuel : Nat) (k : Int) (hu : insert_node fuel u k = some u2) :
    ∃ t2, insert_node fuel t k = some t2 ∧ SameLinks t2.heap u2.heap ∧ t2.root = u2.root := by
  have hfind : find_node fuel t k = find_node fuel u k := by
    unfold find_node; rw [er]; exact find_loop_sim e k fuel _
  unfold insert_node at hu ⊢
  rw [hfind]
  cases hf : find_node fuel u k with
  | none => simp [hf] at hu
  | some r =>
    rw [hf] at hu
    cases r with
    | some a =>
      simp only [Option.some.injEq] at hu
      subst hu
      exact ⟨t, rfl, e, er⟩
    | none =>
      simp only [initialize_node] at hu ⊢
      have e0 := sameLinks_append e (some (TreeNode.mk k none none none))
      rw [insert_loop_sim e0, er, e.1]
      cases hy : insert_loop fuel (u.heap ++ [some (TreeNode.mk k none none none)])
          u.heap.length u.root none with
      | none => simp [hy] at hu
      | some y =>
        simp only [hy] at hu ⊢
        cases hp : set_parent (u.heap ++ [some (TreeNode.mk k none none none)])
            u.heap.length y with
        | none => simp [hp] at hu
        | some g2 =>
          obtain ⟨g, hg, eg⟩ := set_parent_sim e0 u.heap.length y y hp
          simp only [hp] at hu
          simp only [hg]
          cases y with
          | none =>
            simp only [Option.some.injEq] at hu
            subst hu
            exact ⟨_, rfl, eg, rfl⟩
          | some ya =>
            simp only at hu ⊢
            cases hl1 : load g2 u.heap.length with
            | none => simp [hl1] at hu
            | some tnd2 =>
              cases hl2 : load g2 ya with
              | none => simp [hl1, hl2] at hu
              | some yd2 =>
                obtain ⟨tnd, h1, ev, -, -⟩ := sameLinks_some (sameLinks_symm eg) hl1
                obtain ⟨yd, h2, eyv, -, -⟩ := sameLinks_some (sameLinks_symm eg) hl2
                simp only [hl1, hl2] at hu
                simp only [h1, h2, ev, eyv]
                split
                · rename_i hlt
                  rw [if_pos hlt] at hu
                  cases hs : set_left g2 ya (some u.heap.length) with
                  | none => simp [hs] at hu
                  | some g3 =>
                    obtain ⟨g4, hg4, eg4⟩ := set_left_sim eg ya (some u.heap.length) hs
                    simp only [hs, Option.map_some', Option.some.injEq] at hu
                    subst hu
                    exact ⟨{ heap := g4, root := u.root }, by simp [hg4], eg4, rfl⟩
                · rename_i hlt
                  rw [if_neg hlt] at hu
                  cases hs : set_right g2 ya (some u.heap.length) with
                  | none => simp [hs] at hu
                  | some g3 =>
                    obtain ⟨g4, hg4, eg4⟩ := set_right_sim eg ya (some u.heap.length) hs
                    simp only [hs, Option.map_some', Option.some.injEq] at hu
                    subst hu
                    exact ⟨{ heap := g4, root := u.root }, by simp [hg4], eg4, rfl⟩

/-- C6. Deleting a missing key is a signalled no-op: when `find_node` returns
`NULL` for `k`, `delete_node` prints the not-found message and returns the
tree unchanged (same heap, same root), so the in-order walk prints the same
sequence; on the empty tree this is what every deletion does. -/
theorem delete_missing_key_noop (t : Tree) (fuel : Nat) (k : Int)
    (hk : find_node fuel t k = some none) :
    delete_node fuel t k = some (t, true) ∧
    (∀ t2 b, delete_node fuel t k = some (t2, b) →
      t2.heap = t.heap ∧ t2.root = t.root ∧ b = true ∧
      ∀ f, inorder f t2.heap t2.root = inorder f t.heap t.root) ∧
    (∀ j f, 0 < f → delete_node f initialize_tree j = some (initialize_tree, true) ∧
      inorder f initialize_tree.heap initialize_tree.root = some []) := by
  have h1 : delete_node fuel t k = some (t, true) := by
    unfold delete_node
    rw [hk]
  refine ⟨h1, fun t2 b e => ?_, fun j f hf => ?_⟩
  · rw [h1] at e
    simp only [Option.some.injEq, Prod.mk.injEq] at e
    obtain ⟨rfl, rfl⟩ := e
    exact ⟨rfl, rfl, rfl, fun _ => rfl⟩
  · obtain ⟨f, rfl⟩ : ∃ g, f = g + 1 := ⟨f - 1, by omega⟩
    exact ⟨rfl, rfl⟩

theorem delete_missing_key_noop_witness :
    find_node 1 initialize_tree 10 = some none ∧
    (delete_node 1 initialize_tree 10 = some (initialize_tree, true) ∧
    (∀ t2 b, delete_node 1 initialize_tree 10 = some (t2, b) →
      t2.heap = initialize_tree.heap ∧ t2.root = initialize_tree.root ∧ b = true ∧
      ∀ f, inorder f t2.heap t2.root = inorder f initialize_tree.heap initialize_tree.root) ∧
    (∀ j f, 0 < f → delete_node f initialize_tree j = some (initialize_tree, true) ∧
      inorder f initialize_tree.heap initialize_tree.root = some [])) ∧
    find_node 8 tree_seven 6 = some none ∧
    delete_node 8 tree_seven 6 = some (tree_seven, true) :=
  ⟨by decide, delete_missing_key_noop initialize_tree 1 10 (by decide), by decide, by decide⟩

theorem insert_node_cases {t : Tree} {s : Shape} (hm : Models t s) (hb : s.BST) (k : Int)
    {fuel : Nat} (hf : s.height < fuel) :
    ∃ t2 s2, insert_node fuel t k = some t2 ∧ Models t2 s2 ∧ s2.BST ∧ k ∈ s2.keys ∧
      s2.keys.length ≤ s.keys.length + 1 ∧ (k ∈ s.keys → t2 = t) := by
  rcases zoom_stop k s [] with hz | ⟨l, a, r, hz⟩
  · have hmz := models_zoom hm k
    rw [hz] at hmz
    have hk0 := zoom_keys k s
    rw [hz] at hk0
    simp only [Shape.keys, List.append_nil] at hk0
    refine ⟨_, _, insert_node_eq hm k hf hz, insert_models k hmz,
      inserted_bst hb k _ hz, ?_, ?_, fun hmem => ?_⟩
    · rw [inserted_keys]; simp
    · rw [inserted_keys, hk0]; simp only [List.length_append, List.length_cons]; omega
    · exact absurd hz ((zoom_mem_iff k s hb).1 hmem)
  · refine ⟨t, s, insert_node_found hm k hf hz, hm, hb, ?_, Nat.le_succ _, fun _ => rfl⟩
    exact (zoom_mem_iff k s hb).2 (by rw [hz]; simp)

theorem insert_twice {t : Tree} {s : Shape} (hm : Models t s) (hb : s.BST) (k : Int)
    {fuel : Nat} (hf : t.heap.length + 1 < fuel) :
    ∃ t1 s1 a, insert_node fuel t k = some t1 ∧ find_node fuel t1 k = some (some a) ∧
      Models t1 s1 ∧ s1.BST ∧ k ∈ s1.keys ∧ s1.keys.length < fuel := by
  have hkl : s.keys.length + 1 < fuel := by
    have := models_keys_lt hm (Nat.lt_succ_self t.heap.length)
    omega
  have hh : s.height < fuel := by
    have := height_le_keys s
    omega
  obtain ⟨t1, s1, e1, hm1, hb1, hk1, hl1, -⟩ := insert_node_cases hm hb k hh
  have hh1 : s1.height < fuel := by
    have := height_le_keys s1
    omega
  obtain ⟨a, -, e2, -⟩ := (find_node_spec hm1 hb1 k hh1).1 hk1
  exact ⟨t1, s1, a, e1, e2, hm1, hb1, hk1, by omega⟩

theorem linkTree_consistent {t : Tree} {s : Shape} (hl : LinkTree t s) :
    ∃ u, Models u s ∧ SameLinks t.heap u.heap ∧ t.root = u.root := by
  obtain ⟨h2, hr, hs, -⟩ := exists_consistent s none hl.2.1 hl.2.2
  exact ⟨{ heap := h2, root := t.root }, ⟨hl.1, hr, hl.2.2⟩, hs, rfl⟩

theorem models_linkTree {t : Tree} {s : Shape} (hm : Models t s) : LinkTree t s :=
  ⟨hm.1, rep_repLinks hm.2.1, hm.2.2⟩

theorem ordered_bstOrdered {t : Tree} (ho : Ordered t) : BSTOrdered t :=
  let ⟨s, hm, hb⟩ := ho
  ⟨s, models_linkTree hm, hb⟩

theorem insert_found_eq {t : Tree} {fuel : Nat} {k : Int} {a : Nat}
    (hk : find_node fuel t k = some (some a)) : insert_node fuel t k = some t := by
  unfold insert_node
  rw [hk]

/-- C7. Inserting a duplicate is a silent no-op: when `find_node` already
finds `k`, `insert_node` returns the identical tree (same heap, so no node
was created and no value or link changed, and same root); hence on every
BST-ordered tree a second insertion of the same key changes nothing. -/
theorem insert_duplicate_noop (t : Tree) (fuel : Nat) (k : Int) (a : Nat)
    (hk : find_node fuel t k = some (some a)) :
    insert_node fuel t k = some t ∧
    (∀ t2, insert_node fuel t k = some t2 →
      t2.heap = t.heap ∧ t2.root = t.root ∧ live t2.heap = live t.heap) ∧
    (∀ (u : Tree) (f : Nat), BSTOrdered u → u.heap.length + 1 < f →
      ∃ u1, insert_node f u k = some u1 ∧ insert_node f u1 k = some u1 ∧
        (insert_node f u k).bind (fun v => insert_node f v k) = insert_node f u k) := by
  have h1 : insert_node fuel t k = some t := insert_found_eq hk
  refine ⟨h1, fun t2 e => ?_, fun u f ho hf => ?_⟩
  · rw [h1] at e
    simp only [Option.some.injEq] at e
    subst e
    exact ⟨rfl, rfl, rfl⟩
  · obtain ⟨s, hl, hb⟩ := ho
    obtain ⟨w, hm, hs, hr⟩ := linkTree_consistent hl
    obtain ⟨w1, s1, b, e1, e2, -⟩ := insert_twice hm hb k (hs.1 ▸ hf)
    obtain ⟨u1, eu1, hs1, hr1⟩ := insert_node_sim hs hr f k e1
    have hfind : find_node f u1 k = some (some b) := by
      unfold find_node at e2 ⊢
      rw [hr1, find_loop_sim hs1]; exact e2
    have eu2 := insert_found_eq hfind
    exact ⟨u1, eu1, eu2, by rw [eu1]; exact eu2⟩

theorem insert_duplicate_noop_witness :
    find_node 8 tree_seven 4 = some (some 4) ∧
    (insert_node 8 tree_seven 4 = some tree_seven ∧
    (∀ t2, insert_node 8 tree_seven 4 = some t2 →
      t2.heap = tree_seven.heap ∧ t2.root = tree_seven.root ∧
      live t2.heap = live tree_seven.heap) ∧
    (∀ (u : Tree) (f : Nat), BSTOrdered u → u.heap.length + 1 < f →
      ∃ u1, insert_node f u 4 = some u1 ∧ insert_node f u1 4 = some u1 ∧
        (insert_node f u 4).bind (fun v => insert_node f v 4) = insert_node f u 4)) :=
  ⟨by decide, insert_duplicate_noop tree_seven 8 4 4 (by decide)⟩

theorem models_value_unique {t : Tree} {s : Shape} (hm : Models t s) (hb : s.BST)
    {a b : Nat} {na nb : TreeNode} (ha : Below t.heap t.root a) (hbl : Below t.heap t.root b)
    (hla : load t.heap a = some na) (hlb : load t.heap b = some nb)
    (e : na.value = nb.value) : a = b :=
  addr_unique hm.2.1 hb ((models_below_iff hm a).1 ha) ((models_below_iff hm b).1 hbl) hla hlb e

/-- C8. Uniqueness of keys: in a tree obtained from the empty tree (or from
any BST-ordered, parent-consistent tree) by any finite sequence of
`insert_node` and `delete_node` calls no two distinct nodes hold the same
value; and after inserting the same key `k` twice the tree holds exactly one
node with value `k` (the second insertion changes nothing and the in-order
walk prints `k` once). -/
theorem key_uniqueness (t0 t : Tree) (h0 : t0 = initialize_tree ∨ Ordered t0)
    (hs : Steps t0 t) :
    (∀ a b na nb, Below t.heap t.root a → Below t.heap t.root b →
      load t.heap a = some na → load t.heap b = some nb → na.value = nb.value → a = b) ∧
    ∀ (fuel : Nat) (k : Int), t.heap.length + 1 < fuel →
      ∃ t1 t2 ks, insert_node fuel t k = some t1 ∧ insert_node fuel t1 k = some t2 ∧
        t2 = t1 ∧ inorder fuel t2.heap t2.root = some ks ∧ ks.count k = 1 ∧ ks.Nodup ∧
        ∃ a na, Below t2.heap t2.root a ∧ load t2.heap a = some na ∧ na.value = k ∧
          ∀ b nb, Below t2.heap t2.root b → load t2.heap b = some nb → nb.value = k →
            b = a := by
  have h1 : Ordered t0 := by
    rcases h0 with rfl | h0
    · exact ordered_initialize_tree
    · exact h0
  obtain ⟨s, hm, hb⟩ := steps_ordered hs h1
  refine ⟨fun a b na nb ha hbl hla hlb e => models_value_unique hm hb ha hbl hla hlb e,
    fun fuel k hf => ?_⟩
  obtain ⟨t1, s1, a, e1, e2, hm1, hb1, hk1, hl1⟩ := insert_twice hm hb k hf
  have hnd := sorted_nodup ((bst_iff_sorted s1).1 hb1)
  obtain ⟨x, nx, hx, hlx, hvx⟩ := addr_of_key hm1.2.1 hk1
  refine ⟨t1, t1, s1.keys, e1, insert_found_eq e2, rfl, inorder_mono_spec hm1 hl1,
    List.count_eq_one_of_mem hnd hk1, hnd, x, nx, (models_below_iff hm1 x).2 hx, hlx, hvx, ?_⟩
  intro b nb hbl hlb hvb
  exact models_value_unique hm1 hb1 hbl ((models_below_iff hm1 x).2 hx) hlb hlx
    (hvb.trans hvx.symm)

theorem key_uniqueness_witness :
    (initialize_tree = initialize_tree ∨ Ordered initialize_tree) ∧
    Steps initialize_tree tree_ten ∧
    ((∀ a b na nb, Below tree_ten.heap tree_ten.root a → Below tree_ten.heap tree_ten.root b →
      load tree_ten.heap a = some na → load tree_ten.heap b = some nb →
      na.value = nb.value → a = b) ∧
    ∀ (fuel : Nat) (k : Int), tree_ten.heap.length + 1 < fuel →
      ∃ t1 t2 ks, insert_node fuel tree_ten k = some t1 ∧ insert_node fuel t1 k = some t2 ∧
        t2 = t1 ∧ inorder fuel t2.heap t2.root = some ks ∧ ks.count k = 1 ∧ ks.Nodup ∧
        ∃ a na, Below t2.heap t2.root a ∧ load t2.heap a = some na ∧ na.value = k ∧
          ∀ b nb, Below t2.heap t2.root b → load t2.heap b = some nb → nb.value = k →
            b = a) ∧
    run_ops 2 initialize_tree [.ins 10, .ins 10] = some tree_ten ∧
    live tree_ten.heap = 1 ∧ inorder 2 tree_ten.heap tree_ten.root = some [10] :=
  ⟨Or.inl rfl, steps_run_ops 2 [.ins 10, .ins 10] _ _ (by decide),
    key_uniqueness _ _ (Or.inl rfl) (steps_run_ops 2 [.ins 10, .ins 10] _ _ (by decide)),
    by decide, by decide, by decide⟩

/-- C9. `find_node` decides membership: on a BST-ordered tree (given fuel
beyond the heap size) it returns a node exactly when some node of the tree
holds `n`; a returned node is a node of the tree and holds `n`; and it returns
`NULL` exactly when `n` is not among the keys printed by the in-order walk.
The function computes its result from the tree and has no tree to return:
it cannot modify anything. -/
theorem find_node_decides_membership (t : Tree) (fuel : Nat) (n : Int)
    (ho : BSTOrdered t) (hf : t.heap.length < fuel) :
    ∃ r ks, find_node fuel t n = some r ∧ inorder fuel t.heap t.root = some ks ∧
      (r.isSome ↔ ∃ y ny, Below t.heap t.root y ∧ load t.heap y = some ny ∧ ny.value = n) ∧
      (∀ a, r = some a →
        Below t.heap t.root a ∧ ∃ nd, load t.heap a = some nd ∧ nd.value = n) ∧
      (r = none ↔ n ∉ ks) ∧ (r.isSome ↔ n ∈ ks) := by
  obtain ⟨s, hl, hb⟩ := ho
  obtain ⟨u, hm, hs, hr⟩ := linkTree_consistent hl
  have hfu : u.heap.length < fuel := hs.1 ▸ hf
  have hh := models_height_lt hm hfu
  have hfind : find_node fuel t n = find_node fuel u n := by
    unfold find_node; rw [hr]; exact find_loop_sim hs n fuel _
  have hino : inorder fuel t.heap t.root = some s.keys := by
    rw [inorder_sim hs, hr]; exact models_inorder hm hh
  obtain ⟨hin, hout⟩ := find_node_spec hm hb n hh
  have back : ∀ a, a ∈ s.addrs → Below t.heap t.root a := fun a ha =>
    hr ▸ below_sim (sameLinks_symm hs) ((models_below_iff hm a).2 ha)
  by_cases hmem : n ∈ s.keys
  · obtain ⟨a, nd, e, ha, hla, hv⟩ := hin hmem
    obtain ⟨nd2, hla2, ev, -, -⟩ := sameLinks_some (sameLinks_symm hs) hla
    refine ⟨some a, s.keys, hfind.trans e, hino, ?_, ?_, ?_, ?_⟩
    · exact ⟨fun _ => ⟨a, nd2, back a ha, hla2, ev.trans hv⟩, fun _ => rfl⟩
    · intro b hb2
      cases hb2
      exact ⟨back a ha, nd2, hla2, ev.trans hv⟩
    · exact ⟨fun h => (by cases h), fun h => absurd hmem h⟩
    · exact ⟨fun _ => hmem, fun _ => rfl⟩
  · refine ⟨none, s.keys, hfind.trans (hout hmem), hino, ?_, ?_, ?_, ?_⟩
    · refine ⟨fun h => (by cases h), ?_⟩
      rintro ⟨y, ny, hy, hly, hv⟩
      exfalso
      have hyu : y ∈ s.addrs := (models_below_iff hm y).1 (hr ▸ below_sim hs hy)
      obtain ⟨nd, e1, e2⟩ := key_of_addr hm.2.1 hyu
      obtain ⟨nd2, e3, e4, -, -⟩ := sameLinks_some hs hly
      rw [e1] at e3
      cases e3
      exact hmem (hv ▸ e4 ▸ e2)
    · intro b hb2
      cases hb2
    · exact ⟨fun _ => hmem, fun _ => rfl⟩
    · exact ⟨fun h => (by cases h), fun h => absurd h hmem⟩

theorem find_node_decides_membership_witness :
    BSTOrdered tree_seven ∧ tree_seven.heap.length < 8 ∧
    (∃ r ks, find_node 8 tree_seven 7 = some r ∧
      inorder 8 tree_seven.heap tree_seven.root = some ks ∧
      (r.isSome ↔ ∃ y ny, Below tree_seven.heap tree_seven.root y ∧
        load tree_seven.heap y = some ny ∧ ny.value = 7) ∧
      (∀ a, r = some a → Below tree_seven.heap tree_seven.root a ∧
        ∃ nd, load tree_seven.heap a = some nd ∧ nd.value = 7) ∧
      (r = none ↔ (7 : Int) ∉ ks) ∧ (r.isSome ↔ (7 : Int) ∈ ks)) ∧
    find_node 8 tree_seven 7 = some (some 5) ∧ find_node 8 tree_seven 6 = some none :=
  ⟨ordered_bstOrdered ordered_tree_seven, by decide,
    find_node_decides_membership tree_seven 8 7 (ordered_bstOrdered ordered_tree_seven)
      (by decide), by decide, by decide⟩

theorem insert_loop_eq {t : Tree} {s : Shape} (hm : Models t s) (n : Int) {fuel : Nat}
    (hf : s.height < fuel) (hz : (zoom n s []).2 = .nil) :
    insert_loop fuel (initialize_node t.heap n).1 (initialize_node t.heap n).2 t.root none
      = some (ctxParent (zoom n s []).1) := by
  have hrep0 : Rep (t.heap ++ [some (TreeNode.mk n none none none)]) none s :=
    rep_frame (fun a ha => by
      have hlt := rep_addr_lt hm.2.1 a ha
      simp only [load]
      rw [List.getElem?_append_left hlt]) hm.2.1
  have htn : load (t.heap ++ [some (TreeNode.mk n none none none)]) t.heap.length
      = some (TreeNode.mk n none none none) := load_append_length _ _
  have hloop := insert_loop_zoom n htn rfl s none [] fuel hrep0 hf hz
  rw [← hm.1] at hloop
  exact hloop

theorem orderedInsert_mid (k : Int) : ∀ (L R : List Int), (∀ x ∈ L, x < k) →
    (∀ x ∈ R, k < x) → (L ++ R).orderedInsert (· ≤ ·) k = L ++ k :: R
  | [], [], _, _ => rfl
  | [], b :: R, _, hR => by
    have : k ≤ b := le_of_lt (hR b (List.mem_cons_self _ _))
    simp [List.orderedInsert, this]
  | a :: L, R, hL, hR => by
    have h1 : ¬ k ≤ a := not_le.2 (hL a (List.mem_cons_self _ _))
    have ih := orderedInsert_mid k L R (fun x hx => hL x (List.mem_cons_of_mem _ hx)) hR
    simp only [List.cons_append, List.orderedInsert, if_neg h1]
    exact congrArg (fun l => a :: l) ih

theorem root_plug_cons_ne : ∀ (fs : Ctx) (f : Frame) (x : Shape),
    (plug (f :: fs) x).root ≠ none
  | [], f, x => by cases f <;> simp [plug, Frame.fill, Shape.root]
  | g :: fs, f, x => root_plug_cons_ne fs g (f.fill x)

/-- C10. Postcondition of inserting a new key into a BST-ordered,
parent-consistent tree: exactly one node is allocated, at the first unused
address; it holds `k`, has no children, and its parent pointer is the last
node `y` of the descent (`NULL`, with the new node as root, when the tree was
empty; otherwise `y` gets the new node as left child when `k` is smaller than
its value and as right child otherwise, in a link that was `NULL`); every
other node is unchanged; and the in-order sequence is the old one with `k`
inserted at its sorted position. -/
theorem insert_new_key_postcondition (t : Tree) (fuel : Nat) (k : Int) (ho : Ordered t)
    (hf : t.heap.length + 1 < fuel) (hk : find_node fuel t k = some none) :
    ∃ t2 y L R,
      insert_node fuel t k = some t2 ∧
      insert_loop fuel (initialize_node t.heap k).1 (initialize_node t.heap k).2 t.root none
        = some y ∧
      load t.heap t.heap.length = none ∧
      load t2.heap t.heap.length = some (TreeNode.mk k y none none) ∧
      live t2.heap = live t.heap + 1 ∧
      (∀ a, a ≠ t.heap.length → y ≠ some a → load t2.heap a = load t.heap a) ∧
      (t.root = none → y = none ∧ t2.root = some t.heap.length) ∧
      (t.root ≠ none → t2.root = t.root ∧
        ∃ ya yd, y = some ya ∧ Below t.heap t.root ya ∧ load t.heap ya = some yd ∧
          (k < yd.value → yd.left = none ∧
            load t2.heap ya = some { yd with left := some t.heap.length }) ∧
          (¬ k < yd.value → yd.right = none ∧
            load t2.heap ya = some { yd with right := some t.heap.length })) ∧
      inorder fuel t.heap t.root = some (L ++ R) ∧
      inorder fuel t2.heap t2.root = some (L ++ k :: R) ∧
      (∀ x ∈ L, x < k) ∧ (∀ x ∈ R, k < x) ∧
      L ++ k :: R = (L ++ R).orderedInsert (· ≤ ·) k ∧
      Ordered t2 := by
  obtain ⟨s, hm, hb⟩ := ho
  have hkl : s.keys.length + 1 < fuel := by
    have := models_keys_lt hm (Nat.lt_succ_self t.heap.length)
    omega
  have hh : s.height < fuel := by
    have := height_le_keys s
    omega
  have hnot : k ∉ s.keys := by
    intro hmem
    obtain ⟨a, nd, e, -⟩ := (find_node_spec hm hb k hh).1 hmem
    rw [e] at hk
    cases hk
  have hz : (zoom k s []).2 = .nil := by
    by_contra hc
    exact hnot ((zoom_mem_iff k s hb).2 hc)
  have heq := insert_node_eq hm k hh hz
  have hloop := insert_loop_eq hm k hh hz
  have hmz := models_zoom hm k
  rw [hz] at hmz
  have hm2 := insert_models k hmz
  have hb2 := inserted_bst hb k t.heap.length hz
  have hk0 := zoom_keys k s
  rw [hz] at hk0
  simp only [Shape.keys, List.append_nil] at hk0
  have hk2 := inserted_keys (zoom k s []).1 t.heap.length k
  obtain ⟨hbd1, hbd2⟩ := zoom_bounds k s [] hb (ctxBounds_nil k)
  have hpath := zoom_onPath k s [] trivial
  have hplug : plug (zoom k s []).1 .nil = s := by
    have := zoom_plug k s []
    rw [hz] at this; exact this
  have hlt := models_ctx_lt hmz
  obtain ⟨hctx, -⟩ := rep_plug.1 hmz.2.1
  have hino : inorder fuel t.heap t.root
      = some (ctxBefore (zoom k s []).1 ++ ctxAfter (zoom k s []).1) := by
    rw [← hk0]; exact inorder_mono_spec hm (by omega)
  have hino2 : inorder fuel (insertedHeap t.heap k (zoom k s []).1)
      (insertedRoot t (zoom k s []).1)
      = some (ctxBefore (zoom k s []).1 ++ k :: ctxAfter (zoom k s []).1) := by
    rw [← hk2]
    refine inorder_mono_spec hm2 ?_
    rw [hk2]
    rw [hk0] at hkl
    simp only [List.length_append, List.length_cons] at hkl ⊢
    omega
  refine ⟨_, ctxParent (zoom k s []).1, ctxBefore (zoom k s []).1, ctxAfter (zoom k s []).1,
    heq, hloop, load_length _, ?_, ?_, ?_, ?_, ?_, hino, hino2, hbd1, hbd2,
    (orderedInsert_mid k _ _ hbd1 hbd2).symm, ⟨_, hm2, hb2⟩⟩
  all_goals generalize (zoom k s []).1 = fs at hplug hpath hmz hlt hctx
  · cases fs with
    | nil => simp only []; rw [load_insertedHeap_nil, if_pos rfl]; rfl
    | cons f fs =>
      have hfa : f.addr < t.heap.length := hlt _ (by simp [ctxAddrs])
      simp only []
      rw [load_insertedHeap_cons _ _ _ _ _ hfa, if_neg (Nat.ne_of_gt hfa), if_pos rfl]
      rfl
  · refine live_insertedHeap _ _ _ (fun f hf2 => ?_)
    cases fs with
    | nil => simp at hf2
    | cons g fs =>
      simp only [List.head?_cons, Option.mem_def, Option.some.injEq] at hf2
      subst hf2
      exact ⟨_, hctx.1⟩
  · intro a ha hy
    cases fs with
    | nil => simp only []; rw [load_insertedHeap_nil, if_neg ha]
    | cons f fs =>
      have hfa : f.addr < t.heap.length := hlt _ (by simp [ctxAddrs])
      have : a ≠ f.addr := fun e => hy (by rw [e]; rfl)
      simp only []
      rw [load_insertedHeap_cons _ _ _ _ _ hfa, if_neg this, if_neg ha]
  · intro hroot
    cases fs with
    | nil => exact ⟨rfl, rfl⟩
    | cons f fs =>
      exfalso
      rw [hm.1, ← hplug] at hroot
      exact root_plug_cons_ne fs f .nil hroot
  · intro hroot
    cases fs with
    | nil =>
      exfalso
      apply hroot
      rw [hm.1, ← hplug]; rfl
    | cons f fs =>
      have hfa : f.addr < t.heap.length := hlt _ (by simp [ctxAddrs])
      have hmem : f.addr ∈ s.addrs := by
        rw [← hplug]
        exact (addrs_plug_perm _ _).symm.subset (by simp [ctxAddrs])
      refine ⟨rfl, f.addr, _, rfl, (models_below_iff hm _).2 hmem, hctx.1, ?_, ?_⟩
      · intro hlt2
        cases f with
        | left a v r =>
          refine ⟨rfl, ?_⟩
          simp only []
          rw [load_insertedHeap_cons _ _ _ _ _ hfa, if_pos rfl]
          rfl
        | right l a v =>
          exact absurd hlt2 (not_lt.2 (le_of_lt hpath.1))
      · intro hlt2
        cases f with
        | left a v r => exact absurd hpath.1 hlt2
        | right l a v =>
          refine ⟨rfl, ?_⟩
          simp only []
          rw [load_insertedHeap_cons _ _ _ _ _ hfa, if_pos rfl]
          rfl

theorem insert_new_key_postcondition_witness :
    Ordered tree_seven ∧ tree_seven.heap.length + 1 < 9 ∧
    find_node 9 tree_seven 6 = some none ∧
    (∃ t2 y L R,
      insert_node 9 tree_seven 6 = some t2 ∧
      insert_loop 9 (initialize_node tree_seven.heap 6).1 (initialize_node tree_seven.heap 6).2
        tree_seven.root none = some y ∧
      load tree_seven.heap tree_seven.heap.length = none ∧
      load t2.heap tree_seven.heap.length = some (TreeNode.mk 6 y none none) ∧
      live t2.heap = live tree_seven.heap + 1 ∧
      (∀ a, a ≠ tree_seven.heap.length → y ≠ some a →
        load t2.heap a = load tree_seven.heap a) ∧
      (tree_seven.root = none → y = none ∧ t2.root = some tree_seven.heap.length) ∧
      (tree_seven.root ≠ none → t2.root = tree_seven.root ∧
        ∃ ya yd, y = some ya ∧ Below tree_seven.heap tree_seven.root ya ∧
          load tree_seven.heap ya = some yd ∧
          ((6 : Int) < yd.value → yd.left = none ∧
            load t2.heap ya = some { yd with left := some tree_seven.heap.length }) ∧
          (¬ (6 : Int) < yd.value → yd.right = none ∧
            load t2.heap ya = some { yd with right := some tree_seven.heap.length })) ∧
      inorder 9 tree_seven.heap tree_seven.root = some (L ++ R) ∧
      inorder 9 t2.heap t2.root = some (L ++ 6 :: R) ∧
      (∀ x ∈ L, x < 6) ∧ (∀ x ∈ R, 6 < x) ∧
      L ++ 6 :: R = (L ++ R).orderedInsert (· ≤ ·) 6 ∧
      Ordered t2) ∧
    ((insert_node 9 tree_seven 6).bind fun t2 => load t2.heap 7)
      = some (TreeNode.mk 6 (some 5) none none) ∧
    ((insert_node 9 tree_seven 6).bind fun t2 => load t2.heap 5)
      = some (TreeNode.mk 7 (some 2) (some 7) none) ∧
    ((insert_node 9 tree_seven 6).bind fun t2 => inorder 9 t2.heap t2.root)
      = some [1, 3, 4, 5, 6, 7, 8, 9] :=
  ⟨ordered_tree_seven, by decide, by decide,
    insert_new_key_postcondition tree_seven 9 6 ordered_tree_seven (by decide) (by decide),
    by decide, by decide, by decide⟩

/-! ## Subtrees and the in-order walk of a link tree -/

theorem repLinks_subtree {h : Heap} : ∀ {s : Shape} {x : Nat}, RepLinks h s → x ∈ s.addrs →
    ∃ (l : Shape) (v : Int) (r : Shape), RepLinks h (.node l x v r) ∧
      (s.BST → (Shape.node l x v r).BST) ∧ List.Sublist (Shape.node l x v r).addrs s.addrs
  | .nil, _, _, hx => by simp [Shape.addrs] at hx
  | .node l a v r, x, ⟨h1, hl, hr⟩, hx => by
    simp only [Shape.addrs, List.mem_append, List.mem_cons] at hx
    rcases hx with hx | rfl | hx
    · obtain ⟨l2, v2, r2, hrep, hbst, hsub⟩ := repLinks_subtree hl hx
      refine ⟨l2, v2, r2, hrep, fun hb => hbst hb.1, hsub.trans ?_⟩
      simp only [Shape.addrs]
      exact List.sublist_append_left _ _
    · exact ⟨l, v, r, ⟨h1, hl, hr⟩, id, List.Sublist.refl _⟩
    · obtain ⟨l2, v2, r2, hrep, hbst, hsub⟩ := repLinks_subtree hr hx
      refine ⟨l2, v2, r2, hrep, fun hb => hbst hb.2.1, hsub.trans ?_⟩
      simp only [Shape.addrs]
      exact (List.sublist_cons_self _ _).trans (List.sublist_append_right _ _)

theorem linkTree_below_iff {t : Tree} {s : Shape} (hl : LinkTree t s) (y : Nat) :
    Below t.heap t.root y ↔ y ∈ s.addrs := by
  obtain ⟨u, hm, hs, hr⟩ := linkTree_consistent hl
  rw [← models_below_iff hm y, hr]
  exact ⟨below_sim hs, below_sim (sameLinks_symm hs)⟩

theorem linkTree_subtree {t : Tree} {s : Shape} (hl : LinkTree t s) {x : Nat}
    (hx : Below t.heap t.root x) :
    ∃ s2, LinkTree { heap := t.heap, root := some x } s2 ∧ (s.BST → s2.BST) := by
  obtain ⟨l, v, r, hrep, hbst, hsub⟩ := repLinks_subtree hl.2.1 ((linkTree_below_iff hl x).1 hx)
  exact ⟨.node l x v r, ⟨rfl, hrep, hl.2.2.sublist hsub⟩, hbst⟩

theorem linkTree_inorder {t : Tree} {s : Shape} (hl : LinkTree t s) {fuel : Nat}
    (hf : t.heap.length < fuel) : inorder fuel t.heap t.root = some s.keys := by
  obtain ⟨u, hm, hs, hr⟩ := linkTree_consistent hl
  rw [inorder_sim hs, hr]
  exact models_inorder hm (models_height_lt hm (hs.1 ▸ hf))

theorem linkTree_key_of_addr {t : Tree} {s : Shape} (hl : LinkTree t s) {y : Nat}
    {ny : TreeNode} (hy : y ∈ s.addrs) (hly : load t.heap y = some ny) : ny.value ∈ s.keys := by
  obtain ⟨u, hm, hs, hr⟩ := linkTree_consistent hl
  obtain ⟨nd, e1, e2⟩ := key_of_addr hm.2.1 hy
  obtain ⟨nd2, e3, e4, -, -⟩ := sameLinks_some hs hly
  rw [e1] at e3
  cases e3
  exact e4 ▸ e2

theorem linkTree_addr_of_key {t : Tree} {s : Shape} (hl : LinkTree t s) {k : Int}
    (hk : k ∈ s.keys) : ∃ y ny, y ∈ s.addrs ∧ load t.heap y = some ny ∧ ny.value = k := by
  obtain ⟨u, hm, hs, hr⟩ := linkTree_consistent hl
  obtain ⟨x, nd, hx, hld, hv⟩ := addr_of_key hm.2.1 hk
  obtain ⟨nd2, e3, e4, -, -⟩ := sameLinks_some (sameLinks_symm hs) hld
  exact ⟨x, nd2, hx, e3, e4.trans hv⟩

/-- C11. The in-order walk of a BST is strictly ascending: on a BST-ordered
tree (and, since every subtree of one is again one, on the subtree below any
of its nodes) `inorder` prints a strictly increasing sequence that holds the
value of every node exactly once and nothing else, and whose length is the
number of nodes; the walk is the walk of the left subtree, then the node's
value, then the walk of the right subtree, and prints nothing at `NULL`. -/
theorem inorder_strictly_ascending (t : Tree) (fuel : Nat) (ho : BSTOrdered t)
    (hf : t.heap.length < fuel) :
    ∃ (ks : List Int) (nodes : List Nat), inorder fuel t.heap t.root = some ks ∧
      ks.Pairwise (· < ·) ∧ ks.Nodup ∧
      (∀ y ny, Below t.heap t.root y → load t.heap y = some ny →
        ny.value ∈ ks ∧ ks.count ny.value = 1) ∧
      (∀ k ∈ ks, ∃ y ny, Below t.heap t.root y ∧ load t.heap y = some ny ∧ ny.value = k) ∧
      nodes.Nodup ∧ (∀ y, y ∈ nodes ↔ Below t.heap t.root y) ∧ ks.length = nodes.length ∧
      (∀ x, Below t.heap t.root x → BSTOrdered { heap := t.heap, root := some x }) ∧
      (∀ f, inorder (f + 1) t.heap none = some []) ∧
      (∀ f a nd ls rs, load t.heap a = some nd → inorder f t.heap nd.left = some ls →
        inorder f t.heap nd.right = some rs →
        inorder (f + 1) t.heap (some a) = some (ls ++ nd.value :: rs)) := by
  obtain ⟨s, hl, hb⟩ := ho
  have hsorted := (bst_iff_sorted s).1 hb
  have hnd := sorted_nodup hsorted
  refine ⟨s.keys, s.addrs, linkTree_inorder hl hf, hsorted, hnd, ?_, ?_, hl.2.2,
    fun y => (linkTree_below_iff hl y).symm, keys_length_addrs s, ?_, fun _ => rfl, ?_⟩
  · intro y ny hy hly
    have hk := linkTree_key_of_addr hl ((linkTree_below_iff hl y).1 hy) hly
    exact ⟨hk, List.count_eq_one_of_mem hnd hk⟩
  · intro k hk
    obtain ⟨y, ny, hy, hly, hv⟩ := linkTree_addr_of_key hl hk
    exact ⟨y, ny, (linkTree_below_iff hl y).2 hy, hly, hv⟩
  · intro x hx
    obtain ⟨s2, hl2, hb2⟩ := linkTree_subtree hl hx
    exact ⟨s2, hl2, hb2 hb⟩
  · intro f a nd ls rs h1 h2 h3
    simp only [inorder, h1, h2, h3]

theorem inorder_strictly_ascending_witness :
    BSTOrdered tree_seven ∧ tree_seven.heap.length < 8 ∧
    (∃ (ks : List Int) (nodes : List Nat), inorder 8 tree_seven.heap tree_seven.root = some ks ∧
      ks.Pairwise (· < ·) ∧ ks.Nodup ∧
      (∀ y ny, Below tree_seven.heap tree_seven.root y → load tree_seven.heap y = some ny →
        ny.value ∈ ks ∧ ks.count ny.value = 1) ∧
      (∀ k ∈ ks, ∃ y ny, Below tree_seven.heap tree_seven.root y ∧
        load tree_seven.heap y = some ny ∧ ny.value = k) ∧
      nodes.Nodup ∧ (∀ y, y ∈ nodes ↔ Below tree_seven.heap tree_seven.root y) ∧
      ks.length = nodes.length ∧
      (∀ x, Below tree_seven.heap tree_seven.root x →
        BSTOrdered { heap := tree_seven.heap, root := some x }) ∧
      (∀ f, inorder (f + 1) tree_seven.heap none = some []) ∧
      (∀ f a nd ls rs, load tree_seven.heap a = some nd →
        inorder f tree_seven.heap nd.left = some ls →
        inorder f tree_seven.heap nd.right = some rs →
        inorder (f + 1) tree_seven.heap (some a) = some (ls ++ nd.value :: rs))) ∧
    inorder 8 tree_seven.heap tree_seven.root = some [1, 3, 4, 5, 7, 8, 9] ∧
    inorder 8 tree_seven.heap (some 2) = some [7, 8, 9] :=
  ⟨ordered_bstOrdered ordered_tree_seven, by decide,
    inorder_strictly_ascending tree_seven 8 (ordered_bstOrdered ordered_tree_seven) (by decide),
    by decide, by decide⟩

/-! ## `find_node` and `tree_minimum` on link trees -/

theorem linkTree_find_returns {t : Tree} {s : Shape} (hl : LinkTree t s) (n : Int)
    {fuel : Nat} (hf : t.heap.length < fuel) :
    find_node fuel t n = some (zoom n s []).2.root := by
  obtain ⟨u, hm, hs, hr⟩ := linkTree_consistent hl
  have : find_node fuel t n = find_node fuel u n := by
    unfold find_node; rw [hr]; exact find_loop_sim hs n fuel _
  rw [this]
  exact find_node_zoom hm n (models_height_lt hm (hs.1 ▸ hf))

/-- C12 (as stated) fails: on an absent tree, the `NULL` tree pointer,
`find_node` does not return "not found"; it dereferences the pointer, whatever
the key and the fuel, while on the empty tree it returns `NULL`. -/
theorem find_node_absent_tree_fails :
    (∀ fuel, find_node_ptr fuel none 10 = none) ∧
    (∀ fuel, find_node_ptr fuel none 10 ≠ some none) ∧
    find_node_ptr 1 (some initialize_tree) 10 = some none :=
  ⟨fun _ => rfl, fun _ h => (by cases h), rfl⟩

/-- C12 (amended). `find_node` has no failure modes on a tree: on a tree whose
root is absent it returns `NULL` for every key, and on every well-formed tree
(child links forming a tree shape) it returns a result, a node or `NULL`,
given fuel beyond the heap size. It computes its result from the tree and
returns no tree, so it mutates nothing. The tree pointer itself must not be
`NULL`. -/
theorem find_node_no_failure (t : Tree) (fuel : Nat) (n : Int) (hw : ∃ s, LinkTree t s)
    (hf : t.heap.length < fuel) :
    ∃ r, find_node fuel t n = some r ∧ find_node_ptr fuel (some t) n = some r ∧
      (t.root = none → r = none) ∧
      ∀ (u : Tree) (f : Nat) (j : Int), u.root = none → 0 < f →
        find_node f u j = some none ∧ find_node_ptr f (some u) j = some none := by
  obtain ⟨s, hl⟩ := hw
  have h1 := linkTree_find_returns hl n hf
  refine ⟨_, h1, h1, fun hroot => ?_, fun u f j hu hpos => ?_⟩
  · have hs : s = .nil := by
      cases s with
      | nil => rfl
      | node l a v r => rw [hl.1] at hroot; cases hroot
    subst hs
    rfl
  · obtain ⟨g, rfl⟩ : ∃ g, f = g + 1 := ⟨f - 1, by omega⟩
    have : find_node (g + 1) u j = some none := by
      unfold find_node; rw [hu]; rfl
    exact ⟨this, this⟩

theorem find_node_no_failure_witness :
    (∃ s, LinkTree tree_seven s) ∧ tree_seven.heap.length < 8 ∧
    (∃ r, find_node 8 tree_seven 6 = some r ∧ find_node_ptr 8 (some tree_seven) 6 = some r ∧
      (tree_seven.root = none → r = none) ∧
      ∀ (u : Tree) (f : Nat) (j : Int), u.root = none → 0 < f →
        find_node f u j = some none ∧ find_node_ptr f (some u) j = some none) ∧
    find_node 1 initialize_tree 6 = some none :=
  ⟨(ordered_bstOrdered ordered_tree_seven).imp fun _ h => h.1, by decide,
    find_node_no_failure tree_seven 8 6
      ((ordered_bstOrdered ordered_tree_seven).imp fun _ h => h.1) (by decide),
    by decide⟩

theorem repLinks_addr_lt {h : Heap} : ∀ {s : Shape}, RepLinks h s → ∀ a ∈ s.addrs, a < h.length
  | .nil, _, a, ha => by simp [Shape.addrs] at ha
  | .node l b v r, ⟨⟨nd, h1, _⟩, hl, hr⟩, a, ha => by
    simp only [Shape.addrs, List.mem_append, List.mem_cons] at ha
    rcases ha with ha | rfl | ha
    · exact repLinks_addr_lt hl a ha
    · exact load_lt h1
    · exact repLinks_addr_lt hr a ha

theorem tree_minimum_repLinks {h : Heap} : ∀ (l : Shape) (a : Nat) (v : Int) (r : Shape)
    (fuel : Nat), RepLinks h (.node l a v r) → (Shape.node l a v r).height ≤ fuel →
    ∃ m md rest, tree_minimum fuel h a = some m ∧ LeftChain h a m ∧
      m ∈ (Shape.node l a v r).addrs ∧ load h m = some md ∧ md.left = none ∧
      (Shape.node l a v r).keys = md.value :: rest
  | .nil, a, v, r, fuel + 1, ⟨⟨nd, h1, hv, hl1, hr1⟩, _, _⟩, _ => by
    refine ⟨a, nd, r.keys, ?_, LeftChain.stop h1, by simp [Shape.addrs], h1, hl1, ?_⟩
    · simp only [tree_minimum, h1, hl1, Shape.root]
    · simp [Shape.keys, hv]
  | .node ll la lv lr, a, v, r, fuel + 1, ⟨⟨nd, h1, hv, hl1, hr1⟩, hl, _⟩, hf => by
    simp only [Shape.height] at hf
    obtain ⟨m, md, rest, e, hc, hm, hld, hleft, hk⟩ :=
      tree_minimum_repLinks ll la lv lr fuel hl (by simp only [Shape.height]; omega)
    refine ⟨m, md, rest ++ v :: r.keys, ?_, LeftChain.step h1 hl1 hc, ?_, hld, hleft, ?_⟩
    · simp only [tree_minimum, h1, hl1, Shape.root]
      exact e
    · simp only [Shape.addrs, List.mem_append, List.mem_cons] at hm ⊢
      exact Or.inl hm
    · simp only [Shape.keys] at hk ⊢
      rw [hk]; simp

theorem tree_minimum_linkTree {t : Tree} {s : Shape} {tn : Nat} (hl : LinkTree t s)
    (hroot : t.root = some tn) {fuel : Nat} (hf : t.heap.length < fuel) :
    ∃ m md rest, tree_minimum fuel t.heap tn = some m ∧ LeftChain t.heap tn m ∧
      m ∈ s.addrs ∧ load t.heap m = some md ∧ md.left = none ∧ s.keys = md.value :: rest := by
  cases s with
  | nil => rw [hl.1] at hroot; cases hroot
  | node l a v r =>
    have : a = tn := by
      rw [hl.1] at hroot
      simpa [Shape.root] using hroot
    subst this
    refine tree_minimum_repLinks l a v r fuel hl.2.1 ?_
    exact le_of_lt (lt_of_le_of_lt ((height_le_length _).trans
      (nodup_length_le hl.2.2 (repLinks_addr_lt hl.2.1))) hf)

/-- C17. `tree_minimum` returns the leftmost node, which holds the minimum:
started at any node `tn` of a well-formed tree it returns (given fuel beyond
the heap size) the node reached from `tn` by following `left` links until
there is none; that node lies in the subtree below `tn` and has no left
child; and when the subtree is BST-ordered its value is at most every value
in the subtree and is the first value printed by the in-order walk of the
subtree. -/
theorem tree_minimum_leftmost (t : Tree) (tn : Nat) (fuel : Nat) (hw : ∃ s, LinkTree t s)
    (hx : Below t.heap t.root tn) (hf : t.heap.length < fuel) :
    ∃ m md, tree_minimum fuel t.heap tn = some m ∧ LeftChain t.heap tn m ∧
      Below t.heap (some tn) m ∧ load t.heap m = some md ∧ md.left = none ∧
      (BSTOrdered { heap := t.heap, root := some tn } →
        (∀ y ny, Below t.heap (some tn) y → load t.heap y = some ny → md.value ≤ ny.value) ∧
        ∃ ks, inorder fuel t.heap (some tn) = some (md.value :: ks)) := by
  obtain ⟨s, hl⟩ := hw
  obtain ⟨s2, hl2, -⟩ := linkTree_subtree hl hx
  obtain ⟨m, md, rest, e, hc, hm, hld, hleft, -⟩ := tree_minimum_linkTree hl2 rfl hf
  refine ⟨m, md, e, hc, (linkTree_below_iff hl2 m).2 hm, hld, hleft, ?_⟩
  rintro ⟨s3, hl3, hb3⟩
  obtain ⟨m3, md3, rest3, e3, -, -, hld3, -, hk3⟩ := tree_minimum_linkTree hl3 rfl hf
  have hmm : m3 = m := by
    have : some m3 = some m := e3.symm.trans e
    simpa using this
  subst hmm
  have hmd : md3 = md := by
    have : some md3 = some md := hld3.symm.trans hld
    simpa using this
  subst hmd
  have hsorted := (bst_iff_sorted s3).1 hb3
  rw [hk3] at hsorted
  constructor
  · intro y ny hy hly
    have hk := linkTree_key_of_addr hl3 ((linkTree_below_iff hl3 y).1 hy) hly
    rw [hk3] at hk
    rcases List.mem_cons.1 hk with h1 | h1
    · exact le_of_eq h1.symm
    · exact le_of_lt ((List.pairwise_cons.1 hsorted).1 _ h1)
  · refine ⟨rest3, ?_⟩
    rw [← hk3]
    exact linkTree_inorder hl3 hf

theorem below_tree_seven_two : Below tree_seven.heap tree_seven.root 2 :=
  Below.right (show load tree_seven.heap 0 = some (TreeNode.mk 5 none (some 1) (some 2)) from rfl)
    (Below.here
      (show load tree_seven.heap 2 = some (TreeNode.mk 8 (some 0) (some 5) (some 6)) from rfl))

theorem tree_minimum_leftmost_witness :
    (∃ s, LinkTree tree_seven s) ∧ Below tree_seven.heap tree_seven.root 2 ∧
    tree_seven.heap.length < 8 ∧
    (∃ m md, tree_minimum 8 tree_seven.heap 2 = some m ∧ LeftChain tree_seven.heap 2 m ∧
      Below tree_seven.heap (some 2) m ∧ load tree_seven.heap m = some md ∧ md.left = none ∧
      (BSTOrdered { heap := tree_seven.heap, root := some 2 } →
        (∀ y ny, Below tree_seven.heap (some 2) y → load tree_seven.heap y = some ny →
          md.value ≤ ny.value) ∧
        ∃ ks, inorder 8 tree_seven.heap (some 2) = some (md.value :: ks))) ∧
    tree_minimum 8 tree_seven.heap 2 = some 5 ∧ tree_minimum 8 tree_seven.heap 0 = some 3 :=
  ⟨(ordered_bstOrdered ordered_tree_seven).imp fun _ h => h.1,
    below_tree_seven_two, by decide,
    tree_minimum_leftmost tree_seven 2 8
      ((ordered_bstOrdered ordered_tree_seven).imp fun _ h => h.1)
      below_tree_seven_two (by decide),
    by decide, by decide⟩

/-! ## Facts about the two-children case, for any node with two children -/

theorem plug_of_mem : ∀ {s : Shape} {a : Nat}, a ∈ s.addrs →
    ∃ (fs : Ctx) (l : Shape) (v : Int) (r : Shape), s = plug fs (.node l a v r)
  | .nil, _, ha => by simp [Shape.addrs] at ha
  | .node l b w r, a, ha => by
    simp only [Shape.addrs, List.mem_append, List.mem_cons] at ha
    rcases ha with ha | rfl | ha
    · obtain ⟨fs, l2, v2, r2, e⟩ := plug_of_mem ha
      refine ⟨fs ++ [.left b w r], l2, v2, r2, ?_⟩
      rw [plug_append, ← e]; rfl
    · exact ⟨[], l, w, r, rfl⟩
    · obtain ⟨fs, l2, v2, r2, e⟩ := plug_of_mem ha
      refine ⟨fs ++ [.right l b w], l2, v2, r2, ?_⟩
      rw [plug_append, ← e]; rfl

theorem zoomMin_keys {r : Shape} {lf : Ctx} {rep : Nat} {mv : Int} {mr : Shape}
    (hz : zoomMin r [] = (lf, .node .nil rep mv mr)) :
    plug lf (.node .nil rep mv mr) = r ∧ ctxBefore lf = [] ∧
    r.keys = mv :: (mr.keys ++ ctxAfter lf) ∧ rep ∈ r.addrs := by
  have h1 := zoomMin_plug r []
  have h2 := zoomMin_before r []
  rw [hz] at h1 h2
  simp only [plug, ctxBefore] at h1 h2
  refine ⟨h1, h2, ?_, ?_⟩
  · rw [← h1, keys_plug, h2]; simp [Shape.keys]
  · rw [← h1]
    exact (addrs_plug_perm lf _).symm.subset (by simp [Shape.addrs])

/-- The tree after the two-children case removed the successor `rep` of `tn`. -/
theorem two_children_facts {t : Tree} {fs lf : Ctx} {l r mr : Shape} {tn rep : Nat}
    {v mv : Int} (hm : Models t (plug fs (.node l tn v r)))
    (hz : zoomMin r [] = (lf, .node .nil rep mv mr)) :
    ∃ t2, delete_two_children t tn (some rep) = some t2 ∧
      Models t2 (plug fs (.node l tn mv (plug lf mr))) ∧
      t2.root = t.root ∧ rep ≠ tn ∧ rep ∈ r.addrs ∧
      load t2.heap rep = none ∧ live t2.heap + 1 = live t.heap ∧
      (∃ g C2, lf ++ .right l tn v :: fs = g :: C2 ∧
        load t.heap rep = some (TreeNode.mk mv (some g.addr) none mr.root) ∧
        load t.heap g.addr = some (TreeNode.mk g.val (ctxParent C2) (g.leftPtr (some rep))
          (g.rightPtr (some rep))) ∧
        ∀ a, a ≠ tn → a ≠ rep → a ≠ g.addr → mr.root ≠ some a →
          load t2.heap a = load t.heap a) := by
  obtain ⟨h1, h2⟩ := two_children_models hm hz
  obtain ⟨hp, -, -, hrm⟩ := zoomMin_keys hz
  have hplug : plug (lf ++ .right l tn v :: fs) (.node .nil rep mv mr)
      = plug fs (.node l tn v r) := by
    rw [plug_append, hp]; rfl
  have hm0 := hm
  rw [← hplug] at hm
  have hnd := models_ctx_nodup hm
  obtain ⟨hctx, hx, -, hr⟩ := rep_plug.1 hm.2.1
  have htnmem : tn ∈ ctxAddrs (lf ++ .right l tn v :: fs) := by
    simp [ctxAddrs_append, ctxAddrs, Frame.addr]
  have hne : rep ≠ tn := by
    rintro rfl
    exact (List.nodup_append.1 hnd).2.2
      (show rep ∈ (Shape.node .nil rep mv mr).addrs by simp [Shape.addrs]) htnmem
  obtain ⟨hl1, hl2⟩ := splice_load_live hm (Or.inr (rfl : mr = mr))
  have hrep2 : load (setVal (spliceHeap t.heap mr (lf ++ .right l tn v :: fs)) tn mv) rep
      = load t.heap rep := (load_setVal_ne mv hne).trans hl1
  have hm2 : Models (Tree.mk ((setVal (spliceHeap t.heap mr (lf ++ .right l tn v :: fs))
      tn mv).set rep none) t.root) (plug fs (.node l tn mv (plug lf mr))) := by
    have e : plug (lf ++ .right l tn mv :: fs) mr = plug fs (.node l tn mv (plug lf mr)) := by
      rw [plug_append]; rfl
    rw [← e]; exact h2
  refine ⟨_, h1, hm2, rfl, hne, hrm, ?_, ?_, ?_⟩
  · show load ((setVal (spliceHeap t.heap mr (lf ++ .right l tn v :: fs)) tn mv).set
      rep none) rep = none
    rw [load_set_of_load (hrep2.trans hx), if_pos rfl]
  · show live ((setVal (spliceHeap t.heap mr (lf ++ .right l tn v :: fs)) tn mv).set
      rep none) + 1 = live t.heap
    rw [live_set_none (hrep2.trans hx), live_setVal, hl2]
  · generalize hC : lf ++ Frame.right l tn v :: fs = C at *
    cases C with
    | nil => simp at hC
    | cons g C2 =>
      refine ⟨g, C2, rfl, hx, hctx.1, fun a ha1 ha2 ha3 ha4 => ?_⟩
      show load ((setVal (spliceHeap t.heap mr (g :: C2)) tn mv).set rep none) a = load t.heap a
      rw [load_set_of_load (hrep2.trans hx), if_neg ha2, load_setVal_ne mv ha1]
      exact load_spliceHeap hctx hr a (fun e => ha3 (by simpa [ctxParent] using e.symm)) ha4

theorem bst_of_plug (fs : Ctx) (x : Shape) (hb : (plug fs x).BST) : x.BST := by
  rw [bst_iff_sorted] at hb ⊢
  rw [keys_plug] at hb
  exact ((List.pairwise_append.1 ((List.pairwise_append.1 hb).1)).2.1)

theorem delete_node_two_children_eq {t : Tree} {fuel : Nat} {k : Int} {tn lc rc : Nat}
    {nd : TreeNode} (hk : find_node fuel t k = some (some tn))
    (hl : load t.heap tn = some nd) (hlc : nd.left = some lc) (hrc : nd.right = some rc) :
    delete_node fuel t k =
      ((successor fuel t.heap tn).bind fun rep => delete_two_children t tn rep).map
        fun t1 => (t1, false) := by
  unfold delete_node
  simp [hk, hl, hlc, hrc]

/-- Everything the two-children case does at a node `tn` that has two
children, in terms of the path `fs` to `tn` and the path `lf` from the right
child of `tn` to its leftmost node `rep`. -/
theorem two_children_at {t : Tree} {s : Shape} (hm : Models t s) {tn lc rc : Nat}
    {nd : TreeNode} (hx : tn ∈ s.addrs) (hl : load t.heap tn = some nd)
    (hlc : nd.left = some lc) (hrc : nd.right = some rc) {fuel : Nat}
    (hf : s.height < fuel) :
    ∃ (fs : Ctx) (l : Shape) (v : Int) (r : Shape) (lf : Ctx) (rep : Nat) (mv : Int)
      (mr : Shape) (t2 : Tree),
      s = plug fs (.node l tn v r) ∧ nd = TreeNode.mk v (ctxParent fs) l.root r.root ∧
      zoomMin r [] = (lf, .node .nil rep mv mr) ∧
      successor fuel t.heap tn = some (some rep) ∧
      tree_minimum fuel t.heap rc = some rep ∧
      delete_two_children t tn (some rep) = some t2 ∧
      Models t2 (plug fs (.node l tn mv (plug lf mr))) ∧
      t2.root = t.root ∧ rep ≠ tn ∧ rep ∈ r.addrs ∧
      load t2.heap rep = none ∧ live t2.heap + 1 = live t.heap ∧
      (∃ g C2, lf ++ .right l tn v :: fs = g :: C2 ∧
        load t.heap rep = some (TreeNode.mk mv (some g.addr) none mr.root) ∧
        load t.heap g.addr = some (TreeNode.mk g.val (ctxParent C2) (g.leftPtr (some rep))
          (g.rightPtr (some rep))) ∧
        ∀ a, a ≠ tn → a ≠ rep → a ≠ g.addr → mr.root ≠ some a →
          load t2.heap a = load t.heap a) := by
  obtain ⟨fs, l, v, r, rfl⟩ := plug_of_mem hx
  obtain ⟨hctx, h1, hrl, hrr⟩ := rep_plug.1 hm.2.1
  rw [h1] at hl
  simp only [Option.some.injEq] at hl
  subst hl
  simp only at hlc hrc
  cases r with
  | nil => cases hrc
  | node rl ra rv rr =>
    simp only [Shape.root, Option.some.injEq] at hrc
    subst hrc
    obtain ⟨rep, mv, mr, e⟩ := zoomMin_stop rl ra rv rr []
    have hz : zoomMin (.node rl ra rv rr) []
        = ((zoomMin (.node rl ra rv rr) []).1, .node .nil rep mv mr) := by
      rw [← e]
    have hsub : (Shape.node l tn v (.node rl ra rv rr)).height < fuel :=
      lt_of_le_of_lt (height_plug_le fs _) hf
    have hle : (Shape.node rl ra rv rr).height ≤ fuel := by
      simp only [Shape.height] at hsub ⊢; omega
    have hsucc := successor_zoom h1 rfl hrr hle
    have hmin := tree_minimum_zoom rl ra rv rr (some tn) [] fuel hrr hle
    rw [e] at hsucc hmin
    simp only [Shape.root] at hsucc hmin
    have hmin2 : tree_minimum fuel t.heap ra = some rep := by
      cases hm2 : tree_minimum fuel t.heap ra with
      | none => simp [hm2] at hmin
      | some m => simpa [hm2] using hmin
    obtain ⟨t2, f1, f2, f3, f4, f5, f6, f7, f8⟩ := two_children_facts hm hz
    exact ⟨fs, l, v, _, _, rep, mv, mr, t2, rfl, rfl, hz, hsucc, hmin2, f1, f2, f3, f4, f5,
      f6, f7, f8⟩

theorem mem_addrs_plug_node (fs : Ctx) (l : Shape) (a : Nat) (v : Int) (r : Shape) :
    a ∈ (plug fs (.node l a v r)).addrs :=
  (addrs_plug_perm fs _).symm.subset (by simp [Shape.addrs])

theorem not_below_of_load_none {t : Tree} {s : Shape} (hm : Models t s) {a : Nat}
    (hl : load t.heap a = none) : ¬ Below t.heap t.root a := by
  intro hb
  obtain ⟨nd, e, -⟩ := key_of_addr hm.2.1 ((models_below_iff hm a).1 hb)
  rw [hl] at e
  cases e

/-- The successor of a node with two children, in a parent-consistent tree. -/
theorem successor_two_children_wf {t : Tree} {s : Shape} (hm : Models t s) {tn lc rc : Nat}
    {nd : TreeNode} (hx : tn ∈ s.addrs) (hl : load t.heap tn = some nd)
    (hlc : nd.left = some lc) (hrc : nd.right = some rc) {fuel : Nat}
    (hf : s.height < fuel) :
    ∃ rep rd rp rpd, successor fuel t.heap tn = some (some rep) ∧
      tree_minimum fuel t.heap rc = some rep ∧
      Below t.heap nd.right rep ∧ Below t.heap t.root rep ∧ rep ≠ tn ∧
      load t.heap rep = some rd ∧ rd.parent = some rp ∧ rd.left = none ∧
      load t.heap rp = some rpd ∧ (rpd.left = some rep ∨ rpd.right = some rep) := by
  obtain ⟨fs, l, v, r, lf, rep, mv, mr, t2, rfl, rfl, hz, hsucc, hmin, -, -, -, hne, hrep, -,
    -, g, C2, -, hlr, hlg, -⟩ := two_children_at hm hx hl hlc hrc hf
  obtain ⟨-, -, -, hrr⟩ := rep_plug.1 hm.2.1
  have hb1 : Below t.heap r.root rep := below_of_mem hrr hrep
  have hb2 : Below t.heap t.root rep := by
    refine (models_below_iff hm rep).2 ?_
    refine (addrs_plug_perm fs _).symm.subset (List.mem_append_left _ ?_)
    simp [Shape.addrs, hrep]
  refine ⟨rep, _, g.addr, _, hsucc, hmin, hb1, hb2, hne, hlr, rfl, rfl, hlg, ?_⟩
  cases g with
  | left a w sib => exact Or.inl rfl
  | right sib a w => exact Or.inr rfl

/-- C16. Successor of a two-children node: in a BST-ordered, parent-consistent
tree, for a node `tn` with a left and a right child, `successor` returns a
node (never `NULL`); it is the node that `tree_minimum` returns on the right
child, so the upward walk is not entered; it lies in the right subtree of
`tn`, differs from `tn`, has a parent and has no left child. -/
theorem successor_of_two_children (t : Tree) (tn lc rc : Nat) (nd : TreeNode) (fuel : Nat)
    (ho : Ordered t) (hx : Below t.heap t.root tn) (hl : load t.heap tn = some nd)
    (hlc : nd.left = some lc) (hrc : nd.right = some rc) (hf : t.heap.length < fuel) :
    ∃ rep rd rp, successor fuel t.heap tn = some (some rep) ∧
      tree_minimum fuel t.heap rc = some rep ∧
      successor fuel t.heap tn = (tree_minimum fuel t.heap rc).map some ∧
      Below t.heap nd.right rep ∧ Below t.heap t.root rep ∧ rep ≠ tn ∧
      load t.heap rep = some rd ∧ rd.parent = some rp ∧ rd.left = none := by
  obtain ⟨s, hm, -⟩ := ho
  obtain ⟨rep, rd, rp, rpd, h1, h2, h3, h4, h5, h6, h7, h8, -, -⟩ :=
    successor_two_children_wf hm ((models_below_iff hm tn).1 hx) hl hlc hrc
      (models_height_lt hm hf)
  exact ⟨rep, rd, rp, h1, h2, by rw [h1, h2]; rfl, h3, h4, h5, h6, h7, h8⟩

theorem below_tree_seven_root : Below tree_seven.heap tree_seven.root 0 :=
  Below.here (show load tree_seven.heap 0 = some (TreeNode.mk 5 none (some 1) (some 2)) from rfl)

theorem successor_of_two_children_witness :
    Ordered tree_seven ∧ Below tree_seven.heap tree_seven.root 0 ∧
    load tree_seven.heap 0 = some (TreeNode.mk 5 none (some 1) (some 2)) ∧
    (TreeNode.mk 5 none (some 1) (some 2)).left = some 1 ∧
    (TreeNode.mk 5 none (some 1) (some 2)).right = some 2 ∧
    tree_seven.heap.length < 8 ∧
    (∃ rep rd rp, successor 8 tree_seven.heap 0 = some (some rep) ∧
      tree_minimum 8 tree_seven.heap 2 = some rep ∧
      successor 8 tree_seven.heap 0 = (tree_minimum 8 tree_seven.heap 2).map some ∧
      Below tree_seven.heap (TreeNode.mk 5 none (some 1) (some 2)).right rep ∧
      Below tree_seven.heap tree_seven.root rep ∧ rep ≠ 0 ∧
      load tree_seven.heap rep = some rd ∧ rd.parent = some rp ∧ rd.left = none) ∧
    successor 8 tree_seven.heap 0 = some (some 5) :=
  ⟨ordered_tree_seven, below_tree_seven_root, rfl, rfl, rfl, by decide,
    successor_of_two_children tree_seven 0 1 2 _ 8 ordered_tree_seven below_tree_seven_root
      rfl rfl rfl (by decide),
    by decide⟩

/-- C18. The two-children branch of `delete_node` is total on parent-consistent
trees: for a node `tn` with two children and `rep_tn = successor(tn)`, (i)
`rep_tn` and its parent are allocated nodes, (ii) `rep_tn` has no left child,
so it has no children or a right child only, (iii) `rep_tn` is the left or the
right child of its parent; and the branch returns a tree in which the value of
`tn` is the value `rep_tn` had and `rep_tn` is freed and no longer in the
tree. -/
theorem two_children_branch_total (t : Tree) (tn lc rc : Nat) (nd : TreeNode) (fuel : Nat)
    (hw : WellFormed t) (hx : Below t.heap t.root tn) (hl : load t.heap tn = some nd)
    (hlc : nd.left = some lc) (hrc : nd.right = some rc) (hf : t.heap.length < fuel) :
    ∃ rep rd rp rpd t2 nd2, successor fuel t.heap tn = some (some rep) ∧
      load t.heap rep = some rd ∧ rd.parent = some rp ∧ load t.heap rp = some rpd ∧
      rd.left = none ∧
      ((rd.left = none ∧ rd.right = none) ∨ (rd.right ≠ none ∧ rd.left = none)) ∧
      (rpd.left = some rep ∨ rpd.right = some rep) ∧
      (successor fuel t.heap tn).bind (delete_two_children t tn) = some t2 ∧
      load t2.heap tn = some nd2 ∧ nd2.value = rd.value ∧
      load t2.heap rep = none ∧ ¬ Below t2.heap t2.root rep ∧ Below t2.heap t2.root tn ∧
      t2 ≠ t ∧ live t2.heap + 1 = live t.heap ∧ WellFormed t2 := by
  obtain ⟨s, hm⟩ := hw
  obtain ⟨fs, l, v, r, lf, rep, mv, mr, t2, rfl, rfl, hz, hsucc, hmin, hdel, hm2, hroot, hne,
    hrep, hnone, hlive, g, C2, -, hlr, hlg, -⟩ :=
    two_children_at hm ((models_below_iff hm tn).1 hx) hl hlc hrc (models_height_lt hm hf)
  obtain ⟨-, htn2, -, -⟩ := rep_plug.1 hm2.2.1
  refine ⟨rep, _, g.addr, _, t2, _, hsucc, hlr, rfl, hlg, rfl, ?_, ?_, ?_, htn2, rfl, hnone,
    not_below_of_load_none hm2 hnone,
    (models_below_iff hm2 tn).2 (mem_addrs_plug_node _ _ _ _ _), ?_, hlive, ⟨_, hm2⟩⟩
  · cases hmr : mr.root with
    | none => exact Or.inl ⟨rfl, rfl⟩
    | some c => exact Or.inr ⟨by simp, rfl⟩
  · cases g with
    | left a w sib => exact Or.inl rfl
    | right sib a w => exact Or.inr rfl
  · rw [hsucc]; exact hdel
  · intro e
    rw [e, hlr] at hnone
    cases hnone

theorem two_children_branch_total_witness :
    WellFormed tree_seven ∧ Below tree_seven.heap tree_seven.root 0 ∧
    load tree_seven.heap 0 = some (TreeNode.mk 5 none (some 1) (some 2)) ∧
    (TreeNode.mk 5 none (some 1) (some 2)).left = some 1 ∧
    (TreeNode.mk 5 none (some 1) (some 2)).right = some 2 ∧
    tree_seven.heap.length < 8 ∧
    (∃ rep rd rp rpd t2 nd2, successor 8 tree_seven.heap 0 = some (some rep) ∧
      load tree_seven.heap rep = some rd ∧ rd.parent = some rp ∧
      load tree_seven.heap rp = some rpd ∧ rd.left = none ∧
      ((rd.left = none ∧ rd.right = none) ∨ (rd.right ≠ none ∧ rd.left = none)) ∧
      (rpd.left = some rep ∨ rpd.right = some rep) ∧
      (successor 8 tree_seven.heap 0).bind (delete_two_children tree_seven 0) = some t2 ∧
      load t2.heap 0 = some nd2 ∧ nd2.value = rd.value ∧
      load t2.heap rep = none ∧ ¬ Below t2.heap t2.root rep ∧ Below t2.heap t2.root 0 ∧
      t2 ≠ tree_seven ∧ live t2.heap + 1 = live tree_seven.heap ∧ WellFormed t2) ∧
    ((successor 8 tree_seven.heap 0).bind (delete_two_children tree_seven 0)).map
      (fun t2 => (load t2.heap 0, load t2.heap 5, load t2.heap 2))
      = some (some (TreeNode.mk 7 none (some 1) (some 2)), none,
          some (TreeNode.mk 8 (some 0) none (some 6))) :=
  ⟨ordered_wellFormed ordered_tree_seven, below_tree_seven_root, rfl, rfl, rfl, by decide,
    two_children_branch_total tree_seven 0 1 2 _ 8 (ordered_wellFormed ordered_tree_seven)
      below_tree_seven_root rfl rfl rfl (by decide),
    by decide⟩

/-- The node found by `find_node` in a parent-consistent tree is a node of
the tree and holds the key. -/
theorem find_node_mem {t : Tree} {s : Shape} (hm : Models t s) {k : Int} {fuel : Nat}
    (hf : s.height < fuel) {tn : Nat} (hk : find_node fuel t k = some (some tn)) :
    tn ∈ s.addrs ∧ ∃ nd, load t.heap tn = some nd ∧ nd.value = k := by
  rw [find_node_zoom hm k hf] at hk
  simp only [Option.some.injEq] at hk
  have hmz := models_zoom hm k
  rcases zoom_stop k s [] with hz | ⟨l, a, r, hz⟩
  · rw [hz] at hk; cases hk
  · rw [hz] at hk hmz
    simp only [Shape.root, Option.some.injEq] at hk
    subst hk
    obtain ⟨-, hx, -, -⟩ := rep_plug.1 hmz.2.1
    refine ⟨?_, _, hx, rfl⟩
    have := mem_addrs_plug_node (zoom k s []).1 l a k r
    rw [← hz, zoom_plug] at this
    exact this

theorem addrs_remove_perm (fs lf : Ctx) (l mr : Shape) (tn rep : Nat) (v mv w : Int) :
    List.Perm (plug fs (.node l tn v (plug lf (.node .nil rep mv mr)))).addrs
      (rep :: (plug fs (.node l tn w (plug lf mr))).addrs) := by
  have e1 : plug fs (.node l tn v (plug lf (.node .nil rep mv mr)))
      = plug (lf ++ .right l tn v :: fs) (.node .nil rep mv mr) := by
    rw [plug_append]; rfl
  have e2 : plug fs (.node l tn w (plug lf mr)) = plug (lf ++ .right l tn w :: fs) mr := by
    rw [plug_append]; rfl
  rw [e1, e2]
  refine (addrs_plug_perm _ _).trans ?_
  refine List.Perm.trans ?_ (List.Perm.cons rep (addrs_plug_perm _ _).symm)
  simp only [Shape.addrs, List.nil_append, List.cons_append, ctxAddrs_append, ctxAddrs,
    Frame.addr, Frame.sib]
  exact List.Perm.refl _

/-- C13. Two-children deletion is value replacement: in a BST-ordered,
parent-consistent tree, when `k` is held by a node `tn` with a left and a
right child, `delete_node` returns; the root pointer is unchanged, `tn` is
still a node of the tree with the same parent pointer and the same left
child, the cell of its parent and the cell of its left child are unchanged,
and the value of `tn` has become the value of `rep = successor(tn)`, which is
the smallest value in the former right subtree of `tn` and larger than `k`.
The node removed from the tree and freed is `rep`: the nodes of the result
are the nodes of `t` other than `rep`. -/
theorem two_children_value_replacement (t : Tree) (k : Int) (tn lc rc : Nat) (nd : TreeNode)
    (fuel : Nat) (ho : Ordered t) (hk : find_node fuel t k = some (some tn))
    (hl : load t.heap tn = some nd) (hlc : nd.left = some lc) (hrc : nd.right = some rc)
    (hf : t.heap.length < fuel) :
    ∃ t2 rep rd nd2, delete_node fuel t k = some (t2, false) ∧
      successor fuel t.heap tn = some (some rep) ∧ load t.heap rep = some rd ∧
      nd.value = k ∧ t2.root = t.root ∧ Below t2.heap t2.root tn ∧
      load t2.heap tn = some nd2 ∧ nd2.parent = nd.parent ∧ nd2.left = nd.left ∧
      nd2.value = rd.value ∧
      (∀ p, nd.parent = some p → load t2.heap p = load t.heap p) ∧
      load t2.heap lc = load t.heap lc ∧
      Below t.heap nd.right rep ∧
      (∀ y yd, Below t.heap nd.right y → load t.heap y = some yd → rd.value ≤ yd.value) ∧
      k < rd.value ∧ rep ≠ tn ∧ load t2.heap rep = none ∧
      (∀ y, Below t2.heap t2.root y ↔ Below t.heap t.root y ∧ y ≠ rep) ∧
      live t2.heap + 1 = live t.heap ∧ Ordered t2 := by
  obtain ⟨s, hm, hb⟩ := ho
  have hh := models_height_lt hm hf
  obtain ⟨hx, nd0, hl0, hv0⟩ := find_node_mem hm hh hk
  rw [hl] at hl0
  simp only [Option.some.injEq] at hl0
  subst hl0
  obtain ⟨fs, l, v, r, lf, rep, mv, mr, t2, rfl, rfl, hz, hsucc, hmin, hdel, hm2, hroot, hne,
    hrep, hnone, hlive, g, C2, -, hlr, hlg, -⟩ := two_children_at hm hx hl hlc hrc hh
  simp only at hv0 hlc
  subst hv0
  obtain ⟨hp, -, hkeys, -⟩ := zoomMin_keys hz
  obtain ⟨hctx, -, hrl, hrr⟩ := rep_plug.1 hm.2.1
  obtain ⟨hctx2, htn2, hrl2, -⟩ := rep_plug.1 hm2.2.1
  have hdn : delete_node fuel t v = some (t2, false) := by
    rw [delete_node_two_children_eq hk hl hlc hrc, hsucc]
    simp [hdel]
  have hsub : (Shape.node l tn v r).BST := bst_of_plug fs _ hb
  have hsorted := (bst_iff_sorted _).1 hsub
  simp only [Shape.keys, hkeys] at hsorted
  have hperm := addrs_remove_perm fs lf l mr tn rep v mv mv
  rw [hp] at hperm
  have hnd := hperm.nodup_iff.1 hm.2.2
  refine ⟨t2, rep, _, _, hdn, hsucc, hlr, rfl, hroot,
    (models_below_iff hm2 tn).2 (mem_addrs_plug_node _ _ _ _ _), htn2, rfl, rfl, rfl, ?_, ?_,
    below_of_mem hrr hrep, ?_, ?_, hne, hnone, ?_, hlive, ?_⟩
  · intro p hpar
    cases fs with
    | nil => cases hpar
    | cons f fs2 =>
      simp only [ctxParent, Option.some.injEq] at hpar
      subst hpar
      rw [hctx.1, hctx2.1]
      rfl
  · cases l with
    | nil => cases hlc
    | node ll la lv lr =>
      simp only [Shape.root, Option.some.injEq] at hlc
      subst hlc
      rw [hrl.1, hrl2.1]
  · intro y yd hy hyl
    have hmem := mem_of_below hy hrr rfl
    obtain ⟨yd2, e1, e2⟩ := key_of_addr hrr hmem
    rw [hyl] at e1
    simp only [Option.some.injEq] at e1
    subst e1
    rw [hkeys] at e2
    have h3 := (List.pairwise_append.1 hsorted).2.1
    simp only [List.pairwise_cons] at h3
    rcases List.mem_cons.1 e2 with e | e
    · exact le_of_eq e.symm
    · exact le_of_lt (h3.2.1 _ e)
  · have h3 := (List.pairwise_append.1 hsorted).2.1
    simp only [List.pairwise_cons] at h3
    exact h3.1 _ (List.mem_cons_self _ _)
  · intro y
    have hb1 := models_below_iff hm y
    have hb2 := models_below_iff hm2 y
    rw [hb2, hb1, hperm.mem_iff]
    simp only [List.mem_cons]
    constructor
    · intro hy
      refine ⟨Or.inr hy, ?_⟩
      rintro rfl
      exact (List.nodup_cons.1 hnd).1 hy
    · rintro ⟨hy | hy, hne2⟩
      · exact absurd hy hne2
      · exact hy
  · obtain ⟨s2, hm3, hb3⟩ := delete_node_step hm hdn
    exact ⟨s2, hm3, hb3 hb⟩

theorem two_children_value_replacement_witness :
    Ordered tree_seven ∧ find_node 8 tree_seven 5 = some (some 0) ∧
    load tree_seven.heap 0 = some (TreeNode.mk 5 none (some 1) (some 2)) ∧
    (TreeNode.mk 5 none (some 1) (some 2)).left = some 1 ∧
    (TreeNode.mk 5 none (some 1) (some 2)).right = some 2 ∧
    tree_seven.heap.length < 8 ∧
    (∃ t2 rep rd nd2, delete_node 8 tree_seven 5 = some (t2, false) ∧
      successor 8 tree_seven.heap 0 = some (some rep) ∧ load tree_seven.heap rep = some rd ∧
      (TreeNode.mk 5 none (some 1) (some 2)).value = 5 ∧ t2.root = tree_seven.root ∧
      Below t2.heap t2.root 0 ∧
      load t2.heap 0 = some nd2 ∧ nd2.parent = (TreeNode.mk 5 none (some 1) (some 2)).parent ∧
      nd2.left = (TreeNode.mk 5 none (some 1) (some 2)).left ∧
      nd2.value = rd.value ∧
      (∀ p, (TreeNode.mk 5 none (some 1) (some 2)).parent = some p →
        load t2.heap p = load tree_seven.heap p) ∧
      load t2.heap 1 = load tree_seven.heap 1 ∧
      Below tree_seven.heap (TreeNode.mk 5 none (some 1) (some 2)).right rep ∧
      (∀ y yd, Below tree_seven.heap (TreeNode.mk 5 none (some 1) (some 2)).right y →
        load tree_seven.heap y = some yd → rd.value ≤ yd.value) ∧
      5 < rd.value ∧ rep ≠ 0 ∧ load t2.heap rep = none ∧
      (∀ y, Below t2.heap t2.root y ↔ Below tree_seven.heap tree_seven.root y ∧ y ≠ rep) ∧
      live t2.heap + 1 = live tree_seven.heap ∧ Ordered t2) ∧
    (delete_node 8 tree_seven 5).map
      (fun r => (r.1.root, load r.1.heap 0, load r.1.heap 1, inorder 8 r.1.heap r.1.root))
      = some (some 0, some (TreeNode.mk 7 none (some 1) (some 2)),
          some (TreeNode.mk 3 (some 0) (some 3) (some 4)), some [1, 3, 4, 7, 8, 9]) :=
  ⟨ordered_tree_seven, by decide, rfl, rfl, rfl, by decide,
    two_children_value_replacement tree_seven 5 0 1 2 _ 8 ordered_tree_seven (by decide)
      rfl rfl rfl (by decide),
    by decide⟩

theorem tree_four_built : insert_all 5 initialize_tree [5, 3, 8, 1] = some tree_four := by
  decide

theorem ordered_tree_four : Ordered tree_four :=
  steps_ordered (steps_insert_all 5 _ _ _ tree_four_built) ordered_initialize_tree

/-- The tree after the subtree `cs` (a child of `tn`) took the place of `tn`. -/
theorem one_child_facts {t : Tree} {fs : Ctx} {l r cs : Shape} {tn c : Nat} {v : Int}
    (hm : Models t (plug fs (.node l tn v r))) (hcs : cs = l ∨ cs = r)
    (hroot : cs.root = some c) (t2 : Tree)
    (ht2 : t2 = Tree.mk ((spliceHeap t.heap cs fs).set tn none) (spliceRoot t cs fs)) :
    Models t2 (plug fs cs) ∧ load t2.heap tn = none ∧
    (∀ cd, load t.heap c = some cd → load t2.heap c = some { cd with parent := ctxParent fs }) ∧
    (fs = [] → t2.root = some c) ∧
    (∀ f fs2, fs = f :: fs2 → t2.root = t.root ∧
      load t.heap f.addr = some (TreeNode.mk f.val (ctxParent fs2) (f.leftPtr (some tn))
        (f.rightPtr (some tn))) ∧
      load t2.heap f.addr = some (TreeNode.mk f.val (ctxParent fs2) (f.leftPtr (some c))
        (f.rightPtr (some c)))) ∧
    (∀ a, a ≠ tn → a ≠ c → ctxParent fs ≠ some a → load t2.heap a = load t.heap a) ∧
    (∀ y, Below t2.heap (some c) y ↔ Below t.heap (some c) y) := by
  subst ht2
  have hm2 := splice_models hm hcs
  obtain ⟨hl1, -⟩ := splice_load_live hm hcs
  obtain ⟨hctx, hx, hl, hr⟩ := rep_plug.1 hm.2.1
  obtain ⟨hctx2, hcs2⟩ := rep_plug.1 hm2.2.1
  have hcr : Rep t.heap (some tn) cs := by rcases hcs with rfl | rfl <;> assumption
  refine ⟨hm2, ?_, ?_, ?_, ?_, ?_, ?_⟩
  · show load ((spliceHeap t.heap cs fs).set tn none) tn = none
    rw [load_set_of_load (hl1.trans hx), if_pos rfl]
  · intro cd hcd
    cases cs with
    | nil => cases hroot
    | node cl ca cv cr =>
      simp only [Shape.root, Option.some.injEq] at hroot
      subst hroot
      rw [hcr.1] at hcd
      simp only [Option.some.injEq] at hcd
      subst hcd
      exact hcs2.1
  · rintro rfl
    exact hroot
  · rintro f fs2 rfl
    refine ⟨rfl, hctx.1, ?_⟩
    have := hctx2.1
    rw [hroot] at this
    exact this
  · intro a ha1 ha2 ha3
    show load ((spliceHeap t.heap cs fs).set tn none) a = load t.heap a
    rw [load_set_of_load (hl1.trans hx), if_neg ha1]
    exact load_spliceHeap hctx hcr a ha3 (fun e => ha2 (by rw [hroot] at e; cases e; rfl))
  · intro y
    exact ⟨fun hb => hroot ▸ below_of_mem hcr (mem_of_below hb hcs2 hroot.symm),
      fun hb => hroot ▸ below_of_mem hcs2 (mem_of_below hb hcr hroot.symm)⟩

/-- C14. One-child deletion splices the child into place: in a BST-ordered,
parent-consistent tree, when `k` is held by a node `tn` whose only child is
`c`, `delete_node` returns a tree in which the parent pointer of `c` is the
former parent pointer of `tn` and the rest of the cell of `c` is unchanged; if
`tn` had no parent then `c` is the new root (and its parent pointer is
`NULL`); otherwise the root pointer is unchanged and the link of the parent
that pointed to `tn` (left or right) points to `c`, the parent's cell being
otherwise unchanged; `tn` is freed; every other cell is unchanged, so the
subtree of `c` keeps its nodes; the nodes of the result are the nodes of `t`
other than `tn`. -/
theorem one_child_splice (t : Tree) (k : Int) (tn c : Nat) (nd cd : TreeNode) (fuel : Nat)
    (ho : Ordered t) (hk : find_node fuel t k = some (some tn))
    (hl : load t.heap tn = some nd)
    (hone : (nd.left = some c ∧ nd.right = none) ∨ (nd.left = none ∧ nd.right = some c))
    (hc : load t.heap c = some cd) (hf : t.heap.length < fuel) :
    ∃ t2, delete_node fuel t k = some (t2, false) ∧
      load t2.heap c = some { cd with parent := nd.parent } ∧
      load t2.heap tn = none ∧
      (nd.parent = none → t.root = some tn ∧ t2.root = some c) ∧
      (∀ p, nd.parent = some p → t2.root = t.root ∧ ∃ pd, load t.heap p = some pd ∧
        ((pd.left = some tn ∧ load t2.heap p = some { pd with left := some c }) ∨
         (pd.right = some tn ∧ load t2.heap p = some { pd with right := some c }))) ∧
      (∀ a, a ≠ tn → a ≠ c → nd.parent ≠ some a → load t2.heap a = load t.heap a) ∧
      (∀ y, Below t2.heap (some c) y ↔ Below t.heap (some c) y) ∧
      (∀ y, Below t2.heap t2.root y ↔ Below t.heap t.root y ∧ y ≠ tn) ∧
      live t2.heap + 1 = live t.heap ∧ Ordered t2 := by
  obtain ⟨s, hm, hb⟩ := ho
  have hh := models_height_lt hm hf
  have hfz := find_node_zoom hm k hh
  rw [hk] at hfz
  simp only [Option.some.injEq] at hfz
  have hmz := models_zoom hm k
  rcases zoom_stop k s [] with hz | ⟨l, a, r, hz⟩
  · rw [hz] at hfz; cases hfz
  rw [hz] at hfz hmz
  simp only [Shape.root, Option.some.injEq] at hfz
  subst hfz
  obtain ⟨hdel, hmd⟩ := delete_node_eq hm k hh hz
  have hlive := live_deletedTree hmz
  obtain ⟨hctx, hx, hrl, hrr⟩ := rep_plug.1 hmz.2.1
  rw [hl] at hx
  simp only [Option.some.injEq] at hx
  subst hx
  have hord : Ordered (deletedTree t (zoom k s []).1 (.node l tn k r)) := by
    obtain ⟨s2, hm3, hb3⟩ := delete_node_step hm hdel
    exact ⟨s2, hm3, hb3 hb⟩
  have hnodup := hmz.2.2
  have hbt := fun y => models_below_iff hmz y
  generalize (zoom k s []).1 = fs at *
  simp only at hone
  have key : ∀ (cs : Shape), (cs = l ∨ cs = r) → cs.root = some c →
      deletedTree t fs (.node l tn k r)
        = Tree.mk ((spliceHeap t.heap cs fs).set tn none) (spliceRoot t cs fs) →
      List.Perm (plug fs (.node l tn k r)).addrs (tn :: (plug fs cs).addrs) →
      ∃ t2, delete_node fuel t k = some (t2, false) ∧
      load t2.heap c = some { cd with parent := ctxParent fs } ∧
      load t2.heap tn = none ∧
      (ctxParent fs = none → t.root = some tn ∧ t2.root = some c) ∧
      (∀ p, ctxParent fs = some p → t2.root = t.root ∧ ∃ pd, load t.heap p = some pd ∧
        ((pd.left = some tn ∧ load t2.heap p = some { pd with left := some c }) ∨
         (pd.right = some tn ∧ load t2.heap p = some { pd with right := some c }))) ∧
      (∀ a, a ≠ tn → a ≠ c → ctxParent fs ≠ some a → load t2.heap a = load t.heap a) ∧
      (∀ y, Below t2.heap (some c) y ↔ Below t.heap (some c) y) ∧
      (∀ y, Below t2.heap t2.root y ↔ Below t.heap t.root y ∧ y ≠ tn) ∧
      live t2.heap + 1 = live t.heap ∧ Ordered t2 := by
    intro cs hcs hroot hdt hperm
    obtain ⟨f1, f2, f3, f4, f5, f6, f7⟩ := one_child_facts hmz hcs hroot _ hdt
    refine ⟨_, hdel, f3 cd hc, f2, ?_, ?_, f6, f7, ?_, hlive, hord⟩
    · intro hp
      cases fs with
      | nil => exact ⟨hmz.1, f4 rfl⟩
      | cons f fs2 => cases hp
    · intro p hp
      cases fs with
      | nil => cases hp
      | cons f fs2 =>
        simp only [ctxParent, Option.some.injEq] at hp
        subst hp
        obtain ⟨g1, g2, g3⟩ := f5 f fs2 rfl
        refine ⟨g1, _, g2, ?_⟩
        cases f with
        | left a w sib => exact Or.inl ⟨rfl, g3⟩
        | right sib a w => exact Or.inr ⟨rfl, g3⟩
    · intro y
      rw [models_below_iff f1, hbt y, hperm.mem_iff]
      have hnd := hperm.nodup_iff.1 hnodup
      simp only [List.mem_cons]
      constructor
      · intro hy
        refine ⟨Or.inr hy, ?_⟩
        rintro rfl
        exact (List.nodup_cons.1 hnd).1 hy
      · rintro ⟨hy | hy, hne2⟩
        · exact absurd hy hne2
        · exact hy
  rcases hone with ⟨h1, h2⟩ | ⟨h1, h2⟩
  · cases r with
    | node rl ra rv rr => cases h2
    | nil =>
      cases l with
      | nil => cases h1
      | node ll la lv lr =>
        refine key (.node ll la lv lr) (Or.inl rfl) h1 rfl ?_
        refine (addrs_plug_perm _ _).trans
          (List.Perm.trans ?_ (List.Perm.cons tn (addrs_plug_perm _ _).symm))
        have hpm : List.Perm ((ll.addrs ++ la :: lr.addrs) ++ tn :: ctxAddrs fs)
            (tn :: ((ll.addrs ++ la :: lr.addrs) ++ ctxAddrs fs)) := List.perm_middle
        simpa [Shape.addrs] using hpm
  · cases l with
    | node ll la lv lr => cases h1
    | nil =>
      cases r with
      | nil => cases h2
      | node rl ra rv rr =>
        refine key (.node rl ra rv rr) (Or.inr rfl) h2 rfl ?_
        refine (addrs_plug_perm _ _).trans
          (List.Perm.trans ?_ (List.Perm.cons tn (addrs_plug_perm _ _).symm))
        simp only [Shape.addrs, List.nil_append, List.cons_append]
        exact List.Perm.refl _

theorem one_child_splice_witness :
    Ordered tree_four ∧ find_node 5 tree_four 3 = some (some 1) ∧
    load tree_four.heap 1 = some (TreeNode.mk 3 (some 0) (some 3) none) ∧
    (((TreeNode.mk 3 (some 0) (some 3) none).left = some 3 ∧
        (TreeNode.mk 3 (some 0) (some 3) none).right = none) ∨
      ((TreeNode.mk 3 (some 0) (some 3) none).left = none ∧
        (TreeNode.mk 3 (some 0) (some 3) none).right = some 3)) ∧
    load tree_four.heap 3 = some (TreeNode.mk 1 (some 1) none none) ∧
    tree_four.heap.length < 5 ∧
    (∃ t2, delete_node 5 tree_four 3 = some (t2, false) ∧
      load t2.heap 3 = some { TreeNode.mk 1 (some 1) none none with
        parent := (TreeNode.mk 3 (some 0) (some 3) none).parent } ∧
      load t2.heap 1 = none ∧
      ((TreeNode.mk 3 (some 0) (some 3) none).parent = none →
        tree_four.root = some 1 ∧ t2.root = some 3) ∧
      (∀ p, (TreeNode.mk 3 (some 0) (some 3) none).parent = some p →
        t2.root = tree_four.root ∧ ∃ pd, load tree_four.heap p = some pd ∧
        ((pd.left = some 1 ∧ load t2.heap p = some { pd with left := some 3 }) ∨
         (pd.right = some 1 ∧ load t2.heap p = some { pd with right := some 3 }))) ∧
      (∀ a, a ≠ 1 → a ≠ 3 → (TreeNode.mk 3 (some 0) (some 3) none).parent ≠ some a →
        load t2.heap a = load tree_four.heap a) ∧
      (∀ y, Below t2.heap (some 3) y ↔ Below tree_four.heap (some 3) y) ∧
      (∀ y, Below t2.heap t2.root y ↔ Below tree_four.heap tree_four.root y ∧ y ≠ 1) ∧
      live t2.heap + 1 = live tree_four.heap ∧ Ordered t2) ∧
    (delete_node 5 tree_four 3).map
      (fun r => (r.1.root, load r.1.heap 0, load r.1.heap 3, inorder 5 r.1.heap r.1.root,
        find_node 5 r.1 1))
      = some (some 0, some (TreeNode.mk 5 none (some 3) (some 2)),
          some (TreeNode.mk 1 (some 0) none none), some [1, 5, 8], some (some 3)) :=
  ⟨ordered_tree_four, by decide, rfl, Or.inl ⟨rfl, rfl⟩, rfl, by decide,
    one_child_splice tree_four 3 1 3 _ _ 5 ordered_tree_four (by decide) rfl
      (Or.inl ⟨rfl, rfl⟩) rfl (by decide),
    by rfl⟩

theorem sorted_next {A B : List Int} {v w : Int}
    (h : (A ++ v :: w :: B).Pairwise (· < ·)) :
    v < w ∧ ∀ z ∈ A ++ v :: w :: B, v < z → w ≤ z := by
  obtain ⟨-, h2, h3⟩ := List.pairwise_append.1 h
  simp only [List.pairwise_cons, List.mem_cons] at h2
  refine ⟨h2.1 w (Or.inl rfl), fun z hz hvz => ?_⟩
  simp only [List.mem_append, List.mem_cons] at hz
  rcases hz with hz | rfl | rfl | hz
  · exact absurd (h3 z hz v (List.mem_cons_self _ _)) (not_lt.2 (le_of_lt hvz))
  · exact absurd hvz (lt_irrefl _)
  · exact le_refl _
  · exact le_of_lt (h2.2.1 z hz)

theorem sorted_last {A : List Int} {v : Int} (h : (A ++ [v]).Pairwise (· < ·)) :
    ∀ z ∈ A ++ [v], z ≤ v := by
  obtain ⟨-, -, h3⟩ := List.pairwise_append.1 h
  intro z hz
  simp only [List.mem_append, List.mem_singleton] at hz
  rcases hz with hz | rfl
  · exact le_of_lt (h3 z hz v (List.mem_singleton_self _))
  · exact le_refl _

theorem length_le_height_plug : ∀ (fs : Ctx) (x : Shape),
    fs.length + x.height ≤ (plug fs x).height
  | [], _ => by simp [plug]
  | f :: fs, x => by
    have h1 := length_le_height_plug fs (f.fill x)
    have h2 : x.height + 1 ≤ (f.fill x).height := by
      cases f <;> simp only [Frame.fill, Shape.height] <;> omega
    simp only [plug, List.length_cons]
    omega

theorem below_append_right {h : Heap} {q : Option Nat} {p x : Nat} {pd : TreeNode}
    (hb : Below h q p) (hp : load h p = some pd) (hx : Below h pd.right x) : Below h q x := by
  induction hb with
  | here hl =>
    exact Below.right hp hx
  | left hl _ ih => exact Below.left hl (ih hp)
  | right hl _ ih => exact Below.right hl (ih hp)

theorem upRight_below {h : Heap} {x c : Nat} (hu : UpRight h x c) : Below h (some c) x := by
  induction hu with
  | stop hl => exact Below.here hl
  | step hl hp hpl hpr _ ih =>
    exact below_append_right ih hpl (hpr ▸ Below.here hl)

/-- The upward walk of `successor` from a node `x` that sits in the hole of
the context `fs`. -/
theorem successor_loop_ctx {h : Heap} : ∀ (fs : Ctx) (x : Nat) (xd : TreeNode) (fuel : Nat),
    load h x = some xd → xd.parent = ctxParent fs → RepCtx h fs (some x) →
    (x :: ctxAddrs fs).Nodup → fs.length < fuel →
    ∃ res c cd, successor_loop fuel h x (ctxParent fs) = some res ∧ UpRight h x c ∧
      load h c = some cd ∧ cd.parent = res ∧
      (res = none → ctxAfter fs = [] ∧
        ∀ X : Shape, X.root = some x → (plug fs X).root = some c) ∧
      (∀ y, res = some y → ∃ yd rest, load h y = some yd ∧ yd.left = some c ∧
        ctxAfter fs = yd.value :: rest ∧ y ∈ ctxAddrs fs)
  | [], x, xd, fuel + 1, hl, hp, _, _, _ => by
    refine ⟨none, x, xd, rfl, UpRight.stop hl, hl, hp, fun _ => ⟨rfl, fun X hX => hX⟩, ?_⟩
    intro y hy; cases hy
  | .left a v r :: fs, x, xd, fuel + 1, hl, hp, hc, hn, _ => by
    have hxr : r.root ≠ some x := by
      intro e
      have := root_mem e
      simp only [ctxAddrs, Frame.addr, Frame.sib, List.nodup_cons, List.mem_cons,
        List.mem_append, not_or] at hn
      exact hn.1.2.1 this
    have hla : load h a = some (TreeNode.mk v (ctxParent fs) (some x) r.root) := hc.1
    refine ⟨some a, x, xd, ?_, UpRight.stop hl, hl, hp, fun e => (by cases e), ?_⟩
    · simp only [ctxParent, Frame.addr, successor_loop, hla]
      rw [if_neg hxr]
    · intro y hy
      simp only [Option.some.injEq] at hy
      subst hy
      exact ⟨_, _, hla, rfl, rfl, by simp [ctxAddrs, Frame.addr]⟩
  | .right l a v :: fs, x, xd, fuel + 1, hl, hp, hc, hn, hf => by
    have hn2 : (a :: ctxAddrs fs).Nodup := by
      simp only [ctxAddrs, Frame.addr, Frame.sib, List.nodup_cons, List.mem_cons,
        List.mem_append, not_or, List.nodup_append] at hn ⊢
      exact ⟨hn.2.1.2, hn.2.2.2.1⟩
    have hla : load h a = some (TreeNode.mk v (ctxParent fs) l.root (some x)) := hc.1
    obtain ⟨res, c, cd, h1, h2, h3, h4, h5, h6⟩ :=
      successor_loop_ctx fs a _ fuel hla rfl hc.2.2 hn2
        (by simp only [List.length_cons] at hf; omega)
    refine ⟨res, c, cd, ?_, UpRight.step hl hp hla rfl h2, h3, h4, fun e => ?_, ?_⟩
    · simp only [ctxParent, Frame.addr, successor_loop, hla, if_true]
      exact h1
    · obtain ⟨g1, g2⟩ := h5 e
      refine ⟨by simpa [ctxAfter] using g1, fun X hX => ?_⟩
      exact g2 (.node l a v X) rfl
    · intro y hy
      obtain ⟨yd, rest, g1, g2, g3, g4⟩ := h6 y hy
      exact ⟨yd, rest, g1, g2, by simpa [ctxAfter] using g3,
        by simp [ctxAddrs, g4]⟩

/-- C15. The function `successor` returns the next-larger key, for every node: in
a BST-ordered, parent-consistent tree, for a node `x` of the tree,
`successor` returns; a returned node is a node of the tree whose value is the
smallest value of the tree strictly greater than the value of `x`; the result
is `NULL` exactly when no node of the tree holds a larger value than `x`.
When `x` has a right child the result is what `tree_minimum` returns on that
child (the end of the chain of left links). When it has none, the result is
what the upward walk returns: the walk climbs from `x` through nodes that are
right children to a node `c`, and the result is the parent of `c`; if there
is one, `c` is its left child, so `x` lies in its left subtree, and otherwise
`c` is the root. -/
theorem successor_next_larger (t : Tree) (x : Nat) (xd : TreeNode) (fuel : Nat)
    (ho : Ordered t) (hx : Below t.heap t.root x) (hl : load t.heap x = some xd)
    (hf : t.heap.length < fuel) :
    ∃ res, successor fuel t.heap x = some res ∧
      (∀ y, res = some y → ∃ yd, Below t.heap t.root y ∧ load t.heap y = some yd ∧
        xd.value < yd.value ∧
        ∀ z zd, Below t.heap t.root z → load t.heap z = some zd → xd.value < zd.value →
          yd.value ≤ zd.value) ∧
      (res = none ↔
        ∀ z zd, Below t.heap t.root z → load t.heap z = some zd → zd.value ≤ xd.value) ∧
      (∀ rc, xd.right = some rc → ∃ m, tree_minimum fuel t.heap rc = some m ∧ res = some m ∧
        LeftChain t.heap rc m) ∧
      (xd.right = none → successor_loop fuel t.heap x xd.parent = some res ∧
        ∃ c cd, UpRight t.heap x c ∧ load t.heap c = some cd ∧ cd.parent = res ∧
          (res = none → t.root = some c) ∧
          (∀ y, res = some y → ∃ yd, load t.heap y = some yd ∧ yd.left = some c ∧
            Below t.heap yd.left x)) := by
  obtain ⟨s, hm, hb⟩ := ho
  have hh := models_height_lt hm hf
  obtain ⟨fs, l, v, r, rfl⟩ := plug_of_mem ((models_below_iff hm x).1 hx)
  obtain ⟨hctx, h1, hrl, hrr⟩ := rep_plug.1 hm.2.1
  rw [hl] at h1
  simp only [Option.some.injEq] at h1
  subst h1
  have hsorted := (bst_iff_sorted _).1 hb
  rw [keys_plug] at hsorted
  have hkey : ∀ z zd, Below t.heap t.root z → load t.heap z = some zd →
      zd.value ∈ ctxBefore fs ++ (Shape.node l x v r).keys ++ ctxAfter fs := by
    intro z zd hz hzl
    obtain ⟨nd, e1, e2⟩ := key_of_addr hm.2.1 ((models_below_iff hm z).1 hz)
    rw [hzl] at e1
    simp only [Option.some.injEq] at e1
    subst e1
    rw [keys_plug] at e2
    exact e2
  have hnd := models_ctx_nodup hm
  cases r with
  | node rl ra rv rr =>
    have hsub : (Shape.node l x v (.node rl ra rv rr)).height < fuel :=
      lt_of_le_of_lt (height_plug_le fs _) hh
    have hle : (Shape.node rl ra rv rr).height ≤ fuel := by
      simp only [Shape.height] at hsub ⊢; omega
    obtain ⟨m, md, rest, g1, g2, g3, g4, g5, g6⟩ :=
      tree_minimum_repLinks rl ra rv rr fuel (rep_repLinks hrr) hle
    have hsucc : successor fuel t.heap x = some (some m) := by
      unfold successor
      rw [hl]
      simp only [Shape.root, g1, Option.map_some']
    have hms : m ∈ (plug fs (Shape.node l x v (.node rl ra rv rr))).addrs := by
      refine (addrs_plug_perm fs _).symm.subset (List.mem_append_left _ ?_)
      rw [Shape.addrs]
      exact List.mem_append_right _ (List.mem_cons_of_mem _ g3)
    have hs2 : ((ctxBefore fs ++ l.keys) ++ v :: md.value :: (rest ++ ctxAfter fs)).Pairwise
        (· < ·) := by
      have e : (ctxBefore fs ++ l.keys) ++ v :: md.value :: (rest ++ ctxAfter fs)
          = ctxBefore fs ++ (Shape.node l x v (.node rl ra rv rr)).keys ++ ctxAfter fs := by
        rw [Shape.keys, g6]; simp
      rw [e]; exact hsorted
    have hmem : ∀ z zd, Below t.heap t.root z → load t.heap z = some zd →
        zd.value ∈ (ctxBefore fs ++ l.keys) ++ v :: md.value :: (rest ++ ctxAfter fs) := by
      intro z zd hz hzl
      have := hkey z zd hz hzl
      rw [Shape.keys, g6] at this
      simpa using this
    obtain ⟨n1, n2⟩ := sorted_next hs2
    refine ⟨some m, hsucc, ?_, ?_, ?_, fun e => (by cases e)⟩
    · intro y hy
      simp only [Option.some.injEq] at hy
      subst hy
      exact ⟨md, (models_below_iff hm _).2 hms, g4, n1,
        fun z zd hz hzl hlt => n2 _ (hmem z zd hz hzl) hlt⟩
    · constructor
      · intro e; cases e
      · intro hall
        exact absurd (hall m md ((models_below_iff hm _).2 hms) g4) (not_le.2 n1)
    · intro rc hrc
      simp only [Shape.root, Option.some.injEq] at hrc
      subst hrc
      exact ⟨m, g1, rfl, g2⟩
  | nil =>
    have hlen : fs.length < fuel := by
      have := length_le_height_plug fs (Shape.node l x v .nil)
      omega
    have hn2 : (x :: ctxAddrs fs).Nodup := by
      simp only [Shape.addrs, List.append_nil] at hnd
      rw [List.append_assoc] at hnd
      exact (List.nodup_append.1 hnd).2.1
    obtain ⟨res, c, cd, g1, g2, g3, g4, g5, g6⟩ :=
      successor_loop_ctx fs x _ fuel hl rfl hctx hn2 hlen
    have hsucc : successor fuel t.heap x = some res := by
      unfold successor
      rw [hl]
      exact g1
    have hmem : ∀ z zd, Below t.heap t.root z → load t.heap z = some zd →
        zd.value ∈ (ctxBefore fs ++ l.keys) ++ v :: ctxAfter fs := by
      intro z zd hz hzl
      have := hkey z zd hz hzl
      rw [Shape.keys] at this
      simpa [Shape.keys] using this
    have hs2 : ((ctxBefore fs ++ l.keys) ++ v :: ctxAfter fs).Pairwise (· < ·) := by
      have e : (ctxBefore fs ++ l.keys) ++ v :: ctxAfter fs
          = ctxBefore fs ++ (Shape.node l x v .nil).keys ++ ctxAfter fs := by
        simp [Shape.keys]
      rw [e]; exact hsorted
    have hsome : ∀ y, res = some y → ∃ yd, Below t.heap t.root y ∧ load t.heap y = some yd ∧
        v < yd.value ∧
        ∀ z zd, Below t.heap t.root z → load t.heap z = some zd → v < zd.value →
          yd.value ≤ zd.value := by
      intro y hy
      obtain ⟨yd, rest, k1, k2, k3, k4⟩ := g6 y hy
      rw [k3] at hs2 hmem
      obtain ⟨n1, n2⟩ := sorted_next hs2
      refine ⟨yd, ?_, k1, n1, fun z zd hz hzl hlt => n2 _ (hmem z zd hz hzl) hlt⟩
      exact (models_below_iff hm y).2
        ((addrs_plug_perm fs _).symm.subset (List.mem_append_right _ k4))
    refine ⟨res, hsucc, hsome, ?_, fun rc hrc => (by cases hrc), fun _ => ⟨g1, c, cd, g2, g3, g4,
      fun e => ?_, fun y hy => ?_⟩⟩
    · constructor
      · intro e z zd hz hzl
        rw [(g5 e).1] at hs2 hmem
        exact sorted_last hs2 _ (hmem z zd hz hzl)
      · intro hall
        cases hres : res with
        | none => rfl
        | some y =>
          obtain ⟨yd, k1, k2, k3, -⟩ := hsome y hres
          exact absurd (hall y yd k1 k2) (not_le.2 k3)
    · rw [hm.1]
      exact (g5 e).2 _ rfl
    · obtain ⟨yd, rest, k1, k2, k3, k4⟩ := g6 y hy
      refine ⟨yd, k1, k2, ?_⟩
      rw [k2]
      exact upRight_below g2

theorem below_tree_seven_four : Below tree_seven.heap tree_seven.root 4 :=
  Below.left (show load tree_seven.heap 0 = some (TreeNode.mk 5 none (some 1) (some 2)) from rfl)
    (Below.right
      (show load tree_seven.heap 1 = some (TreeNode.mk 3 (some 0) (some 3) (some 4)) from rfl)
      (Below.here (show load tree_seven.heap 4 = some (TreeNode.mk 4 (some 1) none none) from rfl)))

theorem successor_next_larger_witness :
    Ordered tree_seven ∧ Below tree_seven.heap tree_seven.root 4 ∧
    load tree_seven.heap 4 = some (TreeNode.mk 4 (some 1) none none) ∧
    tree_seven.heap.length < 8 ∧
    (∃ res, successor 8 tree_seven.heap 4 = some res ∧
      (∀ y, res = some y → ∃ yd, Below tree_seven.heap tree_seven.root y ∧
        load tree_seven.heap y = some yd ∧
        (TreeNode.mk 4 (some 1) none none).value < yd.value ∧
        ∀ z zd, Below tree_seven.heap tree_seven.root z → load tree_seven.heap z = some zd →
          (TreeNode.mk 4 (some 1) none none).value < zd.value → yd.value ≤ zd.value) ∧
      (res = none ↔
        ∀ z zd, Below tree_seven.heap tree_seven.root z → load tree_seven.heap z = some zd →
          zd.value ≤ (TreeNode.mk 4 (some 1) none none).value) ∧
      (∀ rc, (TreeNode.mk 4 (some 1) none none).right = some rc →
        ∃ m, tree_minimum 8 tree_seven.heap rc = some m ∧ res = some m ∧
          LeftChain tree_seven.heap rc m) ∧
      ((TreeNode.mk 4 (some 1) none none).right = none →
        successor_loop 8 tree_seven.heap 4 (TreeNode.mk 4 (some 1) none none).parent
            = some res ∧
        ∃ c cd, UpRight tree_seven.heap 4 c ∧ load tree_seven.heap c = some cd ∧
          cd.parent = res ∧ (res = none → tree_seven.root = some c) ∧
          (∀ y, res = some y → ∃ yd, load tree_seven.heap y = some yd ∧ yd.left = some c ∧
            Below tree_seven.heap yd.left 4))) ∧
    successor 8 tree_seven.heap 4 = some (some 0) ∧
    successor 8 tree_seven.heap 0 = some (some 5) ∧
    successor 8 tree_seven.heap 6 = some none :=
  ⟨ordered_tree_seven, below_tree_seven_four, rfl, by decide,
    successor_next_larger tree_seven 4 _ 8 ordered_tree_seven below_tree_seven_four rfl
      (by decide),
    by decide, by decide, by decide⟩

theorem zoom_plug_onPath (k : Int) : ∀ (fs : Ctx) (x : Shape) (fs0 : Ctx), OnPath k fs →
    zoom k (plug fs x) fs0 = zoom k x (fs ++ fs0)
  | [], _, _, _ => rfl
  | .left a v r :: fs, x, fs0, hp => by
    rw [plug, zoom_plug_onPath k fs _ fs0 hp.2]
    exact zoom_lt hp.1 x a r _
  | .right l a v :: fs, x, fs0, hp => by
    rw [plug, zoom_plug_onPath k fs _ fs0 hp.2]
    exact zoom_gt hp.1 l a x _

/-- Insert-then-find on a parent-consistent tree. -/
theorem insert_find_models {u : Tree} {s : Shape} (hm : Models u s) (k : Int) {fuel : Nat}
    (hf : u.heap.length + 1 < fuel) :
    ∃ u2 s2 a nd, insert_node fuel u k = some u2 ∧ Models u2 s2 ∧
      find_node fuel u2 k = some (some a) ∧ a ∈ s2.addrs ∧
      load u2.heap a = some nd ∧ nd.value = k ∧
      (find_node fuel u k = some none →
        a = u.heap.length ∧ nd.left = none ∧ nd.right = none) ∧
      (∀ a0, find_node fuel u k = some (some a0) → u2 = u ∧ a = a0) ∧
      (s.BST → ∀ j b, find_node fuel u j = some (some b) →
        find_node fuel u2 j = some (some b)) := by
  have hh : s.height < fuel := models_height_lt hm (by omega)
  have hfind := find_node_zoom hm k hh
  rcases zoom_stop k s [] with hz | ⟨l, a, r, hz⟩
  · have hmz := models_zoom hm k
    rw [hz] at hmz hfind
    have heq := insert_node_eq hm k hh hz
    have hm2 := insert_models k hmz
    have hpath := zoom_onPath k s [] trivial
    have hkeys := zoom_keys k s
    rw [hz] at hkeys
    have hbi := fun hb => inserted_bst hb k u.heap.length hz
    generalize (zoom k s []).1 = fs at *
    have hh2 : (plug fs (.node .nil u.heap.length k .nil)).height < fuel := by
      have h1 := height_le_keys (plug fs (.node .nil u.heap.length k .nil))
      have h2 := models_keys_lt hm (Nat.lt_succ_self u.heap.length)
      rw [inserted_keys] at h1
      rw [hkeys] at h2
      simp only [Shape.keys, List.append_nil, List.length_append, List.length_cons] at h1 h2
      omega
    have hf2 := find_node_zoom hm2 k hh2
    have hzp : zoom k (plug fs (.node .nil u.heap.length k .nil)) []
        = (fs, .node .nil u.heap.length k .nil) := by
      rw [zoom_plug_onPath k fs _ [] hpath, zoom_eq, List.append_nil]
    rw [hzp] at hf2
    obtain ⟨hctx2, hleaf, -, -⟩ := rep_plug.1 hm2.2.1
    refine ⟨_, _, u.heap.length, _, heq, hm2, hf2, mem_addrs_plug_node _ _ _ _ _, hleaf, rfl,
      fun _ => ⟨rfl, rfl, rfl⟩, fun a0 e => ?_, fun hb j b hj => ?_⟩
    · rw [hfind] at e; cases e
    · have hb2 := hbi hb
      obtain ⟨hbm, nd, hlb, hvb⟩ := find_node_mem hmz (models_height_lt hmz (by omega)) hj
      have hbc : b ∈ ctxAddrs fs := by
        have := (addrs_plug_perm fs .nil).subset hbm
        simpa [Shape.addrs] using this
      have hbm2 : b ∈ (plug fs (.node .nil u.heap.length k .nil)).addrs :=
        (addrs_plug_perm fs _).symm.subset (List.mem_append_right _ hbc)
      have hne : b ≠ u.heap.length := Nat.ne_of_lt (load_lt hlb)
      obtain ⟨hctx, -⟩ := rep_plug.1 hmz.2.1
      have hval : ∃ nd2, load (insertedHeap u.heap k fs) b = some nd2 ∧ nd2.value = j := by
        cases fs with
        | nil => simp [ctxAddrs] at hbc
        | cons f fs2 =>
          rw [load_insertedHeap_cons u.heap k f fs2 b (load_lt hctx.1)]
          by_cases hbf : b = f.addr
          · rw [if_pos hbf]
            subst hbf
            rw [hctx.1] at hlb
            simp only [Option.some.injEq] at hlb
            subst hlb
            exact ⟨_, rfl, hvb⟩
          · rw [if_neg hbf, if_neg hne]
            exact ⟨nd, hlb, hvb⟩
      obtain ⟨nd2, hl2, hv2⟩ := hval
      obtain ⟨nd3, e5, e6⟩ := key_of_addr hm2.2.1 hbm2
      have e7 : load (insertedHeap u.heap k fs) b = some nd3 := e5
      rw [hl2] at e7
      simp only [Option.some.injEq] at e7
      subst e7
      rw [hv2] at e6
      obtain ⟨a, nda, e1, e2, e3, e4⟩ := (find_node_spec hm2 hb2 j hh2).1 e6
      have hab : a = b := addr_unique hm2.2.1 hb2 e2 hbm2 e3 e5 (e4.trans hv2.symm)
      rw [e1, hab]
  · rw [hz] at hfind
    obtain ⟨ha, nd, hl, hv⟩ := find_node_mem hm hh hfind
    have hins := insert_node_found hm k hh hz
    refine ⟨u, s, a, nd, hins, hm, hfind, ha, hl, hv, fun e => ?_, fun a0 e => ?_,
      fun _ j b hj => hj⟩
    · rw [hfind] at e; cases e
    · rw [hfind] at e
      simp only [Shape.root, Option.some.injEq] at e
      exact ⟨rfl, e⟩

theorem repLinks_sim {h h2 : Heap} (e : SameLinks h h2) : ∀ {s : Shape},
    RepLinks h s → RepLinks h2 s
  | .nil, _ => trivial
  | .node _ _ _ _, ⟨⟨_, h1, hv, hl1, hr1⟩, hl, hr⟩ => by
    obtain ⟨nd2, e1, e2, e3, e4⟩ := sameLinks_some e h1
    exact ⟨⟨nd2, e1, e2.trans hv, e3.trans hl1, e4.trans hr1⟩, repLinks_sim e hl,
      repLinks_sim e hr⟩

/-- Insert-then-find on a tree whose parent pointers are not constrained. -/
theorem insert_find_linkTree {t : Tree} {s : Shape} (hl : LinkTree t s) (k : Int) {fuel : Nat}
    (hf : t.heap.length + 1 < fuel) :
    ∃ t2 s2 a nd, insert_node fuel t k = some t2 ∧ LinkTree t2 s2 ∧
      find_node fuel t2 k = some (some a) ∧ Below t2.heap t2.root a ∧
      load t2.heap a = some nd ∧ nd.value = k ∧
      (find_node fuel t k = some none →
        a = t.heap.length ∧ nd.left = none ∧ nd.right = none) ∧
      (∀ a0, find_node fuel t k = some (some a0) → t2 = t ∧ a = a0) ∧
      (s.BST → ∀ j b, find_node fuel t j = some (some b) →
        find_node fuel t2 j = some (some b)) := by
  obtain ⟨u, hm, hs, hr⟩ := linkTree_consistent hl
  have hfu : u.heap.length + 1 < fuel := hs.1 ▸ hf
  obtain ⟨u2, s2, a, nd, g1, g2, g3, g4, g5, g6, g7, g8, g9⟩ := insert_find_models hm k hfu
  obtain ⟨t2, k1, k2, k3⟩ := insert_node_sim hs hr fuel k g1
  have hfind : ∀ j, find_node fuel t j = find_node fuel u j := by
    intro j; unfold find_node; rw [hr]; exact find_loop_sim hs j fuel _
  have hfind2 : ∀ j, find_node fuel t2 j = find_node fuel u2 j := by
    intro j; unfold find_node; rw [k3]; exact find_loop_sim k2 j fuel _
  obtain ⟨nd2, e1, e2, e3, e4⟩ := sameLinks_some (sameLinks_symm k2) g5
  refine ⟨t2, s2, a, nd2, k1, ⟨k3.trans g2.1, repLinks_sim (sameLinks_symm k2)
    (rep_repLinks g2.2.1), g2.2.2⟩, (hfind2 k).trans g3, ?_, e1, e2.trans g6, fun e => ?_,
    fun a0 e => ?_, fun hb j b hj => ?_⟩
  · rw [k3]
    exact below_sim (sameLinks_symm k2) ((models_below_iff g2 a).2 g4)
  · obtain ⟨f1, f2, f3⟩ := g7 ((hfind k).symm.trans e)
    exact ⟨f1.trans hs.1.symm, e3.trans f2, e4.trans f3⟩
  · have h1 := insert_found_eq e
    rw [k1] at h1
    simp only [Option.some.injEq] at h1
    exact ⟨h1, (g8 a0 ((hfind k).symm.trans e)).2⟩
  · rw [hfind2 j]
    exact g9 hb j b ((hfind j).symm.trans hj)

theorem linkTree_tree_unordered :
    LinkTree tree_unordered (.node (.node .nil 1 9 .nil) 0 5 .nil) :=
  ⟨rfl, ⟨⟨_, rfl, rfl, rfl, rfl⟩, ⟨⟨_, rfl, rfl, rfl, rfl⟩, trivial, trivial⟩, trivial⟩,
    by decide⟩

/-- C19. Insert-then-find: for every tree (its child links form a binary tree;
no order of the values and no parent pointers are assumed) and every key `k`,
`insert_node` returns a tree in which `find_node` for `k` returns a node of
the tree that holds `k`. When `find_node` did not find `k` before, the node
returned is the cell allocated by the insertion, a leaf; when it did, the tree
is unchanged and the same node is returned. When the tree is BST-ordered,
every key that `find_node` found before the insertion is found afterwards, at
the same node. -/
theorem insert_then_find (t : Tree) (k : Int) (fuel : Nat) (hw : ∃ s, LinkTree t s)
    (hf : t.heap.length + 1 < fuel) :
    ∃ t2 a nd, insert_node fuel t k = some t2 ∧ find_node fuel t2 k = some (some a) ∧
      Below t2.heap t2.root a ∧ load t2.heap a = some nd ∧ nd.value = k ∧
      (find_node fuel t k = some none →
        a = t.heap.length ∧ load t.heap a = none ∧ nd.left = none ∧ nd.right = none) ∧
      (∀ a0, find_node fuel t k = some (some a0) → t2 = t ∧ a = a0) ∧
      (BSTOrdered t → ∀ j b, find_node fuel t j = some (some b) →
        find_node fuel t2 j = some (some b)) ∧
      (∃ s2, LinkTree t2 s2) := by
  obtain ⟨s, hl⟩ := hw
  obtain ⟨t2, s2, a, nd, g1, g2, g3, g4, g5, g6, g7, g8, -⟩ := insert_find_linkTree hl k hf
  refine ⟨t2, a, nd, g1, g3, g4, g5, g6, fun e => ?_, g8, fun ho j b hj => ?_, ⟨s2, g2⟩⟩
  · obtain ⟨f1, f2, f3⟩ := g7 e
    exact ⟨f1, f1 ▸ load_length t.heap, f2, f3⟩
  · obtain ⟨s3, hl3, hb3⟩ := ho
    obtain ⟨t3, -, -, -, k1, -, -, -, -, -, -, -, k9⟩ := insert_find_linkTree hl3 k hf
    rw [g1] at k1
    simp only [Option.some.injEq] at k1
    subst k1
    exact k9 hb3 j b hj

theorem insert_then_find_witness :
    (∃ s, LinkTree tree_unordered s) ∧ tree_unordered.heap.length + 1 < 4 ∧
    (∃ t2 a nd, insert_node 4 tree_unordered 7 = some t2 ∧
      find_node 4 t2 7 = some (some a) ∧
      Below t2.heap t2.root a ∧ load t2.heap a = some nd ∧ nd.value = 7 ∧
      (find_node 4 tree_unordered 7 = some none →
        a = tree_unordered.heap.length ∧ load tree_unordered.heap a = none ∧
        nd.left = none ∧ nd.right = none) ∧
      (∀ a0, find_node 4 tree_unordered 7 = some (some a0) → t2 = tree_unordered ∧ a = a0) ∧
      (BSTOrdered tree_unordered → ∀ j b, find_node 4 tree_unordered j = some (some b) →
        find_node 4 t2 j = some (some b)) ∧
      (∃ s2, LinkTree t2 s2)) ∧
    find_node 4 tree_unordered 7 = some none ∧
    find_node 4 tree_unordered 9 = some none ∧
    (insert_node 4 tree_unordered 7).bind (fun t2 => find_node 4 t2 7) = some (some 2) ∧
    (insert_node 8 tree_seven 6).bind (fun t2 => find_node 8 t2 6) = some (some 7) ∧
    (insert_node 8 tree_seven 6).bind (fun t2 => find_node 8 t2 4) = find_node 8 tree_seven 4 :=
  ⟨⟨_, linkTree_tree_unordered⟩, by decide,
    insert_then_find tree_unordered 7 4 ⟨_, linkTree_tree_unordered⟩ (by decide),
    by decide, by decide, by decide, by decide, by decide⟩

theorem load_append_none (h : Heap) (a : Nat) : load (h ++ [none]) a = load h a := by
  simp only [load]
  rcases Nat.lt_or_ge a h.length with hlt | hge
  · rw [List.getElem?_append_left hlt]
  · rcases Nat.eq_or_lt_of_le hge with e | hgt
    · subst e; simp
    · rw [List.getElem?_eq_none (by simp; omega), List.getElem?_eq_none (by omega)]

theorem inorder_congr {h h2 : Heap} (e : ∀ a, load h2 a = load h a) :
    ∀ (fuel : Nat) (p : Option Nat), inorder fuel h2 p = inorder fuel h p
  | 0, _ => rfl
  | _ + 1, none => rfl
  | fuel + 1, some a => by
    simp only [inorder, e a]
    cases load h a with
    | none => rfl
    | some nd => simp only [inorder_congr e fuel]

theorem set_set_restore (h : Heap) (x y : Option TreeNode) :
    ((h ++ [x]).set h.length y) = h ++ [y] := by
  apply List.ext_getElem?
  intro i
  rw [List.getElem?_set]
  rcases Nat.lt_trichotomy i h.length with hlt | rfl | hgt
  · rw [if_neg (by omega), List.getElem?_append_left hlt, List.getElem?_append_left hlt]
  · simp
  · rw [if_neg (by omega), List.getElem?_eq_none (by simp; omega),
      List.getElem?_eq_none (by simp; omega)]

theorem set_load_self {h : Heap} {a : Nat} {nd : TreeNode} (e : load h a = some nd) :
    h.set a (some nd) = h := by
  obtain ⟨hlt, hg⟩ := load_getElem e
  apply List.ext_getElem?
  intro i
  rw [List.getElem?_set]
  by_cases hi : a = i
  · subst hi
    rw [if_pos rfl, if_pos hlt, List.getElem?_eq_getElem hlt, hg]
  · rw [if_neg hi]

/-- The heap after a key was inserted below the context `fs` and the new leaf
was deleted again. -/
theorem insert_delete_heap {h : Heap} {fs : Ctx} (k : Int) (hc : RepCtx h fs none) :
    (spliceHeap (insertedHeap h k fs) .nil fs).set h.length none = h ++ [none] := by
  cases fs with
  | nil =>
    simp only [insertedHeap, spliceHeap, reparent]
    rw [set_set_restore, set_set_restore]
  | cons f fs2 =>
    have hlt : f.addr < h.length := load_lt hc.1
    simp only [insertedHeap, spliceHeap, reparent, Shape.root]
    rw [List.set_set, set_set_restore, List.set_append_left _ _ hlt, set_load_self hc.1,
      set_set_restore]

/-- C20. Deleting a freshly inserted key restores the tree: for a
parent-consistent tree `t` and a key `k` that `find_node` does not find,
`insert_node` followed by `delete_node` of `k` returns a tree with the root
pointer of `t` whose heap is the heap of `t` followed by one freed cell (the
cell allocated for `k`). So every address holds what it held in `t`
(value, parent, left and right link), the tree has the same shape, the same
nodes and the same in-order sequence, and it is empty again if `t` was
empty. -/
theorem delete_fresh_insert_restores (t : Tree) (k : Int) (fuel : Nat) (hw : WellFormed t)
    (hk : find_node fuel t k = some none) (hf : t.heap.length + 1 < fuel) :
    ∃ t1 t2, insert_node fuel t k = some t1 ∧ delete_node fuel t1 k = some (t2, false) ∧
      t1 ≠ t ∧ t2.root = t.root ∧ t2.heap = t.heap ++ [none] ∧
      (∀ a, load t2.heap a = load t.heap a) ∧
      (∀ s, Models t s → Models t2 s) ∧
      (∀ y, Below t2.heap t2.root y ↔ Below t.heap t.root y) ∧
      (∀ f, inorder f t2.heap t2.root = inorder f t.heap t.root) ∧
      live t2.heap = live t.heap ∧
      (t.root = none → t2.root = none) := by
  obtain ⟨s, hm⟩ := hw
  have hh : s.height < fuel := models_height_lt hm (by omega)
  have hfind := find_node_zoom hm k hh
  rw [hk] at hfind
  have hz : (zoom k s []).2 = .nil := by
    cases hzz : (zoom k s []).2 with
    | nil => rfl
    | node l a v r => rw [hzz] at hfind; cases hfind
  have hmz := models_zoom hm k
  rw [hz] at hmz
  have heq := insert_node_eq hm k hh hz
  have hm1 := insert_models k hmz
  have hpath := zoom_onPath k s [] trivial
  have hkeys := zoom_keys k s
  rw [hz] at hkeys
  generalize (zoom k s []).1 = fs at *
  have hh1 : (plug fs (.node .nil t.heap.length k .nil)).height < fuel := by
    have h1 := height_le_keys (plug fs (.node .nil t.heap.length k .nil))
    have h2 := models_keys_lt hm (Nat.lt_succ_self t.heap.length)
    rw [inserted_keys] at h1
    rw [hkeys] at h2
    simp only [Shape.keys, List.append_nil, List.length_append, List.length_cons] at h1 h2
    omega
  have hzp : zoom k (plug fs (.node .nil t.heap.length k .nil)) []
      = (fs, .node .nil t.heap.length k .nil) := by
    rw [zoom_plug_onPath k fs _ [] hpath, zoom_eq, List.append_nil]
  have hz1 : (zoom k (plug fs (.node .nil t.heap.length k .nil)) []).2
      = .node .nil t.heap.length k .nil := by rw [hzp]
  obtain ⟨hdel, -⟩ := delete_node_eq hm1 k hh1 hz1
  rw [hzp] at hdel
  obtain ⟨hctx, -⟩ := rep_plug.1 hmz.2.1
  have hheap : (deletedTree (Tree.mk (insertedHeap t.heap k fs) (insertedRoot t fs)) fs
      (.node .nil t.heap.length k .nil)).heap = t.heap ++ [none] :=
    insert_delete_heap k hctx
  have hroot : (deletedTree (Tree.mk (insertedHeap t.heap k fs) (insertedRoot t fs)) fs
      (.node .nil t.heap.length k .nil)).root = t.root := by
    cases fs with
    | nil => exact hmz.1.symm
    | cons f fs2 => rfl
  generalize deletedTree (Tree.mk (insertedHeap t.heap k fs) (insertedRoot t fs)) fs
    (.node .nil t.heap.length k .nil) = t2 at hdel hheap hroot
  have hload : ∀ a, load t2.heap a = load t.heap a := by
    intro a; rw [hheap]; exact load_append_none _ _
  have hmod : ∀ s2, Models t s2 → Models t2 s2 := fun s2 hm2 =>
    ⟨hroot.trans hm2.1, rep_frame (fun a _ => hload a) hm2.2.1, hm2.2.2⟩
  refine ⟨_, t2, heq, hdel, ?_, hroot, hheap, hload, hmod, fun y => ?_, fun f => ?_, ?_,
    fun e => hroot.trans e⟩
  · intro e
    have := congrArg (fun x => x.heap.length) e
    have hlen : (insertedHeap t.heap k fs).length = t.heap.length + 1 := by
      cases fs <;> simp [insertedHeap]
    simp only [hlen] at this
    omega
  · rw [models_below_iff (hmod s hm), models_below_iff hm]
  · rw [hroot]; exact inorder_congr hload f _
  · rw [hheap]
    simp [live, List.countP_append]

theorem delete_fresh_insert_restores_witness :
    WellFormed tree_four ∧ find_node 6 tree_four 4 = some none ∧
    tree_four.heap.length + 1 < 6 ∧
    (∃ t1 t2, insert_node 6 tree_four 4 = some t1 ∧ delete_node 6 t1 4 = some (t2, false) ∧
      t1 ≠ tree_four ∧ t2.root = tree_four.root ∧ t2.heap = tree_four.heap ++ [none] ∧
      (∀ a, load t2.heap a = load tree_four.heap a) ∧
      (∀ s, Models tree_four s → Models t2 s) ∧
      (∀ y, Below t2.heap t2.root y ↔ Below tree_four.heap tree_four.root y) ∧
      (∀ f, inorder f t2.heap t2.root = inorder f tree_four.heap tree_four.root) ∧
      live t2.heap = live tree_four.heap ∧
      (tree_four.root = none → t2.root = none)) ∧
    (insert_node 6 tree_four 4).bind (fun t1 => delete_node 6 t1 4)
      = some (Tree.mk (tree_four.heap ++ [none]) tree_four.root, false) ∧
    (insert_node 2 initialize_tree 10).bind (fun t1 => delete_node 2 t1 10)
      = some (Tree.mk [none] none, false) :=
  ⟨ordered_wellFormed ordered_tree_four, by decide, by decide,
    delete_fresh_insert_restores tree_four 4 6 (ordered_wellFormed ordered_tree_four)
      (by decide) (by decide),
    by decide, by decide⟩

end BinSearchTree
